import Mathlib

/-!
Shallow embedding of the FEUP-CAL repository sources:
* `src/TP7/Graph.h` — generic adjacency-list graph with Prim's and Kruskal's
  minimum-spanning-tree algorithms (union-find with path compression and
  union by rank).
* `src/TP4/ex1.cpp` — two factorial implementations (`factorialRecurs`,
  `factorialDP`).

Pointers of the C++ source are modelled as arena indices: the graph owns a
list of vertices and a list of edges; a `Vertex<T>*` becomes the index of the
vertex in `vertexSet`, an `Edge<T>*` becomes the index of the edge in the
edge arena.  `double` weights are modelled as rationals, and the sentinel
`INF = std::numeric_limits<double>::max()` as `⊤` in `WithTop ℚ` (no finite
weight of the model equals the sentinel, matching `DBL_MAX` never being used
as an actual edge weight).  C++ exceptions / undefined behaviour
(`vector::at` on an empty vector, dereferencing a null `reverse` pointer)
are modelled by `Option`-valued results.
-/

/-- Model of `Edge<T>` (src/TP7/Graph.h, lines 97-119): `orig` and `dest` are
vertex indices, `reverse` an optional edge index (`nullptr` = `none`). -/
structure GEdge where
  orig : Nat
  dest : Nat
  weight : ℚ
  selected : Bool := false
  reverse : Option Nat := none
deriving DecidableEq, Repr

/-- Model of `Vertex<T>` (src/TP7/Graph.h, lines 27-58): `adj` lists edge
indices into the graph's edge arena, in `push_back` order.  `dist = 0`,
`path = nullptr` are the C++ member initialisers; `visited`, `id`, `rank`
are uninitialised in C++ and only read after the algorithms set them, so the
defaults below are never observable. -/
structure GVertex (T : Type) where
  info : T
  adj : List Nat := []
  visited : Bool := false
  dist : WithTop ℚ := 0
  path : Option Nat := none
  id : Nat := 0
  rank : Nat := 0
deriving DecidableEq, Repr

/-- Model of `Graph<T>` (src/TP7/Graph.h, lines 138-171). -/
structure Graph (T : Type) where
  vertexSet : List (GVertex T) := []
  edges : List GEdge := []
deriving DecidableEq, Repr

/-- Replace the element at index `i` (no-op when out of range); models an
in-place field update through a `Vertex<T>*` / `Edge<T>*`. -/
def modifyIdx (l : List α) (i : Nat) (f : α → α) : List α :=
  match l, i with
  | [], _ => []
  | a :: rest, 0 => f a :: rest
  | a :: rest, n+1 => a :: modifyIdx rest n f

def Graph.updateVertex (g : Graph T) (i : Nat) (f : GVertex T → GVertex T) :
    Graph T :=
  { g with vertexSet := modifyIdx g.vertexSet i f }

def Graph.updateEdge (g : Graph T) (i : Nat) (f : GEdge → GEdge) : Graph T :=
  { g with edges := modifyIdx g.edges i f }

/-- Read a vertex field through its index (the C++ code only ever
dereferences valid pointers; out-of-range reads return defaults and are
never hit on well-formed graphs). -/
def Graph.vertex? (g : Graph T) (i : Nat) : Option (GVertex T) :=
  g.vertexSet[i]?

def Graph.edge? (g : Graph T) (i : Nat) : Option GEdge :=
  g.edges[i]?

def distOf (g : Graph T) (i : Nat) : WithTop ℚ :=
  ((g.vertex? i).map GVertex.dist).getD ⊤

def pathOf (g : Graph T) (i : Nat) : Option Nat :=
  ((g.vertex? i).map GVertex.path).getD none

def visitedOf (g : Graph T) (i : Nat) : Bool :=
  ((g.vertex? i).map GVertex.visited).getD false

def adjOf (g : Graph T) (i : Nat) : List Nat :=
  ((g.vertex? i).map GVertex.adj).getD []

def idOf (g : Graph T) (i : Nat) : Nat :=
  ((g.vertex? i).map GVertex.id).getD 0

def rankOf (g : Graph T) (i : Nat) : Nat :=
  ((g.vertex? i).map GVertex.rank).getD 0

def weightOf (g : Graph T) (eid : Nat) : ℚ :=
  ((g.edge? eid).map GEdge.weight).getD 0

/-- `Graph<T>::getNumVertex` (src/TP7/Graph.h, lines 174-177). -/
def Graph.getNumVertex (g : Graph T) : Nat :=
  g.vertexSet.length

/-- `Graph<T>::findVertex` (src/TP7/Graph.h, lines 187-193): linear scan for
the first vertex whose content equals `x`; returns its index (`nullptr` =
`none`). -/
def Graph.findVertex [DecidableEq T] (g : Graph T) (x : T) : Option Nat :=
  g.vertexSet.findIdx? (fun v => v.info = x)

/-- `Graph<T>::addVertex` (src/TP7/Graph.h, lines 199-205). -/
def Graph.addVertex [DecidableEq T] (g : Graph T) (x : T) : Graph T × Bool :=
  if (g.findVertex x).isSome then (g, false)
  else ({ g with vertexSet := g.vertexSet ++ [{ info := x }] }, true)

/-- `Vertex<T>::addEdge` (src/TP7/Graph.h, lines 68-73): allocate a new edge
from vertex `o` to vertex `d` with weight `w`, append it to `o`'s adjacency,
and return its index (the C++ function returns the `Edge<T>*`). -/
def Graph.pushEdge (g : Graph T) (o d : Nat) (w : ℚ) : Graph T × Nat :=
  let eid := g.edges.length
  ({ g with
      edges := g.edges ++ [{ orig := o, dest := d, weight := w }],
      vertexSet := modifyIdx g.vertexSet o (fun v => { v with adj := v.adj ++ [eid] }) },
   eid)

/-- `Graph<T>::addEdge` (src/TP7/Graph.h, lines 212-220). -/
def Graph.addEdge [DecidableEq T] (g : Graph T) (s d : T) (w : ℚ) :
    Graph T × Bool :=
  match g.findVertex s, g.findVertex d with
  | some v1, some v2 => ((g.pushEdge v1 v2 w).1, true)
  | _, _ => (g, false)

/-- `Graph<T>::addBidirectionalEdge` (src/TP7/Graph.h, lines 222-238). -/
def Graph.addBidirectionalEdge [DecidableEq T] (g : Graph T) (s d : T)
    (w : ℚ) : Graph T × Bool :=
  match g.findVertex s, g.findVertex d with
  | some v1, some v2 =>
    let p1 := g.pushEdge v1 v2 w
    let p2 := p1.1.pushEdge v2 v1 w
    let g2 := p2.1.updateEdge p1.2 (fun e => { e with reverse := some p2.2 })
    (g2.updateEdge p2.2 (fun e => { e with reverse := some p1.2 }), true)
  | _, _ => (g, false)

/-! ### Prim's algorithm (src/TP7/Graph.h, lines 253-286)

`MutablePriorityQueue.h` is included by `Graph.h` but is not part of the
sources.  Modelled from the spec: the priority queue holds vertices, ordered
by their `dist` field via less-than; `insert` adds a vertex, `extractMin`
removes and returns a vertex with smallest `dist`, `decreaseKey` repositions
a vertex whose key decreased (a no-op on the list representation used here,
which re-reads `dist` at extraction time). -/

/-- Modelled from the spec: the vertex of the queue with the smallest
`dist` (the first one, on ties), i.e. what `extractMin` returns.  Missing
source: `MutablePriorityQueue.h`. -/
def queueMin (g : Graph T) : List Nat → Option Nat
  | [] => none
  | i :: rest =>
    match queueMin g rest with
    | none => some i
    | some j => if distOf g j < distOf g i then some j else some i

/-- One relaxation step of Prim's loop body (src/TP7/Graph.h, lines 268-282)
for the edge `eid` out of the extracted vertex `u`; returns the updated
graph and queue (`insert` appends, `decreaseKey` is a no-op). -/
def primRelax (u : Nat) (gq : Graph T × List Nat) (eid : Nat) :
    Graph T × List Nat :=
  match gq.1.edge? eid with
  | none => gq
  | some e =>
    if visitedOf gq.1 e.dest then gq
    else
      let currDist := distOf gq.1 e.dest
      if (e.weight : WithTop ℚ) < currDist then
        let g2 := gq.1.updateVertex e.dest
          (fun v => { v with dist := (e.weight : WithTop ℚ), path := some u })
        if currDist = ⊤ then (g2, gq.2 ++ [e.dest]) else (g2, gq.2)
      else gq

/-- The `while (!q.empty())` loop of `calculatePrim` (src/TP7/Graph.h, lines
265-283), with fuel (one unit per extraction; `vertexSet.length` units
always suffice, since every vertex is inserted at most once). -/
def primLoop (g : Graph T) (q : List Nat) : Nat → Graph T
  | 0 => g
  | fuel+1 =>
    match queueMin g q with
    | none => g
    | some u =>
      let q1 := q.erase u
      let g1 := g.updateVertex u (fun v => { v with visited := true })
      let gq := (adjOf g1 u).foldl (primRelax u) (g1, q1)
      primLoop gq.1 gq.2 fuel

/-- The initial reset loop of `calculatePrim` (src/TP7/Graph.h, lines
255-259). -/
def primReset (g : Graph T) : Graph T :=
  { g with vertexSet := (g.vertexSet.map
      (fun v => { v with dist := ⊤, path := none, visited := false })) }

/-- `Graph<T>::calculatePrim` (src/TP7/Graph.h, lines 253-286).
`vertexSet.at(0)` throws `std::out_of_range` on an empty graph, modelled by
`none`. -/
def Graph.calculatePrim (g : Graph T) : Option (Graph T) :=
  let g1 := primReset g
  match g1.vertexSet with
  | [] => none
  | _ :: _ =>
    let g2 := g1.updateVertex 0 (fun v => { v with dist := (0 : ℚ) })
    some (primLoop g2 [0] g2.vertexSet.length)

/-! ### Disjoint sets (src/TP7/Graph.h, lines 292-316) -/

/-- `Graph<T>::makeSet` (src/TP7/Graph.h, lines 292-296). -/
def Graph.makeSet (g : Graph T) (x : Nat) : Graph T :=
  g.updateVertex x (fun v => { v with path := some x, rank := 0 })

/-- `Graph<T>::findSet` (src/TP7/Graph.h, lines 311-316): path-compressing
find, with fuel for the recursion (`vertexSet.length` always suffices under
the union-by-rank invariant).  Returns the updated graph and the
representative; `none` models a nonterminating/null-dereferencing run that
the C++ invariants rule out. -/
def findSet (g : Graph T) (x : Nat) : Nat → Option (Graph T × Nat)
  | 0 => none
  | fuel+1 =>
    match pathOf g x with
    | none => none
    | some p =>
      if p = x then some (g, x)
      else
        match findSet g p fuel with
        | none => none
        | some (g1, r) =>
          some (g1.updateVertex x (fun v => { v with path := some r }), r)

/-- `Graph<T>::linkSets` (src/TP7/Graph.h, lines 298-309). -/
def linkSets (g : Graph T) (x y : Nat) : Option (Graph T) :=
  match findSet g x g.vertexSet.length with
  | none => none
  | some (g1, i) =>
    match findSet g1 y g1.vertexSet.length with
    | none => none
    | some (g2, j) =>
      if rankOf g2 j < rankOf g2 i then
        some (g2.updateVertex j (fun v => { v with path := some i }))
      else
        let g3 := g2.updateVertex i (fun v => { v with path := some j })
        if rankOf g2 i = rankOf g2 j then
          some (g3.updateVertex j (fun v => { v with rank := v.rank + 1 }))
        else some g3

/-! ### Kruskal's algorithm (src/TP7/Graph.h, lines 325-384) -/

/-- The initialisation loop of `calculateKruskal` (src/TP7/Graph.h, lines
327-331): `makeSet` every vertex and assign sequential ids. -/
def kruskalInit (g : Graph T) : Graph T :=
  { g with vertexSet := (g.vertexSet.mapIdx
      (fun i v => { v with path := some i, rank := 0, id := i })) }

/-- The edge-collection loop of `calculateKruskal` (src/TP7/Graph.h, lines
333-341): clear every `selected` flag and keep the edges with
`orig->id < dest->id` (adjacency order). -/
def Graph.clearSelected (g : Graph T) : Graph T :=
  { g with edges := g.edges.map (fun e => { e with selected := false }) }

def collectEdges (g : Graph T) : List Nat :=
  (g.vertexSet.map GVertex.adj).flatten.filter
    (fun eid =>
      match g.edge? eid with
      | some e => idOf g e.orig < idOf g e.dest
      | none => false)

/-- The `std::sort` call of `calculateKruskal` (src/TP7/Graph.h, lines
343-345): sort the collected edges by ascending weight (ties in an
unspecified but deterministic order). -/
def sortEdges (g : Graph T) (l : List Nat) : List Nat :=
  List.insertionSort (fun e1 e2 => weightOf g e1 ≤ weightOf g e2) l

/-- The union loop of `calculateKruskal` (src/TP7/Graph.h, lines 349-359):
for each edge in sorted order, if the endpoints are in different sets, link
the sets and mark the edge and its reverse as selected.  A null `reverse`
(edge not added via `addBidirectionalEdge`) would be dereferenced by the C++
code; modelled by `none`. -/
def kruskalUnionLoop (g : Graph T) : List Nat → Option (Graph T)
  | [] => some g
  | eid :: rest =>
    match g.edge? eid with
    | none => none
    | some e =>
      match findSet g e.orig g.vertexSet.length with
      | none => none
      | some (g1, r1) =>
        match findSet g1 e.dest g1.vertexSet.length with
        | none => none
        | some (g2, r2) =>
          if r1 = r2 then kruskalUnionLoop g2 rest
          else
            match linkSets g2 e.orig e.dest with
            | none => none
            | some g3 =>
              match g3.edge? eid with
              | none => none
              | some e3 =>
                match e3.reverse with
                | none => none
                | some rid =>
                  let g4 := (g3.updateEdge eid (fun e => { e with selected := true })).updateEdge
                    rid (fun e => { e with selected := true })
                  kruskalUnionLoop g4 rest

/-- `Graph<T>::dfsKruskalPath` (src/TP7/Graph.h, lines 375-384), with fuel
bounding the recursion depth (`vertexSet.length` always suffices since each
nested call visits a fresh vertex). -/
def dfsKruskalPath (fuel : Nat) (g : Graph T) (v : Nat) : Graph T :=
  match fuel with
  | 0 => g
  | fuel+1 =>
    let g1 := g.updateVertex v (fun w => { w with visited := true })
    (adjOf g1 v).foldl
      (fun gAcc eid =>
        match gAcc.edge? eid with
        | none => gAcc
        | some e =>
          if !visitedOf gAcc e.dest && e.selected then
            dfsKruskalPath fuel
              (gAcc.updateVertex e.dest (fun w => { w with path := some v })) e.dest
          else gAcc)
      g1

/-- The state of `calculateKruskal` after its union-find phase (everything
up to and including src/TP7/Graph.h line 359). -/
def kruskalUnionPhase (g : Graph T) : Option (Graph T) :=
  let gI := (kruskalInit g).clearSelected
  kruskalUnionLoop gI (sortEdges gI (collectEdges gI))

/-- The visited-reset loop of `calculateKruskal` (src/TP7/Graph.h, lines
361-363). -/
def Graph.resetVisited (g : Graph T) : Graph T :=
  { g with vertexSet := g.vertexSet.map (fun v => { v with visited := false }) }

/-- `Graph<T>::calculateKruskal` (src/TP7/Graph.h, lines 325-370).
`vertexSet.at(0)` throws `std::out_of_range` on an empty graph, modelled by
`none`. -/
def Graph.calculateKruskal (g : Graph T) : Option (Graph T) :=
  match kruskalUnionPhase g with
  | none => none
  | some gU =>
    let gR := gU.resetVisited
    match gR.vertexSet with
    | [] => none
    | _ :: _ =>
      let gZ := gR.updateVertex 0 (fun v => { v with path := none })
      some (dfsKruskalPath gZ.vertexSet.length gZ 0)

/-! ### src/TP4/ex1.cpp

`unsigned long` is 64 bits wide on the platform of this repository; every
multiplication wraps modulo `2 ^ 64`. -/

/-- `factorialRecurs` (src/TP4/ex1.cpp, lines 3-8). -/
def factorialRecurs : Nat → Nat
  | 0 => 1
  | 1 => 1
  | n+2 => ((n + 2) * factorialRecurs (n + 1)) % 2 ^ 64

/-- `factorialDP` (src/TP4/ex1.cpp, lines 10-23).  The memo array `dp` is a
local variable, zero-initialised on every call, so the `dp[n] != 0` lookup
never hits; the dead store `dp[n] = ...` is dropped (the array dies at
return).  Faithful for `n < 100000` (beyond that the C++ code indexes out of
bounds). -/
def factorialDP : Nat → Nat
  | 0 => 1
  | 1 => 1
  | n+2 =>
    let dp : Nat → Nat := fun _ => 0
    if dp (n + 2) ≠ 0 then dp (n + 2)
    else ((n + 2) * factorialDP (n + 1)) % 2 ^ 64

/-! ### Basic index lemmas -/

theorem length_modifyIdx (l : List α) (i : Nat) (f : α → α) :
    (modifyIdx l i f).length = l.length := by
  induction l generalizing i with
  | nil => rfl
  | cons a rest ih =>
    cases i with
    | zero => rfl
    | succ n => simpa [modifyIdx] using ih n

theorem getElem?_modifyIdx (l : List α) (i : Nat) (f : α → α) (j : Nat) :
    (modifyIdx l i f)[j]? = if i = j then l[j]?.map f else l[j]? := by
  induction l generalizing i j with
  | nil => simp [modifyIdx]
  | cons a rest ih =>
    cases i with
    | zero =>
      cases j with
      | zero => simp [modifyIdx]
      | succ m => simp [modifyIdx]
    | succ n =>
      cases j with
      | zero => simp [modifyIdx]
      | succ m =>
        simp only [modifyIdx, List.getElem?_cons_succ, ih n m]
        by_cases h : n = m <;> simp [h]

theorem vertex?_updateVertex (g : Graph T) (i : Nat) (f : GVertex T → GVertex T)
    (j : Nat) :
    (g.updateVertex i f).vertex? j =
      if i = j then (g.vertex? j).map f else g.vertex? j := by
  simp [Graph.updateVertex, Graph.vertex?, getElem?_modifyIdx]

theorem edge?_updateEdge (g : Graph T) (i : Nat) (f : GEdge → GEdge) (j : Nat) :
    (g.updateEdge i f).edge? j =
      if i = j then (g.edge? j).map f else g.edge? j := by
  simp [Graph.updateEdge, Graph.edge?, getElem?_modifyIdx]

@[simp] theorem edges_updateVertex (g : Graph T) (i : Nat)
    (f : GVertex T → GVertex T) : (g.updateVertex i f).edges = g.edges := rfl

@[simp] theorem vertexSet_updateEdge (g : Graph T) (i : Nat) (f : GEdge → GEdge) :
    (g.updateEdge i f).vertexSet = g.vertexSet := rfl

@[simp] theorem length_updateVertex (g : Graph T) (i : Nat)
    (f : GVertex T → GVertex T) :
    (g.updateVertex i f).vertexSet.length = g.vertexSet.length := by
  simp [Graph.updateVertex, length_modifyIdx]

/-! ### C10: the two factorial implementations agree -/

theorem factorialRecurs_eq_DP : ∀ n, factorialRecurs n = factorialDP n
  | 0 => rfl
  | 1 => rfl
  | n+2 => by
    simp only [factorialRecurs, factorialDP, ne_eq, not_true_eq_false, if_false,
      factorialRecurs_eq_DP (n+1)]

theorem factorialRecurs_eq_factorial_mod :
    ∀ n, factorialRecurs n = n.factorial % 2 ^ 64
  | 0 => by simp [factorialRecurs, Nat.factorial]
  | 1 => by simp [factorialRecurs, Nat.factorial]
  | n+2 => by
    rw [factorialRecurs, factorialRecurs_eq_factorial_mod (n+1)]
    conv_rhs => rw [show (n+2).factorial = (n + 2) * (n + 1).factorial from rfl]
    rw [Nat.mul_mod, Nat.mod_mod_of_dvd _ (dvd_refl _), ← Nat.mul_mod]

/-- C10: for every `n < 100000`, `factorialRecurs n = factorialDP n`, and
both equal `n!` in wrap-around unsigned 64-bit arithmetic: `factorialDP`'s
memo array is freshly zero-initialised on every call, so its lookup never
hits and it performs the same recursive product as `factorialRecurs`. -/
theorem factorialRecurs_eq_factorialDP (n : Nat) (h : n < 100000) :
    factorialRecurs n = factorialDP n ∧
      factorialRecurs n = n.factorial % 2 ^ 64 :=
  ⟨factorialRecurs_eq_DP n, factorialRecurs_eq_factorial_mod n⟩

theorem factorialRecurs_eq_factorialDP_witness :
    5 < 100000 ∧ (factorialRecurs 5 = factorialDP 5 ∧
      factorialRecurs 5 = Nat.factorial 5 % 2 ^ 64) :=
  ⟨by norm_num, factorialRecurs_eq_factorialDP 5 (by norm_num)⟩

/-! ### More index lemmas -/

theorem modifyIdx_append_right (xs ys : List α) (k : Nat) (f : α → α) :
    modifyIdx (xs ++ ys) (xs.length + k) f = xs ++ modifyIdx ys k f := by
  induction xs with
  | nil => simp [modifyIdx]
  | cons a rest ih =>
    simpa [modifyIdx, Nat.succ_add] using ih

theorem modifyIdx_of_length_le (l : List α) (i : Nat) (f : α → α)
    (h : l.length ≤ i) : modifyIdx l i f = l := by
  induction l generalizing i with
  | nil => rfl
  | cons a rest ih =>
    cases i with
    | zero => simp at h
    | succ n =>
      simp only [List.length_cons, Nat.succ_le_succ_iff] at h
      simp [modifyIdx, ih n h]

/-! ### C7: addVertex -/

def infoOf (g : Graph T) (i : Nat) : Option T :=
  (g.vertex? i).map GVertex.info

theorem findVertex_isSome_iff [DecidableEq T] (g : Graph T) (x : T) :
    (g.findVertex x).isSome ↔ ∃ v ∈ g.vertexSet, v.info = x := by
  simp [Graph.findVertex, List.findIdx?_isSome, List.any_eq_true]

/-- C7: `addVertex c` returns `false` iff a vertex with content `c` is
already present; otherwise it appends a fresh vertex with empty adjacency to
the end of the vertex collection and returns `true`, so `getNumVertex`
grows by one exactly on the `true`-returning calls. -/
theorem addVertex_spec [DecidableEq T] (g : Graph T) (c : T) :
    ((g.addVertex c).2 = false ↔ ∃ v ∈ g.vertexSet, v.info = c) ∧
    ((g.addVertex c).2 = true →
      (g.addVertex c).1.vertexSet = g.vertexSet ++ [{ info := c, adj := [] }]) ∧
    (g.addVertex c).1.getNumVertex =
      g.getNumVertex + (if (g.addVertex c).2 then 1 else 0) := by
  by_cases h : (g.findVertex c).isSome
  · have hex := (findVertex_isSome_iff g c).mp h
    simp [Graph.addVertex, h, Graph.getNumVertex, hex]
  · have hex := h ∘ (findVertex_isSome_iff g c).mpr
    simp only [Graph.addVertex, h, if_false, Graph.getNumVertex,
      List.length_append, List.length_cons, List.length_nil, Bool.false_eq_true]
    refine ⟨by simpa using fun v hv hc => hex ⟨v, hv, hc⟩, ?_, ?_⟩ <;>
      first
      | (intro _; rfl)
      | simp
      | trivial

theorem addVertex_spec_witness :
    (((Graph.addVertex {} (3 : ℕ)).2 = false ↔
        ∃ v ∈ (({} : Graph ℕ)).vertexSet, v.info = 3) ∧
      ((Graph.addVertex {} (3 : ℕ)).2 = true →
        (Graph.addVertex {} (3 : ℕ)).1.vertexSet =
          ({} : Graph ℕ).vertexSet ++ [{ info := 3, adj := [] }]) ∧
      (Graph.addVertex {} (3 : ℕ)).1.getNumVertex =
        ({} : Graph ℕ).getNumVertex +
          (if (Graph.addVertex {} (3 : ℕ)).2 then 1 else 0)) :=
  addVertex_spec {} 3

/-! ### C6: addBidirectionalEdge -/

theorem addBidirectionalEdge_edges [DecidableEq T] (g : Graph T) (a b : T)
    (w : ℚ) (ia ib : Nat) (h1 : g.findVertex a = some ia)
    (h2 : g.findVertex b = some ib) :
    ((g.addBidirectionalEdge a b w).1).edges =
      g.edges ++
        [{ orig := ia, dest := ib, weight := w, selected := false,
           reverse := some (g.edges.length + 1) },
         { orig := ib, dest := ia, weight := w, selected := false,
           reverse := some g.edges.length }] := by
  unfold Graph.addBidirectionalEdge
  rw [h1, h2]
  simp only [Graph.pushEdge, Graph.updateEdge, List.length_append,
    List.length_cons, List.length_nil]
  rw [List.append_assoc]
  have e0 : g.edges.length = g.edges.length + 0 := rfl
  rw [show g.edges.length + 1 = g.edges.length + 1 from rfl, e0,
    modifyIdx_append_right, ← e0]
  rw [show g.edges.length + 1 = g.edges.length + 1 from rfl,
    modifyIdx_append_right]
  rfl

theorem addBidirectionalEdge_vertexSet [DecidableEq T] (g : Graph T)
    (a b : T) (w : ℚ) (ia ib : Nat) (h1 : g.findVertex a = some ia)
    (h2 : g.findVertex b = some ib) :
    ((g.addBidirectionalEdge a b w).1).vertexSet =
      modifyIdx
        (modifyIdx g.vertexSet ia
          (fun v => { v with adj := v.adj ++ [g.edges.length] }))
        ib (fun v => { v with adj := v.adj ++ [g.edges.length + 1] }) := by
  unfold Graph.addBidirectionalEdge
  rw [h1, h2]
  simp only [Graph.pushEdge, Graph.updateEdge, List.length_append,
    List.length_cons, List.length_nil]

theorem findVertex_info [DecidableEq T] (g : Graph T) (x : T) (i : Nat)
    (h : g.findVertex x = some i) :
    i < g.vertexSet.length ∧ ∃ v, g.vertex? i = some v ∧ v.info = x := by
  obtain ⟨hlt, hp, -⟩ := List.findIdx?_eq_some_iff_getElem.mp h
  exact ⟨hlt, g.vertexSet[i], by simp [Graph.vertex?], by simpa using hp⟩

/-- C6: `addBidirectionalEdge a b w` returns `false` iff one of the
endpoint contents is absent, and a successful call creates a directed edge
`a→b` and a directed edge `b→a`, both of weight `w`, each holding the other
as its reverse-pair reference. -/
theorem addBidirectionalEdge_spec [DecidableEq T] (g : Graph T) (a b : T)
    (w : ℚ) :
    ((g.addBidirectionalEdge a b w).2 = false ↔
      (¬ ∃ v ∈ g.vertexSet, v.info = a) ∨ (¬ ∃ v ∈ g.vertexSet, v.info = b)) ∧
    (∀ ia ib, g.findVertex a = some ia → g.findVertex b = some ib →
      (g.addBidirectionalEdge a b w).2 = true ∧
      (∃ i j, i ≠ j ∧
        (g.addBidirectionalEdge a b w).1.edge? i =
          some { orig := ia, dest := ib, weight := w, selected := false,
                 reverse := some j } ∧
        (g.addBidirectionalEdge a b w).1.edge? j =
          some { orig := ib, dest := ia, weight := w, selected := false,
                 reverse := some i } ∧
        infoOf (g.addBidirectionalEdge a b w).1 ia = some a ∧
        infoOf (g.addBidirectionalEdge a b w).1 ib = some b)) := by
  constructor
  · rw [← not_iff_not]
    push_neg
    rw [← findVertex_isSome_iff, ← findVertex_isSome_iff]
    unfold Graph.addBidirectionalEdge
    match h1 : g.findVertex a, h2 : g.findVertex b with
    | some v1, some v2 => simp
    | some v1, none => simp
    | none, some v2 => simp
    | none, none => simp
  · intro ia ib h1 h2
    obtain ⟨hia, va, hva, hainfo⟩ := findVertex_info g a ia h1
    obtain ⟨hib, vb, hvb, hbinfo⟩ := findVertex_info g b ib h2
    have hsnd : (g.addBidirectionalEdge a b w).2 = true := by
      unfold Graph.addBidirectionalEdge
      rw [h1, h2]
    refine ⟨hsnd, g.edges.length, g.edges.length + 1, by omega, ?_, ?_, ?_, ?_⟩
    · simp only [Graph.edge?, addBidirectionalEdge_edges g a b w ia ib h1 h2]
      rw [List.getElem?_append_right (le_refl _)]
      simp
    · simp only [Graph.edge?, addBidirectionalEdge_edges g a b w ia ib h1 h2]
      rw [List.getElem?_append_right (by omega)]
      simp
    · simp only [infoOf, Graph.vertex?,
        addBidirectionalEdge_vertexSet g a b w ia ib h1 h2]
      rw [getElem?_modifyIdx, getElem?_modifyIdx]
      by_cases hab : ib = ia
      · subst hab
        simp only [if_pos rfl]
        simp only [Graph.vertex?] at hva
        simp [hva, hainfo]
      · rw [if_neg hab, if_pos rfl]
        simp only [Graph.vertex?] at hva
        simp [hva, hainfo]
    · simp only [infoOf, Graph.vertex?,
        addBidirectionalEdge_vertexSet g a b w ia ib h1 h2]
      rw [getElem?_modifyIdx]
      rw [if_pos rfl, getElem?_modifyIdx]
      by_cases hab : ia = ib
      · subst hab
        simp only [if_pos rfl]
        simp only [Graph.vertex?] at hvb
        simp [hvb, hbinfo]
      · rw [if_neg hab]
        simp only [Graph.vertex?] at hvb
        simp [hvb, hbinfo]

theorem addBidirectionalEdge_spec_witness :
    let g : Graph ℕ := ((Graph.addVertex {} 0).1.addVertex 1).1
    (((g.addBidirectionalEdge 0 1 (5 : ℚ)).2 = false ↔
      (¬ ∃ v ∈ g.vertexSet, v.info = 0) ∨ (¬ ∃ v ∈ g.vertexSet, v.info = 1)) ∧
    (∀ ia ib, g.findVertex 0 = some ia → g.findVertex 1 = some ib →
      (g.addBidirectionalEdge 0 1 (5 : ℚ)).2 = true ∧
      (∃ i j, i ≠ j ∧
        (g.addBidirectionalEdge 0 1 (5 : ℚ)).1.edge? i =
          some { orig := ia, dest := ib, weight := 5, selected := false,
                 reverse := some j } ∧
        (g.addBidirectionalEdge 0 1 (5 : ℚ)).1.edge? j =
          some { orig := ib, dest := ia, weight := 5, selected := false,
                 reverse := some i } ∧
        infoOf (g.addBidirectionalEdge 0 1 (5 : ℚ)).1 ia = some 0 ∧
        infoOf (g.addBidirectionalEdge 0 1 (5 : ℚ)).1 ib = some 1))) :=
  addBidirectionalEdge_spec _ 0 1 5

/-! ### C5: calculatePrim is idempotent

`calculatePrim` only mutates the `dist`, `path` and `visited` scratch fields,
all of which its own initial reset loop overwrites; hence running it a second
time reproduces the same computation. -/

theorem map_modifyIdx_of_comp (l : List α) (i : Nat) (f : α → α) (h : α → β)
    (hcomp : ∀ x, h (f x) = h x) : (modifyIdx l i f).map h = l.map h := by
  induction l generalizing i with
  | nil => rfl
  | cons a rest ih =>
    cases i with
    | zero => simp [modifyIdx, hcomp]
    | succ n => simp [modifyIdx, ih n]

theorem primReset_updateVertex (g : Graph T) (i : Nat)
    (f : GVertex T → GVertex T)
    (hf : ∀ v, (f v).info = v.info ∧ (f v).adj = v.adj ∧ (f v).id = v.id ∧
      (f v).rank = v.rank) :
    primReset (g.updateVertex i f) = primReset g := by
  simp only [primReset, Graph.updateVertex]
  congr 1
  refine map_modifyIdx_of_comp _ _ _ _ (fun v => ?_)
  obtain ⟨h1, h2, h3, h4⟩ := hf v
  simp [h1, h2, h3, h4]

theorem primReset_primRelax (u : Nat) (gq : Graph T × List Nat) (eid : Nat) :
    primReset (primRelax u gq eid).1 = primReset gq.1 := by
  unfold primRelax
  split
  · rfl
  · split
    · rfl
    · dsimp only
      split
      · split <;>
          exact primReset_updateVertex _ _ _ (fun v => ⟨rfl, rfl, rfl, rfl⟩)
      · rfl

theorem primReset_primRelax_foldl (u : Nat) (l : List Nat)
    (gq : Graph T × List Nat) :
    primReset (l.foldl (primRelax u) gq).1 = primReset gq.1 := by
  induction l generalizing gq with
  | nil => rfl
  | cons eid rest ih => rw [List.foldl_cons, ih, primReset_primRelax]

theorem primReset_primLoop (fuel : Nat) (g : Graph T) (q : List Nat) :
    primReset (primLoop g q fuel) = primReset g := by
  induction fuel generalizing g q with
  | zero => rfl
  | succ n ih =>
    unfold primLoop
    split
    · rfl
    · rw [ih, primReset_primRelax_foldl]
      exact primReset_updateVertex _ _ _ (fun v => ⟨rfl, rfl, rfl, rfl⟩)

theorem primReset_primReset (g : Graph T) :
    primReset (primReset g) = primReset g := by
  simp [primReset]

theorem primReset_calculatePrim (g gp : Graph T)
    (h : g.calculatePrim = some gp) : primReset gp = primReset g := by
  unfold Graph.calculatePrim at h
  dsimp only at h
  revert h
  split
  · intro h; cases h
  · intro h
    cases h
    rw [primReset_primLoop]
    rw [primReset_updateVertex (primReset g) 0
      (fun v => { v with dist := ((0 : ℚ) : WithTop ℚ) })
      (fun v => ⟨rfl, rfl, rfl, rfl⟩)]
    exact primReset_primReset g

theorem calculatePrim_eq_of_primReset_eq (g g' : Graph T)
    (h : primReset g' = primReset g) :
    g'.calculatePrim = g.calculatePrim := by
  unfold Graph.calculatePrim
  rw [h]

/-- C5: on a non-empty graph, a second `calculatePrim` call with no
intervening modification succeeds and produces exactly the same distance and
parent (`path`) assignment on every vertex as the first call. -/
theorem calculatePrim_idempotent (g gp : Graph T) (hne : g.vertexSet ≠ [])
    (h : g.calculatePrim = some gp) :
    ∃ gp2, gp.calculatePrim = some gp2 ∧
      ∀ i, distOf gp2 i = distOf gp i ∧ pathOf gp2 i = pathOf gp i := by
  refine ⟨gp, ?_, fun i => ⟨rfl, rfl⟩⟩
  rw [calculatePrim_eq_of_primReset_eq g gp (primReset_calculatePrim g gp h)]
  exact h

/-- A concrete two-vertex graph used by witnesses. -/
def exGraph2 : Graph ℕ :=
  (((Graph.addVertex {} 0).1.addVertex 1).1.addBidirectionalEdge 0 1 (7 : ℚ)).1

theorem calculatePrim_idempotent_witness :
    exGraph2.vertexSet ≠ [] ∧ ∃ gp, exGraph2.calculatePrim = some gp ∧
      ∃ gp2, gp.calculatePrim = some gp2 ∧
        ∀ i, distOf gp2 i = distOf gp i ∧ pathOf gp2 i = pathOf gp i := by
  refine ⟨by decide, ?_⟩
  obtain ⟨gp, hgp⟩ : ∃ gp, exGraph2.calculatePrim = some gp := ⟨_, rfl⟩
  exact ⟨gp, hgp, calculatePrim_idempotent _ gp (by decide) hgp⟩

/-! ### Graphs built through the construction API

The MST claims quantify over graphs whose edges were added via
`addBidirectionalEdge`; such graphs are exactly the results of a sequence of
`addVertex` / `addBidirectionalEdge` calls starting from the default-
constructed (empty) graph. -/

inductive BuildOp (T : Type) where
  | vertex (x : T)
  | biEdge (s d : T) (w : ℚ)
deriving DecidableEq, Repr

def applyOp [DecidableEq T] (g : Graph T) : BuildOp T → Graph T
  | .vertex x => (g.addVertex x).1
  | .biEdge s d w => (g.addBidirectionalEdge s d w).1

def buildGraph [DecidableEq T] (ops : List (BuildOp T)) : Graph T :=
  ops.foldl applyOp {}

/-- Structural invariants of every graph built through the construction API:
edge endpoints are valid indices, each edge sits exactly in its origin's
adjacency list, and edges come in mutually-reverse pairs of equal weight
(the `addBidirectionalEdge` discipline). -/
structure WF (g : Graph T) : Prop where
  edge_orig_lt : ∀ e ∈ g.edges, e.orig < g.vertexSet.length
  edge_dest_lt : ∀ e ∈ g.edges, e.dest < g.vertexSet.length
  adj_orig : ∀ i, ∀ eid ∈ adjOf g i, ∃ e, g.edge? eid = some e ∧ e.orig = i
  orig_adj : ∀ eid e, g.edge? eid = some e → eid ∈ adjOf g e.orig
  adj_nodup : ∀ i, (adjOf g i).Nodup
  pair : ∀ eid e, g.edge? eid = some e → ∃ rid re, e.reverse = some rid ∧
    g.edge? rid = some re ∧ re.orig = e.dest ∧ re.dest = e.orig ∧
    re.weight = e.weight ∧ re.reverse = some eid ∧ rid ≠ eid

theorem edge?_lt (g : Graph T) (eid : Nat) (e : GEdge)
    (h : g.edge? eid = some e) : eid < g.edges.length := by
  simpa using (List.getElem?_eq_some.mp h).1

theorem edge?_mem (g : Graph T) (eid : Nat) (e : GEdge)
    (h : g.edge? eid = some e) : e ∈ g.edges :=
  List.getElem?_mem h

theorem vertex?_lt (g : Graph T) (i : Nat) (v : GVertex T)
    (h : g.vertex? i = some v) : i < g.vertexSet.length := by
  simpa using (List.getElem?_eq_some.mp h).1

theorem adjOf_addVertex [DecidableEq T] (g : Graph T) (x : T) (i : Nat)
    (hi : i < g.vertexSet.length) : adjOf (g.addVertex x).1 i = adjOf g i := by
  unfold Graph.addVertex
  split
  · rfl
  · simp only [adjOf, Graph.vertex?]
    rw [List.getElem?_append_left hi]

theorem edges_addVertex [DecidableEq T] (g : Graph T) (x : T) :
    (g.addVertex x).1.edges = g.edges := by
  unfold Graph.addVertex
  split <;> rfl

theorem WF_empty : WF ({} : Graph T) := by
  constructor <;> simp [adjOf, Graph.vertex?, Graph.edge?]

theorem WF_addVertex [DecidableEq T] (g : Graph T) (x : T) (hw : WF g) :
    WF (g.addVertex x).1 := by
  unfold Graph.addVertex
  split
  · exact hw
  · constructor
    · intro e he
      simp only [List.length_append, List.length_cons, List.length_nil]
      have := hw.edge_orig_lt e he
      omega
    · intro e he
      simp only [List.length_append, List.length_cons, List.length_nil]
      have := hw.edge_dest_lt e he
      omega
    · intro i eid hmem
      rcases Nat.lt_trichotomy i g.vertexSet.length with hlt | heq | hgt
      · refine hw.adj_orig i eid ?_
        simpa [adjOf, Graph.vertex?, List.getElem?_append_left hlt] using hmem
      · subst heq
        simp [adjOf, Graph.vertex?, List.getElem?_append_right (le_refl _)] at hmem
      · exfalso
        rw [adjOf, Graph.vertex?, List.getElem?_eq_none (by
          simp only [List.length_append, List.length_cons, List.length_nil]
          omega)] at hmem
        simp at hmem
    · intro eid e he
      have hlt := hw.edge_orig_lt e (edge?_mem _ _ _ he)
      have := hw.orig_adj eid e he
      simpa [adjOf, Graph.vertex?, List.getElem?_append_left hlt] using this
    · intro i
      rcases Nat.lt_trichotomy i g.vertexSet.length with hlt | heq | hgt
      · have := hw.adj_nodup i
        simpa [adjOf, Graph.vertex?, List.getElem?_append_left hlt] using this
      · subst heq
        simp [adjOf, Graph.vertex?, List.getElem?_append_right (le_refl _)]
      · rw [adjOf, Graph.vertex?, List.getElem?_eq_none (by
          simp only [List.length_append, List.length_cons, List.length_nil]
          omega)]
        simp
    · exact hw.pair

theorem length_vertexSet_addBidirectionalEdge [DecidableEq T] (g : Graph T)
    (a b : T) (w : ℚ) (ia ib : Nat) (h1 : g.findVertex a = some ia)
    (h2 : g.findVertex b = some ib) :
    ((g.addBidirectionalEdge a b w).1).vertexSet.length =
      g.vertexSet.length := by
  rw [addBidirectionalEdge_vertexSet g a b w ia ib h1 h2,
    length_modifyIdx, length_modifyIdx]

theorem edge?_addBidirectionalEdge [DecidableEq T] (g : Graph T) (a b : T)
    (w : ℚ) (ia ib : Nat) (h1 : g.findVertex a = some ia)
    (h2 : g.findVertex b = some ib) (eid : Nat) :
    ((g.addBidirectionalEdge a b w).1).edge? eid =
      if eid < g.edges.length then g.edge? eid
      else if eid = g.edges.length then
        some { orig := ia, dest := ib, weight := w, selected := false,
               reverse := some (g.edges.length + 1) }
      else if eid = g.edges.length + 1 then
        some { orig := ib, dest := ia, weight := w, selected := false,
               reverse := some g.edges.length }
      else none := by
  simp only [Graph.edge?, addBidirectionalEdge_edges g a b w ia ib h1 h2]
  by_cases hlt : eid < g.edges.length
  · rw [if_pos hlt, List.getElem?_append_left hlt]
  · rw [if_neg hlt, List.getElem?_append_right (by omega)]
    by_cases he : eid = g.edges.length
    · subst he
      simp
    · rw [if_neg he]
      by_cases he1 : eid = g.edges.length + 1
      · subst he1
        simp
      · rw [if_neg he1, List.getElem?_eq_none]
        simp
        omega

theorem adjOf_addBidirectionalEdge [DecidableEq T] (g : Graph T) (a b : T)
    (w : ℚ) (ia ib : Nat) (h1 : g.findVertex a = some ia)
    (h2 : g.findVertex b = some ib) (i : Nat) :
    adjOf (g.addBidirectionalEdge a b w).1 i =
      adjOf g i ++ (if ia = i then [g.edges.length] else []) ++
        (if ib = i then [g.edges.length + 1] else []) := by
  obtain ⟨hlta, -⟩ := findVertex_info g a ia h1
  obtain ⟨hltb, -⟩ := findVertex_info g b ib h2
  simp only [adjOf, Graph.vertex?,
    addBidirectionalEdge_vertexSet g a b w ia ib h1 h2]
  rw [getElem?_modifyIdx, getElem?_modifyIdx]
  by_cases hib : ib = i
  · subst hib
    obtain ⟨v, hv⟩ : ∃ v, g.vertexSet[ib]? = some v := by
      rw [List.getElem?_eq_getElem hltb]; exact ⟨_, rfl⟩
    by_cases hia : ia = ib <;> simp [hia, hv]
  · rw [if_neg hib, if_neg hib]
    by_cases hia : ia = i
    · subst hia
      obtain ⟨v, hv⟩ : ∃ v, g.vertexSet[ia]? = some v := by
        rw [List.getElem?_eq_getElem hlta]; exact ⟨_, rfl⟩
      simp [hv]
    · simp [hia]

theorem WF_adj_lt (hw : WF g) (i eid : Nat) (h : eid ∈ adjOf g i) :
    eid < g.edges.length := by
  obtain ⟨e, he, -⟩ := hw.adj_orig i eid h
  exact edge?_lt g eid e he

theorem WF_addBidirectionalEdge [DecidableEq T] (g : Graph T) (a b : T)
    (w : ℚ) (hw : WF g) : WF (g.addBidirectionalEdge a b w).1 := by
  match h1 : g.findVertex a, h2 : g.findVertex b with
  | none, _ =>
    unfold Graph.addBidirectionalEdge
    rw [h1]
    exact hw
  | some ia, none =>
    unfold Graph.addBidirectionalEdge
    rw [h1, h2]
    exact hw
  | some ia, some ib =>
    obtain ⟨hlta, -⟩ := findVertex_info g a ia h1
    obtain ⟨hltb, -⟩ := findVertex_info g b ib h2
    have hlen := length_vertexSet_addBidirectionalEdge g a b w ia ib h1 h2
    have hedges := addBidirectionalEdge_edges g a b w ia ib h1 h2
    have hedge? := edge?_addBidirectionalEdge g a b w ia ib h1 h2
    have hadj := adjOf_addBidirectionalEdge g a b w ia ib h1 h2
    constructor
    · intro e he
      rw [hedges] at he
      rw [hlen]
      rcases List.mem_append.mp he with hold | hnew
      · exact hw.edge_orig_lt e hold
      · simp only [List.mem_cons, List.not_mem_nil, or_false] at hnew
        rcases hnew with rfl | rfl
        · exact hlta
        · exact hltb
    · intro e he
      rw [hedges] at he
      rw [hlen]
      rcases List.mem_append.mp he with hold | hnew
      · exact hw.edge_dest_lt e hold
      · simp only [List.mem_cons, List.not_mem_nil, or_false] at hnew
        rcases hnew with rfl | rfl
        · exact hltb
        · exact hlta
    · intro i eid hmem
      rw [hadj i] at hmem
      rcases List.mem_append.mp hmem with hmem' | hmem2
      · rcases List.mem_append.mp hmem' with hold | hL
        · obtain ⟨e, he, horig⟩ := hw.adj_orig i eid hold
          refine ⟨e, ?_, horig⟩
          rw [hedge? eid, if_pos (edge?_lt g eid e he)]
          exact he
        · have hia : ia = i := by
            by_contra hne
            simp [hne] at hL
          have heid : eid = g.edges.length := by
            rw [if_pos hia] at hL
            simpa using hL
          subst heid
          refine ⟨{ orig := ia, dest := ib, weight := w, selected := false,
                    reverse := some (g.edges.length + 1) }, ?_, hia⟩
          rw [hedge?, if_neg (by omega), if_pos rfl]
      · have hib : ib = i := by
          by_contra hne
          simp [hne] at hmem2
        have heid : eid = g.edges.length + 1 := by
          rw [if_pos hib] at hmem2
          simpa using hmem2
        subst heid
        refine ⟨{ orig := ib, dest := ia, weight := w, selected := false,
                  reverse := some g.edges.length }, ?_, hib⟩
        rw [hedge?, if_neg (by omega), if_neg (by omega), if_pos rfl]
    · intro eid e he
      rw [hedge?] at he
      by_cases hlt : eid < g.edges.length
      · rw [if_pos hlt] at he
        have := hw.orig_adj eid e he
        rw [hadj e.orig]
        exact List.mem_append_left _ (List.mem_append_left _ this)
      · rw [if_neg hlt] at he
        by_cases heq : eid = g.edges.length
        · rw [if_pos heq] at he
          cases he
          subst heq
          rw [hadj]
          simp
        · rw [if_neg heq] at he
          by_cases heq1 : eid = g.edges.length + 1
          · rw [if_pos heq1] at he
            cases he
            subst heq1
            rw [hadj]
            simp
          · rw [if_neg heq1] at he
            cases he
    · intro i
      rw [hadj i]
      have hnd := hw.adj_nodup i
      have hbound := fun eid h => WF_adj_lt hw i eid h
      have hxL : g.edges.length ∉ adjOf g i := fun hmem =>
        absurd (hbound _ hmem) (by omega)
      have hxL1 : g.edges.length + 1 ∉ adjOf g i := fun hmem =>
        absurd (hbound _ hmem) (by omega)
      by_cases hia : ia = i <;> by_cases hib : ib = i
      · rw [if_pos hia, if_pos hib, ← List.concat_eq_append,
          ← List.concat_eq_append]
        refine List.Nodup.concat ?_ (List.Nodup.concat hxL hnd)
        intro hmem
        rw [List.concat_eq_append, List.mem_append] at hmem
        rcases hmem with hmem | hmem
        · exact hxL1 hmem
        · simp at hmem
      · rw [if_pos hia, if_neg hib, List.append_nil, ← List.concat_eq_append]
        exact List.Nodup.concat hxL hnd
      · rw [if_neg hia, if_pos hib, List.append_nil, ← List.concat_eq_append]
        exact List.Nodup.concat hxL1 hnd
      · rw [if_neg hia, if_neg hib, List.append_nil, List.append_nil]
        exact hnd
    · intro eid e he
      rw [hedge?] at he
      by_cases hlt : eid < g.edges.length
      · rw [if_pos hlt] at he
        obtain ⟨rid, re, hrev, hre, h3, h4, h5, h6, h7⟩ := hw.pair eid e he
        refine ⟨rid, re, hrev, ?_, h3, h4, h5, h6, h7⟩
        rw [hedge?, if_pos (edge?_lt g rid re hre)]
        exact hre
      · rw [if_neg hlt] at he
        by_cases heq : eid = g.edges.length
        · rw [if_pos heq] at he
          cases he
          subst heq
          refine ⟨g.edges.length + 1,
            { orig := ib, dest := ia, weight := w, selected := false,
              reverse := some g.edges.length }, rfl, ?_, rfl, rfl, rfl, rfl, by omega⟩
          rw [hedge?, if_neg (by omega), if_neg (by omega), if_pos rfl]
        · rw [if_neg heq] at he
          by_cases heq1 : eid = g.edges.length + 1
          · rw [if_pos heq1] at he
            cases he
            subst heq1
            refine ⟨g.edges.length,
              { orig := ia, dest := ib, weight := w, selected := false,
                reverse := some (g.edges.length + 1) }, rfl, ?_, rfl, rfl, rfl, rfl, by omega⟩
            rw [hedge?, if_neg (by omega), if_pos rfl]
          · rw [if_neg heq1] at he
            cases he

theorem WF_buildGraph [DecidableEq T] (ops : List (BuildOp T)) :
    WF (buildGraph ops) := by
  suffices h : ∀ g : Graph T, WF g → WF (ops.foldl applyOp g) from
    h {} WF_empty
  induction ops with
  | nil => exact fun g hg => hg
  | cons op rest ih =>
    intro g hg
    rw [List.foldl_cons]
    refine ih _ ?_
    cases op with
    | vertex x => exact WF_addVertex g x hg
    | biEdge s d w => exact WF_addBidirectionalEdge g s d w hg

/-! ### Reachability along outgoing edges

`calculatePrim` explores the graph along adjacency lists; a vertex it can
ever touch is one reachable from vertex 0 through directed steps. -/

def edgeTo (g : Graph T) (eid v : Nat) : Bool :=
  match g.edge? eid with
  | some e => e.dest = v
  | none => false

def destOf (g : Graph T) (eid : Nat) : Nat :=
  ((g.edge? eid).map GEdge.dest).getD 0

/-- One directed step: some edge in `u`'s adjacency list has destination
`v`. -/
def dstep (g : Graph T) (u v : Nat) : Prop :=
  ∃ eid ∈ adjOf g u, edgeTo g eid v = true

/-- Directed reachability (reflexive-transitive closure of `dstep`). -/
def DReach (g : Graph T) : Nat → Nat → Prop :=
  Relation.ReflTransGen (dstep g)

theorem edgeTo_iff (g : Graph T) (eid v : Nat) :
    edgeTo g eid v = true ↔ ∃ e, g.edge? eid = some e ∧ e.dest = v := by
  unfold edgeTo
  split
  · simp_all
  · simp_all

theorem dreach_closed (g : Graph T) (s : List Nat) (a : Nat) (h0 : a ∈ s)
    (hc : ∀ x ∈ s, ∀ eid ∈ adjOf g x, destOf g eid ∈ s) :
    ∀ b, DReach g a b → b ∈ s := by
  intro b hr
  induction hr with
  | refl => exact h0
  | tail hr hstep ih =>
    obtain ⟨eid, hmem, hto⟩ := hstep
    obtain ⟨e, he, hdest⟩ := (edgeTo_iff _ _ _).mp hto
    have := hc _ ih eid hmem
    rw [destOf, he] at this
    simp only [Option.map_some, Option.map_some', Option.getD_some] at this
    exact hdest ▸ this

/-! ### C4: Prim leaves vertices unreachable from vertex 0 untouched -/

theorem distOf_updateVertex_ne (g : Graph T) (i : Nat)
    (f : GVertex T → GVertex T) (j : Nat) (h : i ≠ j) :
    distOf (g.updateVertex i f) j = distOf g j := by
  simp [distOf, vertex?_updateVertex, h]

theorem pathOf_updateVertex_ne (g : Graph T) (i : Nat)
    (f : GVertex T → GVertex T) (j : Nat) (h : i ≠ j) :
    pathOf (g.updateVertex i f) j = pathOf g j := by
  simp [pathOf, vertex?_updateVertex, h]

theorem visitedOf_updateVertex_ne (g : Graph T) (i : Nat)
    (f : GVertex T → GVertex T) (j : Nat) (h : i ≠ j) :
    visitedOf (g.updateVertex i f) j = visitedOf g j := by
  simp [visitedOf, vertex?_updateVertex, h]

theorem adjOf_updateVertex (g : Graph T) (i : Nat)
    (f : GVertex T → GVertex T) (j : Nat) (hf : ∀ v, (f v).adj = v.adj) :
    adjOf (g.updateVertex i f) j = adjOf g j := by
  simp only [adjOf, vertex?_updateVertex]
  by_cases h : i = j
  · subst h
    cases g.vertex? i <;> simp [hf]
  · rw [if_neg h]

theorem edge?_updateVertex (g : Graph T) (i : Nat)
    (f : GVertex T → GVertex T) (eid : Nat) :
    (g.updateVertex i f).edge? eid = g.edge? eid := rfl

/-- Loop invariant for C4: the adjacency structure is that of `g0`, the
queue holds only vertices reachable from 0 in `g0`, and every unreachable
vertex still carries its reset values. -/
def PrimUntouched (g0 g : Graph T) (q : List Nat) : Prop :=
  (∀ j, adjOf g j = adjOf g0 j) ∧ g.edges = g0.edges ∧
  (∀ u ∈ q, DReach g0 0 u) ∧
  (∀ v, ¬ DReach g0 0 v →
    distOf g v = ⊤ ∧ pathOf g v = none ∧ visitedOf g v = false)

theorem primRelax_untouched (g0 : Graph T) (u : Nat) (hu : DReach g0 0 u)
    (gq : Graph T × List Nat) (eid : Nat)
    (hinv : PrimUntouched g0 gq.1 gq.2) (hmem : eid ∈ adjOf g0 u) :
    PrimUntouched g0 (primRelax u gq eid).1 (primRelax u gq eid).2 := by
  obtain ⟨hadj, hedges, hq, huntouched⟩ := hinv
  unfold primRelax
  have hedge? : gq.1.edge? eid = g0.edge? eid := by
    simp [Graph.edge?, hedges]
  split
  · exact ⟨hadj, hedges, hq, huntouched⟩
  next e he =>
    have hreach : DReach g0 0 e.dest := by
      refine Relation.ReflTransGen.tail hu ⟨eid, hmem, ?_⟩
      rw [edgeTo_iff]
      exact ⟨e, by rw [← hedge?]; exact he, rfl⟩
    split
    · exact ⟨hadj, hedges, hq, huntouched⟩
    · dsimp only
      split
      · have hstate : PrimUntouched g0
            (gq.1.updateVertex e.dest (fun v =>
              { v with dist := (e.weight : WithTop ℚ), path := some u }))
            gq.2 := by
          refine ⟨?_, hedges, hq, ?_⟩
          · intro j
            rw [adjOf_updateVertex _ _ _ _ (by intro v; rfl)]
            exact hadj j
          · intro v hv
            have hne : e.dest ≠ v := fun hEq => hv (hEq ▸ hreach)
            rw [distOf_updateVertex_ne _ _ _ _ hne,
              pathOf_updateVertex_ne _ _ _ _ hne,
              visitedOf_updateVertex_ne _ _ _ _ hne]
            exact huntouched v hv
        obtain ⟨hadj1, hedges1, hq1, huntouched1⟩ := hstate
        split
        · refine ⟨hadj1, hedges1, ?_, huntouched1⟩
          intro x hx
          rcases List.mem_append.mp hx with hx | hx
          · exact hq x hx
          · simp only [List.mem_singleton] at hx
            exact hx ▸ hreach
        · exact ⟨hadj1, hedges1, hq1, huntouched1⟩
      · exact ⟨hadj, hedges, hq, huntouched⟩

theorem primRelax_foldl_untouched (g0 : Graph T) (u : Nat)
    (hu : DReach g0 0 u) (l : List Nat) (gq : Graph T × List Nat)
    (hinv : PrimUntouched g0 gq.1 gq.2) (hl : ∀ eid ∈ l, eid ∈ adjOf g0 u) :
    PrimUntouched g0 (l.foldl (primRelax u) gq).1
      (l.foldl (primRelax u) gq).2 := by
  induction l generalizing gq with
  | nil => exact hinv
  | cons eid rest ih =>
    rw [List.foldl_cons]
    exact ih _ (primRelax_untouched g0 u hu gq eid hinv
      (hl eid (List.mem_cons_self _ _))) (fun x hx => hl x (List.mem_cons_of_mem _ hx))

theorem queueMin_mem (g : Graph T) (q : List Nat) (u : Nat)
    (h : queueMin g q = some u) : u ∈ q := by
  induction q with
  | nil => cases h
  | cons i rest ih =>
    unfold queueMin at h
    revert h
    split
    · intro h
      cases h
      exact List.mem_cons_self _ _
    next j hj =>
      split
      · intro h
        cases h
        exact List.mem_cons_of_mem _ (ih hj)
      · intro h
        cases h
        exact List.mem_cons_self _ _

theorem primLoop_untouched (g0 : Graph T) (fuel : Nat) (g : Graph T)
    (q : List Nat) (hinv : PrimUntouched g0 g q) :
    PrimUntouched g0 (primLoop g q fuel) [] ∨
    ∀ v, ¬ DReach g0 0 v →
      distOf (primLoop g q fuel) v = ⊤ ∧
      pathOf (primLoop g q fuel) v = none := by
  induction fuel generalizing g q with
  | zero =>
    right
    intro v hv
    exact ⟨(hinv.2.2.2 v hv).1, (hinv.2.2.2 v hv).2.1⟩
  | succ n ih =>
    unfold primLoop
    split
    · right
      intro v hv
      exact ⟨(hinv.2.2.2 v hv).1, (hinv.2.2.2 v hv).2.1⟩
    next u hu =>
      have humem := queueMin_mem g q u hu
      have hureach := hinv.2.2.1 u humem
      have hstate : PrimUntouched g0
          (g.updateVertex u (fun v => { v with visited := true })) (q.erase u) := by
        obtain ⟨hadj, hedges, hq, huntouched⟩ := hinv
        refine ⟨?_, hedges, ?_, ?_⟩
        · intro j
          rw [adjOf_updateVertex _ _ _ _ (by intro v; rfl)]
          exact hadj j
        · intro x hx
          exact hq x (List.mem_of_mem_erase hx)
        · intro v hv
          have hne : u ≠ v := fun hEq => hv (hEq ▸ hureach)
          rw [distOf_updateVertex_ne _ _ _ _ hne,
            pathOf_updateVertex_ne _ _ _ _ hne,
            visitedOf_updateVertex_ne _ _ _ _ hne]
          exact huntouched v hv
      have hadjeq : adjOf (g.updateVertex u (fun v => { v with visited := true })) u
          = adjOf g0 u := by
        rw [adjOf_updateVertex _ _ _ _ (by intro v; rfl)]
        exact hinv.1 u
      refine ih _ _ ?_
      exact primRelax_foldl_untouched g0 u hureach _ _ hstate
        (fun x hx => by rwa [hadjeq] at hx)

theorem length_primReset (g : Graph T) :
    (primReset g).vertexSet.length = g.vertexSet.length := by
  simp [primReset]

theorem adjOf_primReset (g : Graph T) (j : Nat) :
    adjOf (primReset g) j = adjOf g j := by
  simp only [adjOf, primReset, Graph.vertex?, List.getElem?_map]
  cases g.vertexSet[j]? <;> rfl

theorem distOf_primReset (g : Graph T) (v : Nat) :
    distOf (primReset g) v = ⊤ := by
  simp only [distOf, primReset, Graph.vertex?, List.getElem?_map]
  cases g.vertexSet[v]? <;> rfl

theorem pathOf_primReset (g : Graph T) (v : Nat) :
    pathOf (primReset g) v = none := by
  simp only [pathOf, primReset, Graph.vertex?, List.getElem?_map]
  cases g.vertexSet[v]? <;> rfl

theorem visitedOf_primReset (g : Graph T) (v : Nat) :
    visitedOf (primReset g) v = false := by
  simp only [visitedOf, primReset, Graph.vertex?, List.getElem?_map]
  cases g.vertexSet[v]? <;> rfl

theorem calculatePrim_eq_some (g : Graph T) (hne : g.vertexSet ≠ []) :
    g.calculatePrim = some (primLoop
      ((primReset g).updateVertex 0
        (fun v => { v with dist := ((0 : ℚ) : WithTop ℚ) })) [0]
      (((primReset g).updateVertex 0
        (fun v => { v with dist := ((0 : ℚ) : WithTop ℚ) })).vertexSet.length)) := by
  unfold Graph.calculatePrim
  dsimp only
  split
  next heq =>
    rw [primReset] at heq
    simp only [List.map_eq_nil_iff] at heq
    exact absurd heq hne
  next => rfl

theorem primInit_untouched (g : Graph T) :
    PrimUntouched g ((primReset g).updateVertex 0
      (fun v => { v with dist := ((0 : ℚ) : WithTop ℚ) })) [0] := by
  refine ⟨?_, rfl, ?_, ?_⟩
  · intro j
    rw [adjOf_updateVertex _ _ _ _ (by intro v; rfl)]
    exact adjOf_primReset g j
  · intro u hu
    simp only [List.mem_singleton] at hu
    subst hu
    exact Relation.ReflTransGen.refl
  · intro v hv
    have hne : (0 : Nat) ≠ v := fun hEq => hv (hEq ▸ Relation.ReflTransGen.refl)
    rw [distOf_updateVertex_ne _ _ _ _ hne, pathOf_updateVertex_ne _ _ _ _ hne,
      visitedOf_updateVertex_ne _ _ _ _ hne]
    exact ⟨distOf_primReset g v, pathOf_primReset g v, visitedOf_primReset g v⟩

/-- C4: on every non-empty graph whose vertex 0 does not reach every vertex,
`calculatePrim` succeeds (this is the contract, not an error) and leaves
every vertex unreachable from vertex 0 with distance `+∞` and parent
`none`. -/
theorem calculatePrim_disconnected (g : Graph T) (hne : g.vertexSet ≠ [])
    (hdis : ∃ v, v < g.vertexSet.length ∧ ¬ DReach g 0 v) :
    ∃ gp, g.calculatePrim = some gp ∧
      ∀ v, ¬ DReach g 0 v → distOf gp v = ⊤ ∧ pathOf gp v = none := by
  refine ⟨_, calculatePrim_eq_some g hne, ?_⟩
  rcases primLoop_untouched g _ _ _ (primInit_untouched g) with hfin | hfin
  · intro v hv
    exact ⟨(hfin.2.2.2 v hv).1, (hfin.2.2.2 v hv).2.1⟩
  · exact hfin

/-- The three-vertex graph 0—1 (weight 1) with isolated vertex 2. -/
def exGraphDisc : Graph ℕ :=
  buildGraph [BuildOp.vertex 0, BuildOp.vertex 1, BuildOp.vertex 2,
    BuildOp.biEdge 0 1 1]

theorem calculatePrim_disconnected_witness :
    exGraphDisc.vertexSet ≠ [] ∧
    (∃ v, v < exGraphDisc.vertexSet.length ∧ ¬ DReach exGraphDisc 0 v) ∧
    ∃ gp, exGraphDisc.calculatePrim = some gp ∧
      ∀ v, ¬ DReach exGraphDisc 0 v →
        distOf gp v = ⊤ ∧ pathOf gp v = none := by
  have hnr : ¬ DReach exGraphDisc 0 2 := by
    intro h
    have := dreach_closed exGraphDisc [0, 1] 0 (by decide) (by decide) 2 h
    simp at this
  exact ⟨by decide, ⟨2, by decide, hnr⟩,
    calculatePrim_disconnected exGraphDisc (by decide) ⟨2, by decide, hnr⟩⟩

/-! ### Disjoint-set theory (src/TP7/Graph.h, lines 292-316)

During Kruskal's union-find phase the `path` field holds the disjoint-set
parent pointer: a root points to itself.  The invariant is the standard
union-by-rank one: every parent pointer goes to a valid vertex of strictly
larger rank (or to itself at a root). -/

/-- The representative at the end of `x`'s parent chain. -/
inductive RootOf (g : Graph T) : Nat → Nat → Prop
  | root (x : Nat) (h : pathOf g x = some x) : RootOf g x x
  | step (x p r : Nat) (h : pathOf g x = some p) (hne : p ≠ x)
      (hr : RootOf g p r) : RootOf g x r

/-- Number of representatives (vertices that are their own parent). -/
def rootCount (g : Graph T) : Nat :=
  (List.range g.vertexSet.length).countP (fun x => pathOf g x = some x)

/-- Union-by-rank invariant of the embedded disjoint-set forest. -/
structure DSUInv (g : Graph T) : Prop where
  parent_ok : ∀ x, x < g.vertexSet.length → ∃ p, pathOf g x = some p ∧
    p < g.vertexSet.length ∧ (p = x ∨ rankOf g x < rankOf g p)
  rank_count : ∀ x, x < g.vertexSet.length →
    rankOf g x + rootCount g ≤ g.vertexSet.length
  root_exists : 0 < g.vertexSet.length →
    ∃ r, r < g.vertexSet.length ∧ pathOf g r = some r

/-- State relation guaranteed by the path-compressing `findSet`: everything
except `path` pointers is untouched, and both the set of roots and the
root-of relation are preserved. -/
def DSUSame (g g' : Graph T) : Prop :=
  g'.vertexSet.length = g.vertexSet.length ∧ g'.edges = g.edges ∧
  (∀ y, rankOf g' y = rankOf g y) ∧ (∀ y, adjOf g' y = adjOf g y) ∧
  (∀ y, infoOf g' y = infoOf g y) ∧ (∀ y, idOf g' y = idOf g y) ∧
  (∀ y, distOf g' y = distOf g y) ∧ (∀ y, visitedOf g' y = visitedOf g y) ∧
  (∀ y, pathOf g' y = some y ↔ pathOf g y = some y) ∧
  (∀ y r, RootOf g' y r ↔ RootOf g y r)

theorem DSUSame_refl (g : Graph T) : DSUSame g g :=
  ⟨rfl, rfl, fun _ => rfl, fun _ => rfl, fun _ => rfl, fun _ => rfl,
   fun _ => rfl, fun _ => rfl, fun _ => Iff.rfl, fun _ _ => Iff.rfl⟩

theorem DSUSame_trans {g1 g2 g3 : Graph T} (h12 : DSUSame g1 g2)
    (h23 : DSUSame g2 g3) : DSUSame g1 g3 := by
  obtain ⟨a1, a2, a3, a4, a5, a6, a7, a8, a9, a10⟩ := h12
  obtain ⟨b1, b2, b3, b4, b5, b6, b7, b8, b9, b10⟩ := h23
  exact ⟨b1.trans a1, b2.trans a2, fun y => (b3 y).trans (a3 y),
    fun y => (b4 y).trans (a4 y), fun y => (b5 y).trans (a5 y),
    fun y => (b6 y).trans (a6 y), fun y => (b7 y).trans (a7 y),
    fun y => (b8 y).trans (a8 y), fun y => (b9 y).trans (a9 y),
    fun y r => (b10 y r).trans (a10 y r)⟩

theorem rootCount_congr (g g' : Graph T)
    (hlen : g'.vertexSet.length = g.vertexSet.length)
    (hroot : ∀ y, pathOf g' y = some y ↔ pathOf g y = some y) :
    rootCount g' = rootCount g := by
  unfold rootCount
  rw [hlen]
  refine List.countP_congr (fun x _ => ?_)
  constructor
  · intro hx
    simpa using (hroot x).mp (by simpa using hx)
  · intro hx
    simpa using (hroot x).mpr (by simpa using hx)

theorem rank_le_of_RootOf (g : Graph T) (hinv : DSUInv g) (x r : Nat)
    (hx : x < g.vertexSet.length) (h : RootOf g x r) :
    rankOf g x ≤ rankOf g r := by
  induction h with
  | root => exact le_refl _
  | step y p r hp hne hr ih =>
    obtain ⟨p', hp', hplt, hrank⟩ := hinv.parent_ok y hx
    rw [hp] at hp'
    cases hp'
    rcases hrank with hEq | hlt
    · exact absurd hEq hne
    · exact le_of_lt (lt_of_lt_of_le hlt (ih hplt))

theorem RootOf_unique (g : Graph T) (x r1 r2 : Nat) (h1 : RootOf g x r1)
    (h2 : RootOf g x r2) : r1 = r2 := by
  induction h1 generalizing r2 with
  | root y hy =>
    cases h2 with
    | root => rfl
    | step _ p _ hp hne => rw [hy] at hp; cases hp; exact absurd rfl hne
  | step y p r hp hne hr ih =>
    cases h2 with
    | root _ hy => rw [hy] at hp; cases hp; exact absurd rfl hne
    | step a p2 r2x hp2 hne2 hr2 =>
      rw [hp] at hp2
      cases hp2
      exact ih _ hr2

theorem RootOf_isRoot (g : Graph T) (x r : Nat) (h : RootOf g x r) :
    pathOf g r = some r := by
  induction h with
  | root _ hy => exact hy
  | step _ _ _ _ _ _ ih => exact ih

theorem RootOf_lt (g : Graph T) (hinv : DSUInv g) (x r : Nat)
    (hx : x < g.vertexSet.length) (h : RootOf g x r) :
    r < g.vertexSet.length := by
  induction h with
  | root => exact hx
  | step y p r hp hne hr ih =>
    obtain ⟨p', hp', hplt, -⟩ := hinv.parent_ok y hx
    rw [hp] at hp'
    cases hp'
    exact ih hplt

theorem pathOf_updateVertex_path (g : Graph T) (i r : Nat)
    (hi : i < g.vertexSet.length) :
    pathOf (g.updateVertex i (fun v => { v with path := some r })) i =
      some r := by
  simp only [pathOf]
  rw [vertex?_updateVertex, if_pos rfl]
  simp only [Graph.vertex?]
  rw [List.getElem?_eq_getElem hi]
  rfl

theorem rankOf_updateVertex_path (g : Graph T) (i r y : Nat) :
    rankOf (g.updateVertex i (fun v => { v with path := some r })) y =
      rankOf g y := by
  simp only [rankOf, vertex?_updateVertex]
  by_cases h : i = y
  · subst h
    rw [if_pos rfl]
    cases g.vertex? i <;> rfl
  · rw [if_neg h]

theorem getD_map_vertex?_updateVertex {β : Type} (g : Graph T) (i : Nat)
    (f : GVertex T → GVertex T) (acc : GVertex T → β) (dflt : β) (y : Nat)
    (hf : ∀ v, acc (f v) = acc v) :
    ((Graph.vertex? (g.updateVertex i f) y).map acc).getD dflt =
      ((g.vertex? y).map acc).getD dflt := by
  rw [vertex?_updateVertex]
  by_cases h : i = y
  · subst h
    rw [if_pos rfl]
    cases g.vertex? i with
    | none => rfl
    | some v => simp [hf]
  · rw [if_neg h]

theorem infoOf_updateVertex (g : Graph T) (i : Nat)
    (f : GVertex T → GVertex T) (y : Nat) (hf : ∀ v, (f v).info = v.info) :
    infoOf (g.updateVertex i f) y = infoOf g y := by
  rw [infoOf, infoOf, vertex?_updateVertex]
  by_cases h : i = y
  · subst h
    rw [if_pos rfl]
    cases g.vertex? i with
    | none => rfl
    | some v => simp [hf]
  · rw [if_neg h]

theorem pathOf_compress (g : Graph T) (i r y : Nat) (h : i ≠ y) :
    pathOf (g.updateVertex i (fun v => { v with path := some r })) y =
      pathOf g y :=
  pathOf_updateVertex_ne g i _ y h

/-- Extension of `DSUSame` recording that `path` pointers are only ever
rewritten to the vertex's own representative (path compression). -/
def CompressedFrom (g g' : Graph T) : Prop :=
  DSUSame g g' ∧
  ∀ y, pathOf g' y = pathOf g y ∨ ∃ ry, RootOf g y ry ∧ pathOf g' y = some ry

theorem CompressedFrom_refl (g : Graph T) : CompressedFrom g g :=
  ⟨DSUSame_refl g, fun _ => Or.inl rfl⟩

theorem CompressedFrom_trans {g1 g2 g3 : Graph T} (h12 : CompressedFrom g1 g2)
    (h23 : CompressedFrom g2 g3) : CompressedFrom g1 g3 := by
  refine ⟨DSUSame_trans h12.1 h23.1, fun y => ?_⟩
  rcases h23.2 y with h3 | ⟨ry, hry, h3⟩
  · rcases h12.2 y with h2 | ⟨ry, hry, h2⟩
    · exact Or.inl (h3.trans h2)
    · exact Or.inr ⟨ry, hry, h3.trans h2⟩
  · exact Or.inr ⟨ry, (h12.1.2.2.2.2.2.2.2.2.2 y ry).mp hry, h3⟩

/-- The single path-compression update `x->path = root` preserves the
disjoint-set structure and invariant. -/
theorem compress_spec (g : Graph T) (hinv : DSUInv g) (x p r : Nat)
    (hx : x < g.vertexSet.length) (hpx : pathOf g x = some p) (hne : p ≠ x)
    (hroot : RootOf g p r) :
    CompressedFrom g
      (g.updateVertex x (fun v => { v with path := some r })) ∧
    DSUInv (g.updateVertex x (fun v => { v with path := some r })) := by
  obtain ⟨p', hp', hplt, hpd⟩ := hinv.parent_ok x hx
  rw [hpx] at hp'
  cases hp'
  have hrankxp : rankOf g x < rankOf g p := by
    rcases hpd with hEq | hlt
    · exact absurd hEq hne
    · exact hlt
  have hrankpr : rankOf g p ≤ rankOf g r := rank_le_of_RootOf g hinv p r hplt hroot
  have hrankxr : rankOf g x < rankOf g r := lt_of_lt_of_le hrankxp hrankpr
  have hrx : r ≠ x := fun hEq => by
    rw [hEq] at hrankxr
    exact lt_irrefl _ hrankxr
  have hrpath : pathOf g r = some r := RootOf_isRoot g p r hroot
  have hrlt : r < g.vertexSet.length := RootOf_lt g hinv p r hplt hroot
  have hrootx : RootOf g x r := RootOf.step x p r hpx hne hroot
  set U := g.updateVertex x (fun v => { v with path := some r }) with hU
  have hpathU : ∀ y, x ≠ y → pathOf U y = pathOf g y :=
    fun y h => pathOf_updateVertex_ne g x _ y h
  have hpathUx : pathOf U x = some r := pathOf_updateVertex_path g x r hx
  have hrank : ∀ y, rankOf U y = rankOf g y :=
    fun y => rankOf_updateVertex_path g x r y
  have hrootiff : ∀ y, pathOf U y = some y ↔ pathOf g y = some y := by
    intro y
    by_cases h : x = y
    · subst h
      rw [hpathUx, hpx]
      constructor
      · intro hEq
        cases hEq
        exact absurd rfl hrx
      · intro hEq
        cases hEq
        exact absurd rfl hne
    · rw [hpathU y h]
  have hRootOf : ∀ y rr, RootOf U y rr ↔ RootOf g y rr := by
    intro y rr
    constructor
    · intro h
      induction h with
      | root z hz =>
        by_cases hzx : x = z
        · subst hzx
          rw [hpathUx] at hz
          cases hz
          exact absurd rfl hrx
        · exact RootOf.root z ((hpathU z hzx) ▸ hz)
      | step z pz rz hz hnez hrz ih =>
        by_cases hzx : x = z
        · subst hzx
          rw [hpathUx] at hz
          cases hz
          have hrzr : rz = r := RootOf_unique g r rz r ih (RootOf.root _ hrpath)
          rw [hrzr]
          exact hrootx
        · exact RootOf.step z pz rz ((hpathU z hzx) ▸ hz) hnez ih
    · intro h
      induction h with
      | root z hz =>
        have hzx : x ≠ z := by
          intro hEq
          subst hEq
          rw [hpx] at hz
          cases hz
          exact absurd rfl hne
        exact RootOf.root z ((hpathU z hzx).symm ▸ hz)
      | step z pz rz hz hnez hrz ih =>
        by_cases hzx : x = z
        · subst hzx
          rw [hpx] at hz
          cases hz
          have hrzr : rz = r := RootOf_unique g p rz r hrz hroot
          rw [hrzr]
          exact RootOf.step x r r hpathUx hrx
            (RootOf.root r (by rw [hpathU r (Ne.symm hrx)]; exact hrpath))
        · exact RootOf.step z pz rz ((hpathU z hzx).symm ▸ hz) hnez ih
  have hsame : DSUSame g U := by
    refine ⟨length_updateVertex g x _, rfl, hrank, ?_, ?_, ?_, ?_, ?_,
      hrootiff, hRootOf⟩
    · exact fun y => adjOf_updateVertex g x _ y (fun v => rfl)
    · exact fun y => infoOf_updateVertex g x _ y (fun v => rfl)
    · exact fun y => getD_map_vertex?_updateVertex g x _ GVertex.id 0 y
        (fun v => rfl)
    · exact fun y => getD_map_vertex?_updateVertex g x _ GVertex.dist ⊤ y
        (fun v => rfl)
    · exact fun y => getD_map_vertex?_updateVertex g x _ GVertex.visited false y
        (fun v => rfl)
  have hcount : rootCount U = rootCount g :=
    rootCount_congr g U (length_updateVertex g x _) hrootiff
  refine ⟨⟨hsame, ?_⟩, ?_⟩
  · intro y
    by_cases h : x = y
    · subst h
      exact Or.inr ⟨r, hrootx, hpathUx⟩
    · exact Or.inl (hpathU y h)
  · constructor
    · intro y hy
      rw [length_updateVertex] at hy
      by_cases h : x = y
      · subst h
        exact ⟨r, hpathUx, by rw [length_updateVertex]; exact hrlt,
          Or.inr (by rw [hrank, hrank]; exact hrankxr)⟩
      · obtain ⟨py, hpy, hpylt, hpyd⟩ := hinv.parent_ok y hy
        refine ⟨py, (hpathU y h).symm ▸ hpy, by rw [length_updateVertex]; exact hpylt, ?_⟩
        rcases hpyd with hEq | hlt
        · exact Or.inl hEq
        · exact Or.inr (by rw [hrank, hrank]; exact hlt)
    · intro y hy
      rw [length_updateVertex] at hy
      rw [hrank, hcount, length_updateVertex]
      exact hinv.rank_count y hy
    · intro hpos
      rw [length_updateVertex] at hpos
      refine ⟨r, by rw [length_updateVertex]; exact hrlt, ?_⟩
      rw [hpathU r (Ne.symm hrx)]
      exact hrpath

theorem rootCount_pos (g : Graph T) (hinv : DSUInv g)
    (hpos : 0 < g.vertexSet.length) : 0 < rootCount g := by
  obtain ⟨r, hrlt, hr⟩ := hinv.root_exists hpos
  unfold rootCount
  rw [List.countP_pos]
  exact ⟨r, List.mem_range.mpr hrlt, by simpa using hr⟩

theorem rank_lt_of_inv (g : Graph T) (hinv : DSUInv g) (x : Nat)
    (hx : x < g.vertexSet.length) : rankOf g x < g.vertexSet.length := by
  have h1 := hinv.rank_count x hx
  have h2 := rootCount_pos g hinv (by omega)
  omega

/-- Full specification of the path-compressing `findSet`: with fuel at least
`V - rank x` it succeeds, returns the representative of `x`, rewrites only
path pointers (to representatives), and preserves the invariant. -/
theorem findSet_spec : ∀ (fuel : Nat) (g : Graph T), DSUInv g →
    ∀ x, x < g.vertexSet.length →
    g.vertexSet.length ≤ rankOf g x + fuel →
    ∃ g' r, findSet g x fuel = some (g', r) ∧ RootOf g x r ∧
      CompressedFrom g g' ∧ DSUInv g'
  | 0, g, hinv, x, hx, hfuel => by
    have := rank_lt_of_inv g hinv x hx
    omega
  | fuel+1, g, hinv, x, hx, hfuel => by
    obtain ⟨p, hp, hplt, hpd⟩ := hinv.parent_ok x hx
    by_cases hpx : p = x
    · subst hpx
      refine ⟨g, p, ?_, RootOf.root p hp, CompressedFrom_refl g, hinv⟩
      unfold findSet
      rw [hp]
      dsimp only
      rw [if_pos rfl]
    · have hrankxp : rankOf g x < rankOf g p := hpd.resolve_left hpx
      have hfuel2 : g.vertexSet.length ≤ rankOf g p + fuel := by omega
      obtain ⟨g1, r, heq1, hroot1, hcomp1, hinv1⟩ :=
        findSet_spec fuel g hinv p hplt hfuel2
      have hlen1 : g1.vertexSet.length = g.vertexSet.length := hcomp1.1.1
      have hrankpr : rankOf g p ≤ rankOf g r :=
        rank_le_of_RootOf g hinv p r hplt hroot1
      have hrx : r ≠ x := by
        intro hEq
        rw [hEq] at hrankpr
        omega
      have hrootgx : RootOf g x r := RootOf.step x p r hp hpx hroot1
      have hrootiff1 := hcomp1.1.2.2.2.2.2.2.2.2.2
      have hpathiff1 := hcomp1.1.2.2.2.2.2.2.2.2.1
      have hq : ∃ q, pathOf g1 x = some q ∧ q ≠ x ∧ RootOf g1 q r := by
        rcases hcomp1.2 x with hsame | ⟨rx, hrxroot, hset⟩
        · exact ⟨p, hsame.trans hp, hpx, (hrootiff1 p r).mpr hroot1⟩
        · have hrxr : rx = r := RootOf_unique g x rx r hrxroot hrootgx
          rw [hrxr] at hset
          refine ⟨r, hset, hrx, RootOf.root r ?_⟩
          exact (hpathiff1 r).mpr (RootOf_isRoot g p r hroot1)
      obtain ⟨q, hpathq, hqx, hqroot⟩ := hq
      obtain ⟨hcomp2, hinv2⟩ := compress_spec g1 hinv1 x q r
        (hlen1 ▸ hx) hpathq hqx hqroot
      refine ⟨g1.updateVertex x (fun v => { v with path := some r }), r,
        ?_, hrootgx, CompressedFrom_trans hcomp1 hcomp2, hinv2⟩
      unfold findSet
      rw [hp]
      dsimp only
      rw [if_neg hpx, heq1]

theorem RootOf_congr_path (gA gB : Graph T)
    (hpath : ∀ y, pathOf gA y = pathOf gB y) (z r : Nat) :
    RootOf gA z r ↔ RootOf gB z r := by
  constructor
  · intro h
    induction h with
    | root y hy => exact RootOf.root y ((hpath y) ▸ hy)
    | step y p rr hy hne hr ih => exact RootOf.step y p rr ((hpath y) ▸ hy) hne ih
  · intro h
    induction h with
    | root y hy => exact RootOf.root y ((hpath y).symm ▸ hy)
    | step y p rr hy hne hr ih =>
      exact RootOf.step y p rr ((hpath y).symm ▸ hy) hne ih

theorem countP_congr_except (l : List Nat) (hl : l.Nodup) (p q : Nat → Bool)
    (a : Nat) (ha : a ∈ l) (hpa : p a = true) (hqa : q a = false)
    (hrest : ∀ x ∈ l, x ≠ a → p x = q x) :
    l.countP q + 1 = l.countP p := by
  induction l with
  | nil => cases ha
  | cons b t ih =>
    rcases List.mem_cons.mp ha with hba | hat
    · subst hba
      have hnotin : a ∉ t := (List.nodup_cons.mp hl).1
      have hpq : t.countP p = t.countP q :=
        List.countP_congr (fun x hx => by
          rw [hrest x (List.mem_cons_of_mem _ hx)
            (fun hEq => hnotin (hEq ▸ hx))])
      rw [List.countP_cons, List.countP_cons, hpa, hqa]
      simp [hpq]
    · have hba : b ≠ a := fun hEq => (List.nodup_cons.mp hl).1 (hEq ▸ hat)
      rw [List.countP_cons, List.countP_cons,
        hrest b (List.mem_cons_self _ _) hba]
      have := ih (List.nodup_cons.mp hl).2 hat
        (fun x hx hxa => hrest x (List.mem_cons_of_mem _ hx) hxa)
      omega

/-- Frame facts preserved by every union-find operation: only `path` and
`rank` fields of vertices ever change. -/
def FrameSame (g g' : Graph T) : Prop :=
  g'.vertexSet.length = g.vertexSet.length ∧ g'.edges = g.edges ∧
  (∀ y, adjOf g' y = adjOf g y) ∧ (∀ y, infoOf g' y = infoOf g y) ∧
  (∀ y, idOf g' y = idOf g y) ∧ (∀ y, distOf g' y = distOf g y) ∧
  (∀ y, visitedOf g' y = visitedOf g y)

theorem FrameSame_refl (g : Graph T) : FrameSame g g :=
  ⟨rfl, rfl, fun _ => rfl, fun _ => rfl, fun _ => rfl, fun _ => rfl,
   fun _ => rfl⟩

theorem FrameSame_trans {g1 g2 g3 : Graph T} (h12 : FrameSame g1 g2)
    (h23 : FrameSame g2 g3) : FrameSame g1 g3 :=
  ⟨h23.1.trans h12.1, h23.2.1.trans h12.2.1,
   fun y => (h23.2.2.1 y).trans (h12.2.2.1 y),
   fun y => (h23.2.2.2.1 y).trans (h12.2.2.2.1 y),
   fun y => (h23.2.2.2.2.1 y).trans (h12.2.2.2.2.1 y),
   fun y => (h23.2.2.2.2.2.1 y).trans (h12.2.2.2.2.2.1 y),
   fun y => (h23.2.2.2.2.2.2 y).trans (h12.2.2.2.2.2.2 y)⟩

theorem DSUSame_frame {g g' : Graph T} (h : DSUSame g g') : FrameSame g g' :=
  ⟨h.1, h.2.1, h.2.2.2.1, h.2.2.2.2.1, h.2.2.2.2.2.1, h.2.2.2.2.2.2.1,
   h.2.2.2.2.2.2.2.1⟩

theorem CompressedFrom_frame {g g' : Graph T} (h : CompressedFrom g g') :
    FrameSame g g' := DSUSame_frame h.1

theorem FrameSame_updateVertex_path (g : Graph T) (a b : Nat) :
    FrameSame g (g.updateVertex a (fun v => { v with path := some b })) :=
  ⟨length_updateVertex g a _, rfl,
   fun y => adjOf_updateVertex g a _ y (fun v => rfl),
   fun y => infoOf_updateVertex g a _ y (fun v => rfl),
   fun y => getD_map_vertex?_updateVertex g a _ GVertex.id 0 y (fun v => rfl),
   fun y => getD_map_vertex?_updateVertex g a _ GVertex.dist ⊤ y (fun v => rfl),
   fun y => getD_map_vertex?_updateVertex g a _ GVertex.visited false y
     (fun v => rfl)⟩

theorem FrameSame_updateVertex_rank (g : Graph T) (a : Nat) :
    FrameSame g (g.updateVertex a (fun v => { v with rank := v.rank + 1 })) :=
  ⟨length_updateVertex g a _, rfl,
   fun y => adjOf_updateVertex g a _ y (fun v => rfl),
   fun y => infoOf_updateVertex g a _ y (fun v => rfl),
   fun y => getD_map_vertex?_updateVertex g a _ GVertex.id 0 y (fun v => rfl),
   fun y => getD_map_vertex?_updateVertex g a _ GVertex.dist ⊤ y (fun v => rfl),
   fun y => getD_map_vertex?_updateVertex g a _ GVertex.visited false y
     (fun v => rfl)⟩

theorem pathOf_updateVertex_rank (g : Graph T) (a y : Nat) :
    pathOf (g.updateVertex a (fun v => { v with rank := v.rank + 1 })) y =
      pathOf g y := by
  rw [pathOf, pathOf, vertex?_updateVertex]
  by_cases h : a = y
  · subst h
    rw [if_pos rfl]
    cases g.vertex? a <;> rfl
  · rw [if_neg h]

theorem rankOf_updateVertex_rank (g : Graph T) (a y : Nat) :
    rankOf (g.updateVertex a (fun v => { v with rank := v.rank + 1 })) y =
      if a = y ∧ a < g.vertexSet.length then rankOf g y + 1 else rankOf g y := by
  rw [rankOf, rankOf, vertex?_updateVertex]
  by_cases h : a = y
  · subst h
    rw [if_pos rfl]
    by_cases hlt : a < g.vertexSet.length
    · rw [if_pos ⟨rfl, hlt⟩]
      obtain ⟨v, hv⟩ : ∃ v, g.vertex? a = some v := by
        rw [Graph.vertex?, List.getElem?_eq_getElem hlt]; exact ⟨_, rfl⟩
      rw [hv]
      rfl
    · rw [if_neg (fun hc => hlt hc.2)]
      have : g.vertex? a = none := by
        rw [Graph.vertex?, List.getElem?_eq_none]
        omega
      rw [this]
      rfl
  · rw [if_neg h, if_neg (fun hc => h hc.1)]

theorem attach_RootOf_fwd (g : Graph T) (a b : Nat)
    (ha : a < g.vertexSet.length) (hab : a ≠ b) (hra : pathOf g a = some a)
    (hrb : pathOf g b = some b) (z rr : Nat)
    (h : RootOf (g.updateVertex a (fun v => { v with path := some b })) z rr) :
    (RootOf g z rr ∧ rr ≠ a) ∨ (RootOf g z a ∧ rr = b) := by
  have hpathne : ∀ y, y ≠ a →
      pathOf (g.updateVertex a (fun v => { v with path := some b })) y =
        pathOf g y :=
    fun y hy => pathOf_updateVertex_ne g a _ y (fun hEq => hy hEq.symm)
  have hpatha :
      pathOf (g.updateVertex a (fun v => { v with path := some b })) a =
        some b := pathOf_updateVertex_path g a b ha
  have hrootb : RootOf g b b := RootOf.root b hrb
  induction h with
  | root y hy =>
    have hya : y ≠ a := by
      intro hEq
      subst hEq
      rw [hpatha] at hy
      cases hy
      exact absurd rfl hab
    rw [hpathne y hya] at hy
    exact Or.inl ⟨RootOf.root y hy, hya⟩
  | step y p rroot hy hyne hr ih =>
    by_cases hya : y = a
    · rw [hya] at hy
      rw [hpatha] at hy
      cases hy
      rcases ih with ⟨hb, hba⟩ | ⟨hba, hEq⟩
      · have hrrb : rroot = b := RootOf_unique g b rroot b hb hrootb
        have hya2 : RootOf g y a := by rw [hya]; exact RootOf.root a hra
        exact Or.inr ⟨hya2, hrrb⟩
      · exact absurd (RootOf_unique g b a b hba hrootb) hab
    · rw [hpathne y hya] at hy
      rcases ih with ⟨hp, hpa⟩ | ⟨hpa, hEq⟩
      · exact Or.inl ⟨RootOf.step y p rroot hy hyne hp, hpa⟩
      · exact Or.inr ⟨RootOf.step y p a hy hyne hpa, hEq⟩

theorem attach_RootOf_bwd1 (g : Graph T) (a b : Nat)
    (ha : a < g.vertexSet.length) (hra : pathOf g a = some a) (z rr : Nat)
    (h : RootOf g z rr) :
    rr ≠ a →
      RootOf (g.updateVertex a (fun v => { v with path := some b })) z rr := by
  induction h with
  | root y hy =>
    intro hne
    refine RootOf.root y ?_
    rw [pathOf_updateVertex_ne g a _ y (fun hEq => hne hEq.symm)]
    exact hy
  | step y p rroot hy hyne hr ih =>
    intro hne
    have hya : y ≠ a := by
      intro hEq
      subst hEq
      rw [hra] at hy
      cases hy
      exact absurd rfl hyne
    refine RootOf.step y p rroot ?_ hyne (ih hne)
    rw [pathOf_updateVertex_ne g a _ y (fun hEq => hya hEq.symm)]
    exact hy

theorem attach_RootOf_bwd2 (g : Graph T) (a b : Nat)
    (ha : a < g.vertexSet.length) (hab : a ≠ b) (hra : pathOf g a = some a)
    (hrb : pathOf g b = some b) (z w : Nat) (h : RootOf g z w) :
    w = a →
      RootOf (g.updateVertex a (fun v => { v with path := some b })) z b := by
  have hpatha :
      pathOf (g.updateVertex a (fun v => { v with path := some b })) a =
        some b := pathOf_updateVertex_path g a b ha
  have hrootbU :
      RootOf (g.updateVertex a (fun v => { v with path := some b })) b b := by
    refine RootOf.root b ?_
    rw [pathOf_updateVertex_ne g a _ b hab]
    exact hrb
  induction h with
  | root y hy =>
    intro hEq
    subst hEq
    exact RootOf.step y b b hpatha (Ne.symm hab) hrootbU
  | step y p rroot hy hyne hr ih =>
    intro hEq
    have hya : y ≠ a := by
      intro hEq2
      subst hEq2
      rw [hra] at hy
      cases hy
      exact absurd rfl hyne
    refine RootOf.step y p b ?_ hyne (ih hEq)
    rw [pathOf_updateVertex_ne g a _ y (fun hEq2 => hya hEq2.symm)]
    exact hy

/-- Attaching root `a` under the distinct root `b`: effect on the root set,
the root count and the root-of relation. -/
theorem attach_spec (g : Graph T) (a b : Nat) (ha : a < g.vertexSet.length)
    (hab : a ≠ b) (hra : pathOf g a = some a) (hrb : pathOf g b = some b) :
    (∀ y, y ≠ a →
      pathOf (g.updateVertex a (fun v => { v with path := some b })) y =
        pathOf g y) ∧
    pathOf (g.updateVertex a (fun v => { v with path := some b })) a = some b ∧
    (∀ y, rankOf (g.updateVertex a (fun v => { v with path := some b })) y =
      rankOf g y) ∧
    (∀ z, pathOf (g.updateVertex a (fun v => { v with path := some b })) z =
        some z ↔ (pathOf g z = some z ∧ z ≠ a)) ∧
    rootCount (g.updateVertex a (fun v => { v with path := some b })) + 1 =
      rootCount g ∧
    (∀ z rr, RootOf (g.updateVertex a (fun v => { v with path := some b })) z rr
      ↔ ((RootOf g z rr ∧ rr ≠ a) ∨ (RootOf g z a ∧ rr = b))) := by
  set U := g.updateVertex a (fun v => { v with path := some b }) with hU
  have hpathne : ∀ y, y ≠ a → pathOf U y = pathOf g y :=
    fun y hy => pathOf_updateVertex_ne g a _ y (fun hEq => hy hEq.symm)
  have hpatha : pathOf U a = some b := pathOf_updateVertex_path g a b ha
  have hrank : ∀ y, rankOf U y = rankOf g y :=
    fun y => rankOf_updateVertex_path g a b y
  have hrootiff : ∀ z, pathOf U z = some z ↔ (pathOf g z = some z ∧ z ≠ a) := by
    intro z
    by_cases hz : z = a
    · subst hz
      rw [hpatha]
      constructor
      · intro hEq
        cases hEq
        exact absurd rfl hab
      · intro h
        exact absurd rfl h.2
    · rw [hpathne z hz]
      exact ⟨fun h => ⟨h, hz⟩, fun h => h.1⟩
  have hcount : rootCount U + 1 = rootCount g := by
    unfold rootCount
    rw [length_updateVertex]
    refine countP_congr_except _ (List.nodup_range _) _ _ a
      (List.mem_range.mpr ha) (by simpa using hra) ?_ ?_
    · simp only [decide_eq_false_iff_not]
      intro hc
      exact ((hrootiff a).mp hc).2 rfl
    · intro x hx hxa
      by_cases hgx : pathOf g x = some x
      · have hux : pathOf U x = some x := (hrootiff x).mpr ⟨hgx, hxa⟩
        simp [hgx, hux]
      · have hux : ¬ pathOf U x = some x := fun hc => hgx ((hrootiff x).mp hc).1
        simp [hgx, hux]
  refine ⟨hpathne, hpatha, hrank, hrootiff, hcount, fun z rr => ?_⟩
  constructor
  · exact attach_RootOf_fwd g a b ha hab hra hrb z rr
  · intro h
    rcases h with ⟨hroot, hne⟩ | ⟨hroot, hEq⟩
    · exact attach_RootOf_bwd1 g a b ha hra z rr hroot hne
    · exact hEq ▸ attach_RootOf_bwd2 g a b ha hab hra hrb z a hroot rfl

theorem findSet_root (g : Graph T) (x : Nat) (hx : pathOf g x = some x)
    (fuel : Nat) (hfuel : 0 < fuel) : findSet g x fuel = some (g, x) := by
  cases fuel with
  | zero => omega
  | succ n =>
    unfold findSet
    rw [hx]
    dsimp only
    rw [if_pos rfl]

/-- `linkSets` on two representatives: the computation as coded (attach
under the larger rank; on ties attach the first under the second and bump
the survivor's rank). -/
theorem linkSets_of_roots (g : Graph T) (i j : Nat)
    (hi : i < g.vertexSet.length) (hj : j < g.vertexSet.length)
    (hri : pathOf g i = some i) (hrj : pathOf g j = some j) :
    (rankOf g j < rankOf g i →
      linkSets g i j =
        some (g.updateVertex j (fun v => { v with path := some i }))) ∧
    (rankOf g i < rankOf g j →
      linkSets g i j =
        some (g.updateVertex i (fun v => { v with path := some j }))) ∧
    (rankOf g i = rankOf g j →
      linkSets g i j =
        some ((g.updateVertex i
          (fun v => { v with path := some j })).updateVertex j
          (fun v => { v with rank := v.rank + 1 }))) := by
  have h1 : findSet g i g.vertexSet.length = some (g, i) :=
    findSet_root g i hri _ (by omega)
  have h2 : findSet g j g.vertexSet.length = some (g, j) :=
    findSet_root g j hrj _ (by omega)
  refine ⟨?_, ?_, ?_⟩
  · intro hlt
    unfold linkSets
    rw [h1]
    dsimp only
    rw [h2]
    dsimp only
    rw [if_pos hlt]
  · intro hlt
    unfold linkSets
    rw [h1]
    dsimp only
    rw [h2]
    dsimp only
    rw [if_neg (by omega), if_neg (by omega)]
  · intro hEq
    unfold linkSets
    rw [h1]
    dsimp only
    rw [h2]
    dsimp only
    rw [if_neg (by omega), if_pos hEq]

theorem merge_form (g : Graph T) (a b z rr : Nat) (hab : a ≠ b) :
    ((RootOf g z rr ∧ rr ≠ a) ∨ (RootOf g z a ∧ rr = b)) ↔
      ((RootOf g z rr ∧ rr ≠ a ∧ rr ≠ b) ∨
       ((RootOf g z a ∨ RootOf g z b) ∧ rr = b)) := by
  constructor
  · intro h
    rcases h with ⟨h, hna⟩ | ⟨ha, hEq⟩
    · by_cases hb : rr = b
      · exact Or.inr ⟨Or.inr (hb ▸ h), hb⟩
      · exact Or.inl ⟨h, hna, hb⟩
    · exact Or.inr ⟨Or.inl ha, hEq⟩
  · intro h
    rcases h with ⟨h, hna, hnb⟩ | ⟨hor, hEq⟩
    · exact Or.inl ⟨h, hna⟩
    · rcases hor with ha | hb
      · exact Or.inr ⟨ha, hEq⟩
      · exact Or.inl ⟨hEq ▸ hb, hEq ▸ (Ne.symm hab)⟩

/-- Full specification of `linkSets` on two distinct representatives:
success, invariant preservation, frame preservation, the root count drops
by one, and the two classes are merged under the surviving root. -/
theorem linkSets_spec (g : Graph T) (hinv : DSUInv g) (i j : Nat)
    (hi : i < g.vertexSet.length) (hj : j < g.vertexSet.length) (hij : i ≠ j)
    (hri : pathOf g i = some i) (hrj : pathOf g j = some j) :
    ∃ gL, linkSets g i j = some gL ∧ DSUInv gL ∧ FrameSame g gL ∧
      rootCount gL + 1 = rootCount g ∧
      ∃ nr, (nr = i ∨ nr = j) ∧
        ∀ z rr, RootOf gL z rr ↔
          ((RootOf g z rr ∧ rr ≠ i ∧ rr ≠ j) ∨
           ((RootOf g z i ∨ RootOf g z j) ∧ rr = nr)) := by
  obtain ⟨hA, hB, hC⟩ := linkSets_of_roots g i j hi hj hri hrj
  rcases Nat.lt_trichotomy (rankOf g j) (rankOf g i) with hlt | hrkEq | hgt
  · -- rank j < rank i : attach j under i
    obtain ⟨hpne, hpa, hrank, hrootiff, hcount, hRoot⟩ :=
      attach_spec g j i hj (Ne.symm hij) hrj hri
    refine ⟨_, hA hlt, ?_, FrameSame_updateVertex_path g j i, hcount, i,
      Or.inl rfl, ?_⟩
    · constructor
      · intro z hz
        rw [length_updateVertex] at hz
        by_cases hzj : z = j
        · subst hzj
          exact ⟨i, hpa, by rw [length_updateVertex]; exact hi,
            Or.inr (by rw [hrank, hrank]; exact hlt)⟩
        · obtain ⟨p, hp, hplt, hpd⟩ := hinv.parent_ok z hz
          exact ⟨p, by rw [hpne z hzj]; exact hp,
            by rw [length_updateVertex]; exact hplt,
            by rw [hrank, hrank]; exact hpd⟩
      · intro x hx
        rw [length_updateVertex] at hx
        rw [hrank, length_updateVertex]
        have := hinv.rank_count x hx
        omega
      · intro hpos
        rw [length_updateVertex] at hpos
        exact ⟨i, by rw [length_updateVertex]; exact hi,
          by rw [hpne i hij]; exact hri⟩
    · intro z rr
      rw [hRoot z rr, merge_form g j i z rr (Ne.symm hij)]
      constructor
      · intro h
        rcases h with ⟨h1, h2, h3⟩ | ⟨h4, h5⟩
        · exact Or.inl ⟨h1, h3, h2⟩
        · exact Or.inr ⟨h4.symm, h5⟩
      · intro h
        rcases h with ⟨h1, h2, h3⟩ | ⟨h4, h5⟩
        · exact Or.inl ⟨h1, h3, h2⟩
        · exact Or.inr ⟨h4.symm, h5⟩
  · -- equal ranks : attach i under j, then bump j's rank
    obtain ⟨hpne, hpa, hrank, hrootiff, hcount, hRoot⟩ :=
      attach_spec g i j hi hij hri hrj
    set U1 := g.updateVertex i (fun v => { v with path := some j }) with hU1
    set W := U1.updateVertex j (fun v => { v with rank := v.rank + 1 }) with hW
    have hpW : ∀ y, pathOf W y = pathOf U1 y :=
      fun y => pathOf_updateVertex_rank U1 j y
    have hlenU1 : U1.vertexSet.length = g.vertexSet.length :=
      length_updateVertex g i _
    have hlenW : W.vertexSet.length = g.vertexSet.length := by
      rw [hW, length_updateVertex, hlenU1]
    have hRootW : ∀ z rr, RootOf W z rr ↔ RootOf U1 z rr :=
      fun z rr => RootOf_congr_path W U1 hpW z rr
    have hcountW : rootCount W = rootCount U1 :=
      rootCount_congr U1 W (by rw [hlenW, hlenU1]) (fun y => by rw [hpW y])
    have hrkW : ∀ y, rankOf W y =
        if j = y then rankOf U1 y + 1 else rankOf U1 y := by
      intro y
      rw [hW, rankOf_updateVertex_rank]
      by_cases h : j = y
      · rw [if_pos ⟨h, by rw [hlenU1]; exact hj⟩, if_pos h]
      · rw [if_neg (fun hc => h hc.1), if_neg h]
    refine ⟨_, hC hrkEq.symm, ?_, FrameSame_trans (FrameSame_updateVertex_path g i j)
      (FrameSame_updateVertex_rank U1 j), by rw [hcountW]; exact hcount, j,
      Or.inr rfl, ?_⟩
    · constructor
      · intro z hz
        rw [hlenW] at hz
        by_cases hzi : z = i
        · subst hzi
          refine ⟨j, by rw [hpW]; exact hpa, by rw [hlenW]; exact hj,
            Or.inr ?_⟩
          rw [hrkW, hrkW, if_neg (fun hc => hij hc.symm), if_pos rfl,
            hrank, hrank]
          omega
        · by_cases hzj : z = j
          · refine ⟨j, ?_, by rw [hlenW]; exact hj, Or.inl hzj.symm⟩
            rw [hpW, hzj, hpne j (Ne.symm hij)]
            exact hrj
          · obtain ⟨p, hp, hplt, hpd⟩ := hinv.parent_ok z hz
            refine ⟨p, by rw [hpW, hpne z hzi]; exact hp,
              by rw [hlenW]; exact hplt, ?_⟩
            rcases hpd with hEq | hlt2
            · exact Or.inl hEq
            · refine Or.inr ?_
              rw [hrkW, hrkW, if_neg (fun hc => hzj hc.symm), hrank]
              by_cases hpj : j = p
              · rw [if_pos hpj, hrank, ← hpj]
                rw [hpj]
                omega
              · rw [if_neg hpj, hrank]
                exact hlt2
      · intro x hx
        rw [hlenW] at hx
        rw [hlenW, hcountW]
        have h1 := hinv.rank_count x hx
        have h2 := hinv.rank_count j hj
        rw [hrkW]
        by_cases hxj : j = x
        · rw [if_pos hxj, hrank, ← hxj]
          omega
        · rw [if_neg hxj, hrank]
          omega
      · intro hpos
        refine ⟨j, by rw [hlenW]; exact hj, ?_⟩
        rw [hpW, hpne j (Ne.symm hij)]
        exact hrj
    · intro z rr
      rw [hRootW z rr, hRoot z rr, merge_form g i j z rr hij]
  · -- rank i < rank j : attach i under j
    obtain ⟨hpne, hpa, hrank, hrootiff, hcount, hRoot⟩ :=
      attach_spec g i j hi hij hri hrj
    refine ⟨_, hB hgt, ?_, FrameSame_updateVertex_path g i j, hcount, j,
      Or.inr rfl, ?_⟩
    · constructor
      · intro z hz
        rw [length_updateVertex] at hz
        by_cases hzi : z = i
        · subst hzi
          exact ⟨j, hpa, by rw [length_updateVertex]; exact hj,
            Or.inr (by rw [hrank, hrank]; exact hgt)⟩
        · obtain ⟨p, hp, hplt, hpd⟩ := hinv.parent_ok z hz
          exact ⟨p, by rw [hpne z hzi]; exact hp,
            by rw [length_updateVertex]; exact hplt,
            by rw [hrank, hrank]; exact hpd⟩
      · intro x hx
        rw [length_updateVertex] at hx
        rw [hrank, length_updateVertex]
        have := hinv.rank_count x hx
        omega
      · intro hpos
        rw [length_updateVertex] at hpos
        exact ⟨j, by rw [length_updateVertex]; exact hj,
          by rw [hpne j (Ne.symm hij)]; exact hrj⟩
    · intro z rr
      rw [hRoot z rr, merge_form g i j z rr hij]

theorem pathOf_some_lt (g : Graph T) (x p : Nat) (h : pathOf g x = some p) :
    x < g.vertexSet.length := by
  by_contra hc
  have : g.vertex? x = none := by
    rw [Graph.vertex?, List.getElem?_eq_none]
    omega
  rw [pathOf, this] at h
  cases h

theorem findSet_none_of_ge (g : Graph T) (x : Nat)
    (h : g.vertexSet.length ≤ x) : ∀ fuel, findSet g x fuel = none := by
  intro fuel
  cases fuel with
  | zero => rfl
  | succ n =>
    unfold findSet
    have : g.vertex? x = none := by
      rw [Graph.vertex?, List.getElem?_eq_none]
      omega
    rw [pathOf, this]
    rfl

/-- The `makeSet` initialisation loop: every vertex becomes its own
singleton set. -/
def makeSetAll (g : Graph T) : Graph T :=
  (List.range g.vertexSet.length).foldl Graph.makeSet g

theorem pathOf_makeSet (g : Graph T) (x y : Nat) :
    pathOf (g.makeSet x) y =
      if x = y ∧ x < g.vertexSet.length then some x else pathOf g y := by
  unfold Graph.makeSet
  by_cases hxy : x = y
  · subst hxy
    by_cases hlt : x < g.vertexSet.length
    · rw [if_pos ⟨rfl, hlt⟩, pathOf, vertex?_updateVertex, if_pos rfl,
        Graph.vertex?, List.getElem?_eq_getElem hlt]
      rfl
    · rw [if_neg (fun hc => hlt hc.2), pathOf, pathOf, vertex?_updateVertex,
        if_pos rfl, Graph.vertex?, List.getElem?_eq_none (by omega)]
      rfl
  · rw [if_neg (fun hc => hxy hc.1)]
    exact pathOf_updateVertex_ne g x _ y hxy

theorem rankOf_makeSet (g : Graph T) (x y : Nat) :
    rankOf (g.makeSet x) y =
      if x = y ∧ x < g.vertexSet.length then 0 else rankOf g y := by
  unfold Graph.makeSet
  by_cases hxy : x = y
  · subst hxy
    by_cases hlt : x < g.vertexSet.length
    · rw [if_pos ⟨rfl, hlt⟩, rankOf, vertex?_updateVertex, if_pos rfl,
        Graph.vertex?, List.getElem?_eq_getElem hlt]
      rfl
    · rw [if_neg (fun hc => hlt hc.2), rankOf, rankOf, vertex?_updateVertex,
        if_pos rfl, Graph.vertex?, List.getElem?_eq_none (by omega)]
      rfl
  · rw [if_neg (fun hc => hxy hc.1)]
    simp only [rankOf, vertex?_updateVertex, if_neg hxy]

theorem FrameSame_makeSet (g : Graph T) (x : Nat) :
    FrameSame g (g.makeSet x) :=
  ⟨length_updateVertex g x _, rfl,
   fun y => adjOf_updateVertex g x _ y (fun v => rfl),
   fun y => infoOf_updateVertex g x _ y (fun v => rfl),
   fun y => getD_map_vertex?_updateVertex g x _ GVertex.id 0 y (fun v => rfl),
   fun y => getD_map_vertex?_updateVertex g x _ GVertex.dist ⊤ y (fun v => rfl),
   fun y => getD_map_vertex?_updateVertex g x _ GVertex.visited false y
     (fun v => rfl)⟩

theorem foldl_makeSet_spec (l : List Nat) : ∀ g : Graph T,
    (l.foldl Graph.makeSet g).vertexSet.length = g.vertexSet.length ∧
    FrameSame g (l.foldl Graph.makeSet g) ∧
    (∀ y, y ∉ l → pathOf (l.foldl Graph.makeSet g) y = pathOf g y ∧
      rankOf (l.foldl Graph.makeSet g) y = rankOf g y) ∧
    (∀ y ∈ l, y < g.vertexSet.length →
      pathOf (l.foldl Graph.makeSet g) y = some y ∧
      rankOf (l.foldl Graph.makeSet g) y = 0) := by
  induction l with
  | nil => exact fun g => ⟨rfl, FrameSame_refl g, fun y _ => ⟨rfl, rfl⟩,
      fun y hy => absurd hy (List.not_mem_nil _)⟩
  | cons x t ih =>
    intro g
    rw [List.foldl_cons]
    obtain ⟨hlen, hframe, hout, hin⟩ := ih (g.makeSet x)
    have hlenm : (g.makeSet x).vertexSet.length = g.vertexSet.length :=
      length_updateVertex g x _
    refine ⟨hlen.trans hlenm, FrameSame_trans (FrameSame_makeSet g x) hframe, ?_, ?_⟩
    · intro y hy
      have hyx : x ≠ y := fun hEq => hy (hEq ▸ List.mem_cons_self _ _)
      have hyt : y ∉ t := fun hc => hy (List.mem_cons_of_mem _ hc)
      obtain ⟨hp, hr⟩ := hout y hyt
      refine ⟨hp.trans ?_, hr.trans ?_⟩
      · rw [pathOf_makeSet, if_neg (fun hc => hyx hc.1)]
      · rw [rankOf_makeSet, if_neg (fun hc => hyx hc.1)]
    · intro y hy hylt
      by_cases hyt : y ∈ t
      · exact hin y hyt (by rw [hlenm]; exact hylt)
      · have hyx : y = x := by
          rcases List.mem_cons.mp hy with h | h
          · exact h
          · exact absurd h hyt
        subst hyx
        obtain ⟨hp, hr⟩ := hout y hyt
        refine ⟨hp.trans ?_, hr.trans ?_⟩
        · rw [pathOf_makeSet, if_pos ⟨rfl, hylt⟩]
        · rw [rankOf_makeSet, if_pos ⟨rfl, hylt⟩]

theorem makeSetAll_spec (g : Graph T) :
    (makeSetAll g).vertexSet.length = g.vertexSet.length ∧
    FrameSame g (makeSetAll g) ∧
    (∀ y, y < g.vertexSet.length → pathOf (makeSetAll g) y = some y ∧
      rankOf (makeSetAll g) y = 0) := by
  obtain ⟨hlen, hframe, hout, hin⟩ :=
    foldl_makeSet_spec (List.range g.vertexSet.length) g
  exact ⟨hlen, hframe, fun y hy => hin y (List.mem_range.mpr hy) hy⟩

theorem rootCount_makeSetAll (g : Graph T) :
    rootCount (makeSetAll g) = g.vertexSet.length := by
  obtain ⟨hlen, hframe, hall⟩ := makeSetAll_spec g
  unfold rootCount
  rw [hlen]
  have hall2 : ∀ x ∈ List.range g.vertexSet.length,
      (decide (pathOf (makeSetAll g) x = some x)) = true := fun x hx => by
    simpa using (hall x (List.mem_range.mp hx)).1
  rw [List.countP_eq_length.mpr hall2]
  exact List.length_range _

theorem DSUInv_makeSetAll (g : Graph T) : DSUInv (makeSetAll g) := by
  obtain ⟨hlen, hframe, hall⟩ := makeSetAll_spec g
  constructor
  · intro x hx
    rw [hlen] at hx
    exact ⟨x, (hall x hx).1, by rw [hlen]; exact hx, Or.inl rfl⟩
  · intro x hx
    rw [hlen] at hx
    rw [(hall x hx).2, rootCount_makeSetAll, hlen]
    omega
  · intro hpos
    rw [hlen] at hpos
    exact ⟨0, by rw [hlen]; exact hpos, (hall 0 hpos).1⟩

/-- `linkSets` on arbitrary vertices whose representatives differ: the two
leading `findSet` calls compress, then the root case applies. -/
theorem linkSets_full_spec (g : Graph T) (hinv : DSUInv g) (x y : Nat)
    (hx : x < g.vertexSet.length) (hy : y < g.vertexSet.length)
    (rx ry : Nat) (hrx : RootOf g x rx) (hry : RootOf g y ry)
    (hne : rx ≠ ry) :
    ∃ gL, linkSets g x y = some gL ∧ DSUInv gL ∧ FrameSame g gL ∧
      rootCount gL + 1 = rootCount g ∧
      ∃ nr, (nr = rx ∨ nr = ry) ∧
        ∀ z rr, RootOf gL z rr ↔
          ((RootOf g z rr ∧ rr ≠ rx ∧ rr ≠ ry) ∨
           ((RootOf g z rx ∨ RootOf g z ry) ∧ rr = nr)) := by
  obtain ⟨gA, rx', heqA, hrootA, hcompA, hinvA⟩ :=
    findSet_spec g.vertexSet.length g hinv x hx (by omega)
  have hrxeq : rx' = rx := RootOf_unique g x rx' rx hrootA hrx
  rw [hrxeq] at heqA hrootA
  have hlenA : gA.vertexSet.length = g.vertexSet.length := hcompA.1.1
  obtain ⟨gB, ry', heqB, hrootB, hcompB, hinvB⟩ :=
    findSet_spec gA.vertexSet.length gA hinvA y (by omega) (by omega)
  have hryeq : ry' = ry := by
    have : RootOf g y ry' := (hcompA.1.2.2.2.2.2.2.2.2.2 y ry').mp hrootB
    exact RootOf_unique g y ry' ry this hry
  rw [hryeq] at heqB hrootB
  have hlenB : gB.vertexSet.length = gA.vertexSet.length := hcompB.1.1
  have hcompAB : CompressedFrom g gB := CompressedFrom_trans hcompA hcompB
  have hRootIffB : ∀ z rr, RootOf gB z rr ↔ RootOf g z rr :=
    hcompAB.1.2.2.2.2.2.2.2.2.2
  have hPathIffB : ∀ z, pathOf gB z = some z ↔ pathOf g z = some z :=
    hcompAB.1.2.2.2.2.2.2.2.2.1
  have hrxB : pathOf gB rx = some rx :=
    (hPathIffB rx).mpr (RootOf_isRoot g x rx hrx)
  have hryB : pathOf gB ry = some ry :=
    (hPathIffB ry).mpr (RootOf_isRoot g y ry hry)
  have hrxlt : rx < g.vertexSet.length := RootOf_lt g hinv x rx hx hrx
  have hrylt : ry < g.vertexSet.length := RootOf_lt g hinv y ry hy hry
  have heqLink : linkSets g x y = linkSets gB rx ry := by
    unfold linkSets
    rw [heqA]
    dsimp only
    rw [heqB]
    dsimp only
    rw [findSet_root gB rx hrxB _ (by omega)]
    dsimp only
    rw [findSet_root gB ry hryB _ (by omega)]
  obtain ⟨gL, heqL, hinvL, hframeL, hcountL, nr, hnr, hmerge⟩ :=
    linkSets_spec gB hinvB rx ry (by omega) (by omega) hne hrxB hryB
  have hcountB : rootCount gB = rootCount g := by
    refine (rootCount_congr g gB hcompAB.1.1 hcompAB.1.2.2.2.2.2.2.2.2.1)
  refine ⟨gL, heqLink.trans heqL, hinvL,
    FrameSame_trans (CompressedFrom_frame hcompAB) hframeL, by omega, nr, hnr, ?_⟩
  intro z rr
  rw [hmerge z rr, hRootIffB z rr, hRootIffB z rx, hRootIffB z ry]

/-- A sequence of guarded union operations exactly as in the body of
`calculateKruskal` (src/TP7/Graph.h, lines 349-359): find both
representatives and link them; the claim requires each operation to join
two distinct sets, so a merge of an already-joined pair fails. -/
def unionSeq (g : Graph T) : List (Nat × Nat) → Option (Graph T)
  | [] => some g
  | (x, y) :: rest =>
    match findSet g x g.vertexSet.length with
    | none => none
    | some (g1, r1) =>
      match findSet g1 y g1.vertexSet.length with
      | none => none
      | some (g2, r2) =>
        if r1 = r2 then none
        else
          match linkSets g2 x y with
          | none => none
          | some g3 => unionSeq g3 rest

theorem unionSeq_spec : ∀ (ops : List (Nat × Nat)) (g g' : Graph T),
    DSUInv g → unionSeq g ops = some g' →
    DSUInv g' ∧ FrameSame g g' ∧ rootCount g' + ops.length = rootCount g
  | [], g, g', hinv, h => by
    cases h
    exact ⟨hinv, FrameSame_refl g, rfl⟩
  | (x, y) :: rest, g, g', hinv, h => by
    unfold unionSeq at h
    rcases heqA : findSet g x g.vertexSet.length with - | ⟨g1, r1⟩
    · rw [heqA] at h
      cases h
    rw [heqA] at h
    dsimp only at h
    rcases heqB : findSet g1 y g1.vertexSet.length with - | ⟨g2, r2⟩
    · rw [heqB] at h
      cases h
    rw [heqB] at h
    dsimp only at h
    by_cases hr12 : r1 = r2
    · rw [if_pos hr12] at h
      cases h
    rw [if_neg hr12] at h
    rcases heqL : linkSets g2 x y with - | g3
    · rw [heqL] at h
      cases h
    rw [heqL] at h
    dsimp only at h
    have hx : x < g.vertexSet.length := by
      by_contra hc
      rw [findSet_none_of_ge g x (by omega)] at heqA
      cases heqA
    obtain ⟨gA, rx, heqA', hrootA, hcompA, hinvA⟩ :=
      findSet_spec g.vertexSet.length g hinv x hx (by omega)
    rw [heqA'] at heqA
    cases heqA
    have hlenA : g1.vertexSet.length = g.vertexSet.length := hcompA.1.1
    have hy : y < g1.vertexSet.length := by
      by_contra hc
      rw [findSet_none_of_ge g1 y (by omega)] at heqB
      cases heqB
    obtain ⟨gB, ry, heqB', hrootB, hcompB, hinvB⟩ :=
      findSet_spec g1.vertexSet.length g1 hinvA y hy (by omega)
    rw [heqB'] at heqB
    cases heqB
    have hcompAB : CompressedFrom g g2 := CompressedFrom_trans hcompA hcompB
    have hrootx : RootOf g2 x r1 := by
      rw [hcompAB.1.2.2.2.2.2.2.2.2.2 x r1]
      exact hrootA
    have hrooty : RootOf g2 y r2 := by
      rw [hcompB.1.2.2.2.2.2.2.2.2.2 y r2]
      exact hrootB
    have hlenB : g2.vertexSet.length = g.vertexSet.length := hcompAB.1.1
    obtain ⟨gL, heqL', hinvL, hframeL, hcountL, -⟩ :=
      linkSets_full_spec g2 hinvB x y (by omega) (by omega)
        r1 r2 hrootx hrooty hr12
    rw [heqL'] at heqL
    cases heqL
    obtain ⟨hinv', hframe', hcount'⟩ :=
      unionSeq_spec rest g3 g' hinvL h
    have hcountB : rootCount g2 = rootCount g :=
      rootCount_congr g g2 hcompAB.1.1 hcompAB.1.2.2.2.2.2.2.2.2.1
    refine ⟨hinv', FrameSame_trans (FrameSame_trans (CompressedFrom_frame hcompAB) hframeL) hframe', ?_⟩
    simp only [List.length_cons]
    omega

/-- Number of vertices that are their own representative, phrased through
`findSet` itself. -/
def countRepr (g : Graph T) : Nat :=
  (List.range g.vertexSet.length).countP
    (fun x => (findSet g x g.vertexSet.length).map (fun p => p.2) = some x)

theorem RootOf_self_path (g : Graph T) (hinv : DSUInv g) (x : Nat)
    (hx : x < g.vertexSet.length) (h : RootOf g x x) :
    pathOf g x = some x := by
  cases h with
  | root _ hp => exact hp
  | step _ p _ hp hne hr =>
    obtain ⟨p', hp', hplt, hpd⟩ := hinv.parent_ok x hx
    rw [hp] at hp'
    cases hp'
    have h1 : rankOf g x < rankOf g p := hpd.resolve_left hne
    have h2 : rankOf g p ≤ rankOf g x := rank_le_of_RootOf g hinv p x hplt hr
    omega

theorem countRepr_eq_rootCount (g : Graph T) (hinv : DSUInv g) :
    countRepr g = rootCount g := by
  unfold countRepr rootCount
  refine List.countP_congr (fun x hx => ?_)
  have hxlt := List.mem_range.mp hx
  obtain ⟨g', r, heq, hroot, hcomp, hinv'⟩ :=
    findSet_spec g.vertexSet.length g hinv x hxlt (by omega)
  rw [heq]
  simp only [decide_eq_true_eq, Option.map_some, Option.map_some',
    Option.some.injEq]
  constructor
  · intro hrx
    exact RootOf_self_path g hinv x hxlt (hrx ▸ hroot)
  · intro hpath
    exact RootOf_unique g x r x hroot (RootOf.root x hpath)

/-- C8: starting from `makeSet` on every vertex, a sequence of `k` union
operations, each as in Kruskal's loop (two `findSet`s and a guarded
`linkSets`) and each joining two distinct sets, leaves exactly `V − k`
vertices `x` with `findSet x = x`; and `linkSets` attaches the smaller-rank
root under the larger-rank root, incrementing the surviving root's rank
exactly on ties. -/
theorem disjointSet_spec (g g' : Graph T) (ops : List (Nat × Nat))
    (h : unionSeq (makeSetAll g) ops = some g') :
    (countRepr g' = g.vertexSet.length - ops.length ∧
     countRepr g' + ops.length = g.vertexSet.length) ∧
    (∀ (gU : Graph T) (i j : Nat), i < gU.vertexSet.length →
      j < gU.vertexSet.length → pathOf gU i = some i → pathOf gU j = some j →
      (rankOf gU j < rankOf gU i →
        linkSets gU i j =
          some (gU.updateVertex j (fun v => { v with path := some i }))) ∧
      (rankOf gU i < rankOf gU j →
        linkSets gU i j =
          some (gU.updateVertex i (fun v => { v with path := some j }))) ∧
      (rankOf gU i = rankOf gU j →
        linkSets gU i j =
          some ((gU.updateVertex i
            (fun v => { v with path := some j })).updateVertex j
            (fun v => { v with rank := v.rank + 1 })))) := by
  obtain ⟨hinv', hframe', hcount'⟩ :=
    unionSeq_spec ops (makeSetAll g) g' (DSUInv_makeSetAll g) h
  have hlen : g'.vertexSet.length = g.vertexSet.length :=
    hframe'.1.trans (makeSetAll_spec g).1
  have hcount : rootCount g' + ops.length = g.vertexSet.length := by
    rw [rootCount_makeSetAll] at hcount'
    exact hcount'
  have hrepr := countRepr_eq_rootCount g' hinv'
  refine ⟨⟨by omega, by omega⟩, ?_⟩
  intro gU i j hi hj hri hrj
  obtain ⟨hA, hB, hC⟩ := linkSets_of_roots gU i j hi hj hri hrj
  exact ⟨hA, hB, hC⟩

/-- Three isolated vertices. -/
def exGraph3 : Graph ℕ :=
  buildGraph [BuildOp.vertex 0, BuildOp.vertex 1, BuildOp.vertex 2]

theorem disjointSet_spec_witness :
    ∃ g', unionSeq (makeSetAll exGraph3) [(0, 1)] = some g' ∧
      ((countRepr g' = exGraph3.vertexSet.length - 1 ∧
        countRepr g' + 1 = exGraph3.vertexSet.length) ∧
      (∀ (gU : Graph ℕ) (i j : Nat), i < gU.vertexSet.length →
        j < gU.vertexSet.length → pathOf gU i = some i →
        pathOf gU j = some j →
        (rankOf gU j < rankOf gU i →
          linkSets gU i j =
            some (gU.updateVertex j (fun v => { v with path := some i }))) ∧
        (rankOf gU i < rankOf gU j →
          linkSets gU i j =
            some (gU.updateVertex i (fun v => { v with path := some j }))) ∧
        (rankOf gU i = rankOf gU j →
          linkSets gU i j =
            some ((gU.updateVertex i
              (fun v => { v with path := some j })).updateVertex j
              (fun v => { v with rank := v.rank + 1 }))))) := by
  obtain ⟨g', hg⟩ : ∃ g', unionSeq (makeSetAll exGraph3) [(0, 1)] = some g' :=
    ⟨_, rfl⟩
  exact ⟨g', hg, disjointSet_spec exGraph3 g' [(0, 1)] hg⟩

/-! ### The phases of calculateKruskal -/

theorem length_kruskalInit (g : Graph T) :
    (kruskalInit g).vertexSet.length = g.vertexSet.length := by
  simp [kruskalInit]

theorem kruskalInit_fields (g : Graph T) (i : Nat) :
    (i < g.vertexSet.length →
      pathOf (kruskalInit g) i = some i ∧ rankOf (kruskalInit g) i = 0 ∧
      idOf (kruskalInit g) i = i) ∧
    adjOf (kruskalInit g) i = adjOf g i ∧
    distOf (kruskalInit g) i = distOf g i ∧
    visitedOf (kruskalInit g) i = visitedOf g i ∧
    infoOf (kruskalInit g) i = infoOf g i := by
  have hv : (kruskalInit g).vertex? i = (g.vertex? i).map
      (fun v => { v with path := some i, rank := 0, id := i }) := by
    simp [kruskalInit, Graph.vertex?, List.getElem?_mapIdx]
  constructor
  · intro hlt
    obtain ⟨v, hsome⟩ : ∃ v, g.vertex? i = some v := by
      rw [Graph.vertex?, List.getElem?_eq_getElem hlt]
      exact ⟨_, rfl⟩
    rw [pathOf, rankOf, idOf, hv, hsome]
    exact ⟨rfl, rfl, rfl⟩
  · simp only [adjOf, distOf, visitedOf, infoOf]
    rw [hv]
    cases g.vertex? i <;> exact ⟨rfl, rfl, rfl, rfl⟩

theorem edges_kruskalInit (g : Graph T) : (kruskalInit g).edges = g.edges :=
  rfl

theorem rootCount_kruskalInit (g : Graph T) :
    rootCount (kruskalInit g) = g.vertexSet.length := by
  unfold rootCount
  rw [length_kruskalInit]
  have hall2 : ∀ x ∈ List.range g.vertexSet.length,
      (decide (pathOf (kruskalInit g) x = some x)) = true := fun x hx => by
    simpa using ((kruskalInit_fields g x).1 (List.mem_range.mp hx)).1
  rw [List.countP_eq_length.mpr hall2]
  exact List.length_range _

theorem DSUInv_kruskalInit (g : Graph T) : DSUInv (kruskalInit g) := by
  constructor
  · intro x hx
    rw [length_kruskalInit] at hx
    exact ⟨x, ((kruskalInit_fields g x).1 hx).1,
      by rw [length_kruskalInit]; exact hx, Or.inl rfl⟩
  · intro x hx
    rw [length_kruskalInit] at hx
    rw [((kruskalInit_fields g x).1 hx).2.1, rootCount_kruskalInit,
      length_kruskalInit]
    omega
  · intro hpos
    rw [length_kruskalInit] at hpos
    exact ⟨0, by rw [length_kruskalInit]; exact hpos,
      ((kruskalInit_fields g 0).1 hpos).1⟩

theorem vertexSet_clearSelected (g : Graph T) :
    (g.clearSelected).vertexSet = g.vertexSet := rfl

theorem edge?_clearSelected (g : Graph T) (eid : Nat) :
    (g.clearSelected).edge? eid =
      (g.edge? eid).map (fun e => { e with selected := false }) := by
  simp [Graph.clearSelected, Graph.edge?, List.getElem?_map]

theorem DSUInv_of_vertexSet_eq (g g' : Graph T)
    (h : g'.vertexSet = g.vertexSet) (hinv : DSUInv g) : DSUInv g' := by
  have hp : ∀ y, pathOf g' y = pathOf g y := by
    intro y
    rw [pathOf, pathOf, Graph.vertex?, Graph.vertex?, h]
  have hr : ∀ y, rankOf g' y = rankOf g y := by
    intro y
    rw [rankOf, rankOf, Graph.vertex?, Graph.vertex?, h]
  have hlen : g'.vertexSet.length = g.vertexSet.length := by rw [h]
  have hcount : rootCount g' = rootCount g :=
    rootCount_congr g g' hlen (fun y => by rw [hp y])
  constructor
  · intro x hx
    rw [hlen] at hx
    obtain ⟨p, h1, h2, h3⟩ := hinv.parent_ok x hx
    exact ⟨p, by rw [hp]; exact h1, by rw [hlen]; exact h2,
      by rw [hr, hr]; exact h3⟩
  · intro x hx
    rw [hlen] at hx
    rw [hlen, hr, hcount]
    exact hinv.rank_count x hx
  · intro hpos
    rw [hlen] at hpos
    obtain ⟨r, h1, h2⟩ := hinv.root_exists hpos
    exact ⟨r, by rw [hlen]; exact h1, by rw [hp]; exact h2⟩

/-- Static structure shared by all states of one Kruskal run: vertex count,
adjacency, contents, and every edge's endpoints, weight and reverse-pairing
(only scratch fields and `selected` flags differ). -/
def StaticSame (g g' : Graph T) : Prop :=
  g'.vertexSet.length = g.vertexSet.length ∧
  (∀ y, adjOf g' y = adjOf g y) ∧ (∀ y, infoOf g' y = infoOf g y) ∧
  g'.edges.length = g.edges.length ∧
  (∀ eid, (g'.edge? eid).map (fun e => (e.orig, e.dest, e.weight, e.reverse))
    = (g.edge? eid).map (fun e => (e.orig, e.dest, e.weight, e.reverse)))

theorem StaticSame_refl (g : Graph T) : StaticSame g g :=
  ⟨rfl, fun _ => rfl, fun _ => rfl, rfl, fun _ => rfl⟩

theorem StaticSame_trans {g1 g2 g3 : Graph T} (h12 : StaticSame g1 g2)
    (h23 : StaticSame g2 g3) : StaticSame g1 g3 :=
  ⟨h23.1.trans h12.1, fun y => (h23.2.1 y).trans (h12.2.1 y),
   fun y => (h23.2.2.1 y).trans (h12.2.2.1 y),
   h23.2.2.2.1.trans h12.2.2.2.1,
   fun eid => (h23.2.2.2.2 eid).trans (h12.2.2.2.2 eid)⟩

theorem FrameSame_static {g g' : Graph T} (h : FrameSame g g') :
    StaticSame g g' :=
  ⟨h.1, h.2.2.1, h.2.2.2.1, by rw [h.2.1], fun eid => by
    rw [Graph.edge?, Graph.edge?, h.2.1]⟩

theorem WF_transfer (g g' : Graph T) (h : StaticSame g g') (hw : WF g) :
    WF g' := by
  obtain ⟨hlen, hadj, hinfo, helen, hedge⟩ := h
  have hedge2 : ∀ eid e', g'.edge? eid = some e' → ∃ e, g.edge? eid = some e ∧
      e.orig = e'.orig ∧ e.dest = e'.dest ∧ e.weight = e'.weight ∧
      e.reverse = e'.reverse := by
    intro eid e' he'
    have := hedge eid
    rw [he'] at this
    cases hg : g.edge? eid with
    | none => rw [hg] at this; cases this
    | some e =>
      rw [hg] at this
      simp only [Option.map_some, Option.map_some', Option.some.injEq,
        Prod.mk.injEq] at this
      exact ⟨e, rfl, this.1.symm, this.2.1.symm, this.2.2.1.symm,
        this.2.2.2.symm⟩
  have hedge3 : ∀ eid e, g.edge? eid = some e → ∃ e', g'.edge? eid = some e' ∧
      e'.orig = e.orig ∧ e'.dest = e.dest ∧ e'.weight = e.weight ∧
      e'.reverse = e.reverse := by
    intro eid e he
    have := hedge eid
    rw [he] at this
    cases hg : g'.edge? eid with
    | none => rw [hg] at this; cases this
    | some e' =>
      rw [hg] at this
      simp only [Option.map_some, Option.map_some', Option.some.injEq,
        Prod.mk.injEq] at this
      exact ⟨e', rfl, this.1, this.2.1, this.2.2.1, this.2.2.2⟩
  have hmem2 : ∀ e', e' ∈ g'.edges → ∃ eid, g'.edge? eid = some e' := by
    intro e' he'
    obtain ⟨i, hi, hEq⟩ := List.mem_iff_getElem.mp he'
    exact ⟨i, by rw [Graph.edge?, List.getElem?_eq_getElem hi, hEq]⟩
  constructor
  · intro e' he'
    obtain ⟨eid, heid⟩ := hmem2 e' he'
    obtain ⟨e, he, ho, hd, hwt, hrv⟩ := hedge2 eid e' heid
    rw [hlen, ← ho]
    exact hw.edge_orig_lt e (edge?_mem _ _ _ he)
  · intro e' he'
    obtain ⟨eid, heid⟩ := hmem2 e' he'
    obtain ⟨e, he, ho, hd, hwt, hrv⟩ := hedge2 eid e' heid
    rw [hlen, ← hd]
    exact hw.edge_dest_lt e (edge?_mem _ _ _ he)
  · intro i eid hmem
    rw [hadj i] at hmem
    obtain ⟨e, he, horig⟩ := hw.adj_orig i eid hmem
    obtain ⟨e', he', ho, hd, hwt, hrv⟩ := hedge3 eid e he
    exact ⟨e', he', ho.trans horig⟩
  · intro eid e' he'
    obtain ⟨e, he, ho, hd, hwt, hrv⟩ := hedge2 eid e' he'
    rw [hadj, ← ho]
    exact hw.orig_adj eid e he
  · intro i
    rw [hadj i]
    exact hw.adj_nodup i
  · intro eid e' he'
    obtain ⟨e, he, ho, hd, hwt, hrv⟩ := hedge2 eid e' he'
    obtain ⟨rid, re, hrev, hre, h3, h4, h5, h6, h7⟩ := hw.pair eid e he
    obtain ⟨re', hre', ho2, hd2, hwt2, hrv2⟩ := hedge3 rid re hre
    exact ⟨rid, re', by rw [← hrv]; exact hrev, hre',
      by rw [ho2, h3, hd], by rw [hd2, h4, ho], by rw [hwt2, h5, hwt],
      by rw [hrv2, h6], h7⟩

theorem StaticSame_edge_some {g g' : Graph T} (h : StaticSame g g')
    (eid : Nat) (e : GEdge) (he : g.edge? eid = some e) :
    ∃ e', g'.edge? eid = some e' ∧ e'.orig = e.orig ∧ e'.dest = e.dest ∧
      e'.weight = e.weight ∧ e'.reverse = e.reverse := by
  have := h.2.2.2.2 eid
  rw [he] at this
  cases hg : g'.edge? eid with
  | none => rw [hg] at this; cases this
  | some e' =>
    rw [hg] at this
    simp only [Option.map_some, Option.map_some', Option.some.injEq,
      Prod.mk.injEq] at this
    exact ⟨e', rfl, this.1, this.2.1, this.2.2.1, this.2.2.2⟩

theorem StaticSame_clearSelected (g : Graph T) :
    StaticSame g g.clearSelected := by
  refine ⟨rfl, fun y => rfl, fun y => rfl, by simp [Graph.clearSelected],
    fun eid => ?_⟩
  rw [edge?_clearSelected]
  cases g.edge? eid <;> rfl

theorem StaticSame_kruskalInit (g : Graph T) :
    StaticSame g (kruskalInit g) :=
  ⟨length_kruskalInit g, fun y => (kruskalInit_fields g y).2.1,
   fun y => (kruskalInit_fields g y).2.2.2.2, rfl, fun _ => rfl⟩

theorem StaticSame_updateEdge_selected (g : Graph T) (i : Nat) :
    StaticSame g (g.updateEdge i (fun e => { e with selected := true })) := by
  refine ⟨rfl, fun y => rfl, fun y => rfl,
    by simp [Graph.updateEdge, length_modifyIdx], fun eid => ?_⟩
  rw [edge?_updateEdge]
  by_cases h : i = eid
  · rw [if_pos h]
    cases g.edge? eid <;> rfl
  · rw [if_neg h]

theorem kruskalUnionLoop_spec : ∀ (l : List Nat) (g : Graph T), DSUInv g →
    WF g → (∀ eid ∈ l, eid < g.edges.length) →
    ∃ gU, kruskalUnionLoop g l = some gU ∧ DSUInv gU ∧ WF gU ∧
      StaticSame g gU ∧ (∀ y, visitedOf gU y = visitedOf g y) ∧
      (∀ y, distOf gU y = distOf g y) ∧ (∀ y, idOf gU y = idOf g y)
  | [], g, hinv, hw, hl => ⟨g, rfl, hinv, hw, StaticSame_refl g,
      fun _ => rfl, fun _ => rfl, fun _ => rfl⟩
  | eid :: rest, g, hinv, hw, hl => by
    have heidlt : eid < g.edges.length := hl eid (List.mem_cons_self _ _)
    obtain ⟨e, he⟩ : ∃ e, g.edge? eid = some e := by
      rw [Graph.edge?, List.getElem?_eq_getElem heidlt]
      exact ⟨_, rfl⟩
    have horiglt : e.orig < g.vertexSet.length :=
      hw.edge_orig_lt e (edge?_mem _ _ _ he)
    have hdestlt : e.dest < g.vertexSet.length :=
      hw.edge_dest_lt e (edge?_mem _ _ _ he)
    obtain ⟨g1, r1, heq1, hroot1, hcomp1, hinv1⟩ :=
      findSet_spec g.vertexSet.length g hinv e.orig horiglt (by omega)
    have hlen1 : g1.vertexSet.length = g.vertexSet.length := hcomp1.1.1
    obtain ⟨g2, r2, heq2, hroot2, hcomp2, hinv2⟩ :=
      findSet_spec g1.vertexSet.length g1 hinv1 e.dest (by omega) (by omega)
    have hcomp12 : CompressedFrom g g2 := CompressedFrom_trans hcomp1 hcomp2
    have hstat2 : StaticSame g g2 := FrameSame_static (CompressedFrom_frame hcomp12)
    have hw2 : WF g2 := WF_transfer g g2 hstat2 hw
    have hlen2 : g2.vertexSet.length = g.vertexSet.length := hcomp12.1.1
    have hedges2 : g2.edges = g.edges := hcomp12.1.2.1
    by_cases hr12 : r1 = r2
    · obtain ⟨gU, heqU, hinvU, hwU, hstatU, hvisU, hdistU, hidU⟩ :=
        kruskalUnionLoop_spec rest g2 hinv2 hw2
          (fun x hx => by
            rw [hedges2]
            exact hl x (List.mem_cons_of_mem _ hx))
      refine ⟨gU, ?_, hinvU, hwU, StaticSame_trans hstat2 hstatU,
        fun y => (hvisU y).trans ((CompressedFrom_frame hcomp12).2.2.2.2.2.2 y),
        fun y => (hdistU y).trans ((CompressedFrom_frame hcomp12).2.2.2.2.2.1 y),
        fun y => (hidU y).trans ((CompressedFrom_frame hcomp12).2.2.2.2.1 y)⟩
      unfold kruskalUnionLoop
      rw [he]
      dsimp only
      rw [heq1]
      dsimp only
      rw [heq2]
      dsimp only
      rw [if_pos hr12]
      exact heqU
    · have hrootx : RootOf g2 e.orig r1 := by
        rw [hcomp12.1.2.2.2.2.2.2.2.2.2 e.orig r1]
        exact hroot1
      have hrooty : RootOf g2 e.dest r2 := by
        rw [hcomp2.1.2.2.2.2.2.2.2.2.2 e.dest r2]
        exact hroot2
      obtain ⟨gL, heqL, hinvL, hframeL, hcountL, -⟩ :=
        linkSets_full_spec g2 hinv2 e.orig e.dest (by omega) (by omega)
          r1 r2 hrootx hrooty hr12
      have hstatL : StaticSame g gL := StaticSame_trans hstat2 (FrameSame_static hframeL)
      have hwL : WF gL := WF_transfer g gL hstatL hw
      obtain ⟨e3, he3, ho3, hd3, hwt3, hrv3⟩ := StaticSame_edge_some hstatL eid e he
      obtain ⟨rid, re, hrev, hre, hro, hrd, hrw, hrr, hrne⟩ :=
        hw.pair eid e he
      have hreveq : e3.reverse = some rid := by rw [hrv3, hrev]
      set g4 := (gL.updateEdge eid
        (fun e => { e with selected := true })).updateEdge rid
        (fun e => { e with selected := true }) with hg4
      have hvs4 : g4.vertexSet = gL.vertexSet := rfl
      have hinv4 : DSUInv g4 := DSUInv_of_vertexSet_eq gL g4 hvs4 hinvL
      have hstat4 : StaticSame g g4 :=
        StaticSame_trans (StaticSame_trans hstatL (StaticSame_updateEdge_selected gL eid))
          (StaticSame_updateEdge_selected _ rid)
      have hw4 : WF g4 := WF_transfer g g4 hstat4 hw
      obtain ⟨gU, heqU, hinvU, hwU, hstatU, hvisU, hdistU, hidU⟩ :=
        kruskalUnionLoop_spec rest g4 hinv4 hw4
          (fun x hx => by
            rw [hstat4.2.2.2.1]
            exact hl x (List.mem_cons_of_mem _ hx))
      have hsc : ∀ y, visitedOf g4 y = visitedOf g y ∧
          distOf g4 y = distOf g y ∧ idOf g4 y = idOf g y := by
        intro y
        have h1 := CompressedFrom_frame hcomp12
        have h2 := hframeL
        exact ⟨(h2.2.2.2.2.2.2 y).trans (h1.2.2.2.2.2.2 y),
          (h2.2.2.2.2.2.1 y).trans (h1.2.2.2.2.2.1 y),
          (h2.2.2.2.2.1 y).trans (h1.2.2.2.2.1 y)⟩
      refine ⟨gU, ?_, hinvU, hwU, StaticSame_trans hstat4 hstatU,
        fun y => (hvisU y).trans (hsc y).1,
        fun y => (hdistU y).trans (hsc y).2.1,
        fun y => (hidU y).trans (hsc y).2.2⟩
      unfold kruskalUnionLoop
      rw [he]
      dsimp only
      rw [heq1]
      dsimp only
      rw [heq2]
      dsimp only
      rw [if_neg hr12, heqL]
      dsimp only
      rw [he3]
      dsimp only
      rw [hreveq]
      dsimp only
      exact heqU

theorem length_resetVisited (g : Graph T) :
    (g.resetVisited).vertexSet.length = g.vertexSet.length := by
  simp [Graph.resetVisited]

theorem pathOf_resetVisited (g : Graph T) (y : Nat) :
    pathOf (g.resetVisited) y = pathOf g y := by
  simp only [pathOf, Graph.resetVisited, Graph.vertex?, List.getElem?_map]
  cases g.vertexSet[y]? <;> rfl

theorem adjOf_resetVisited (g : Graph T) (y : Nat) :
    adjOf (g.resetVisited) y = adjOf g y := by
  simp only [adjOf, Graph.resetVisited, Graph.vertex?, List.getElem?_map]
  cases g.vertexSet[y]? <;> rfl

theorem edges_resetVisited (g : Graph T) : (g.resetVisited).edges = g.edges :=
  rfl

/-- Inner fold of `dfsKruskalPath`: it only ever rewrites the `path` of
vertices reachable from `v` (and `visited` flags), leaving adjacency, edge
destinations, and unreachable vertices' paths untouched. -/
theorem dfs_fold_untouched (g0 : Graph T) (fuel v : Nat)
    (ihfuel : ∀ (g : Graph T) (u : Nat), (∀ j, adjOf g j = adjOf g0 j) →
      (∀ eid, (g.edge? eid).map GEdge.dest =
        (g0.edge? eid).map GEdge.dest) →
      (∀ j, adjOf (dfsKruskalPath fuel g u) j = adjOf g0 j) ∧
      (∀ eid, ((dfsKruskalPath fuel g u).edge? eid).map GEdge.dest =
        (g0.edge? eid).map GEdge.dest) ∧
      ∀ w, ¬ DReach g0 u w →
        pathOf (dfsKruskalPath fuel g u) w = pathOf g w) :
    ∀ (l : List Nat) (gAcc : Graph T), (∀ eid ∈ l, eid ∈ adjOf g0 v) →
    (∀ j, adjOf gAcc j = adjOf g0 j) →
    (∀ eid, (gAcc.edge? eid).map GEdge.dest =
      (g0.edge? eid).map GEdge.dest) →
    (∀ j, adjOf (l.foldl (fun gAcc eid =>
        match gAcc.edge? eid with
        | none => gAcc
        | some e =>
          if !visitedOf gAcc e.dest && e.selected then
            dfsKruskalPath fuel
              (gAcc.updateVertex e.dest (fun w => { w with path := some v }))
              e.dest
          else gAcc) gAcc) j = adjOf g0 j) ∧
    (∀ eid, ((l.foldl (fun gAcc eid =>
        match gAcc.edge? eid with
        | none => gAcc
        | some e =>
          if !visitedOf gAcc e.dest && e.selected then
            dfsKruskalPath fuel
              (gAcc.updateVertex e.dest (fun w => { w with path := some v }))
              e.dest
          else gAcc) gAcc).edge? eid).map GEdge.dest =
      (g0.edge? eid).map GEdge.dest) ∧
    ∀ w, ¬ DReach g0 v w →
      pathOf (l.foldl (fun gAcc eid =>
        match gAcc.edge? eid with
        | none => gAcc
        | some e =>
          if !visitedOf gAcc e.dest && e.selected then
            dfsKruskalPath fuel
              (gAcc.updateVertex e.dest (fun w => { w with path := some v }))
              e.dest
          else gAcc) gAcc) w = pathOf gAcc w := by
  intro l
  induction l with
  | nil => exact fun gAcc _ hadj hdest => ⟨hadj, hdest, fun w _ => rfl⟩
  | cons eid rest ih =>
    intro gAcc hl hadj hdest
    rw [List.foldl_cons]
    have hmem : eid ∈ adjOf g0 v := hl eid (List.mem_cons_self _ _)
    have hrest : ∀ x ∈ rest, x ∈ adjOf g0 v :=
      fun x hx => hl x (List.mem_cons_of_mem _ hx)
    cases hge : gAcc.edge? eid with
    | none =>
      dsimp only
      exact ih gAcc hrest hadj hdest
    | some e =>
      dsimp only
      by_cases hsel : !visitedOf gAcc e.dest && e.selected
      · rw [if_pos hsel]
        have hdstep : DReach g0 v e.dest := by
          refine Relation.ReflTransGen.single ⟨eid, hmem, ?_⟩
          rw [edgeTo_iff]
          have := hdest eid
          rw [hge] at this
          cases hg0 : g0.edge? eid with
          | none => rw [hg0] at this; cases this
          | some e0 =>
            rw [hg0] at this
            simp only [Option.map_some, Option.map_some',
              Option.some.injEq] at this
            exact ⟨e0, rfl, this.symm⟩
        set gMid := gAcc.updateVertex e.dest
          (fun w => { w with path := some v }) with hgMid
        have hadjM : ∀ j, adjOf gMid j = adjOf g0 j := fun j => by
          rw [hgMid, adjOf_updateVertex _ _ _ _ (by intro w; rfl)]
          exact hadj j
        have hdestM : ∀ x, (gMid.edge? x).map GEdge.dest =
            (g0.edge? x).map GEdge.dest := fun x => hdest x
        obtain ⟨hadjD, hdestD, hpathD⟩ :=
          ihfuel gMid e.dest hadjM hdestM
        obtain ⟨hadjF, hdestF, hpathF⟩ :=
          ih (dfsKruskalPath fuel gMid e.dest) hrest hadjD hdestD
        refine ⟨hadjF, hdestF, fun w hw => ?_⟩
        have hwd : ¬ DReach g0 e.dest w := fun hc =>
          hw (Relation.ReflTransGen.trans hdstep hc)
        have hwne : e.dest ≠ w := fun hEq =>
          hw (hEq ▸ hdstep)
        rw [hpathF w hw, hpathD w hwd, hgMid,
          pathOf_updateVertex_ne _ _ _ _ hwne]
      · rw [if_neg hsel]
        exact ih gAcc hrest hadj hdest

theorem dfs_untouched (g0 : Graph T) : ∀ (fuel : Nat) (g : Graph T) (v : Nat),
    (∀ j, adjOf g j = adjOf g0 j) →
    (∀ eid, (g.edge? eid).map GEdge.dest = (g0.edge? eid).map GEdge.dest) →
    (∀ j, adjOf (dfsKruskalPath fuel g v) j = adjOf g0 j) ∧
    (∀ eid, ((dfsKruskalPath fuel g v).edge? eid).map GEdge.dest =
      (g0.edge? eid).map GEdge.dest) ∧
    ∀ w, ¬ DReach g0 v w → pathOf (dfsKruskalPath fuel g v) w = pathOf g w
  | 0, g, v, hadj, hdest => ⟨hadj, hdest, fun _ _ => rfl⟩
  | fuel+1, g, v, hadj, hdest => by
    have hadj1 : ∀ j, adjOf (g.updateVertex v
        (fun w => { w with visited := true })) j = adjOf g0 j := fun j => by
      rw [adjOf_updateVertex _ _ _ _ (by intro w; rfl)]
      exact hadj j
    have hdest1 : ∀ eid, ((g.updateVertex v
        (fun w => { w with visited := true })).edge? eid).map GEdge.dest =
        (g0.edge? eid).map GEdge.dest := fun eid => hdest eid
    have hadjv : adjOf (g.updateVertex v
        (fun w => { w with visited := true })) v = adjOf g0 v := hadj1 v
    obtain ⟨hadjF, hdestF, hpathF⟩ :=
      dfs_fold_untouched g0 fuel v (dfs_untouched g0 fuel)
        (adjOf (g.updateVertex v (fun w => { w with visited := true })) v)
        (g.updateVertex v (fun w => { w with visited := true }))
        (fun x hx => hadjv ▸ hx) hadj1 hdest1
    refine ⟨?_, ?_, ?_⟩
    · intro j
      show adjOf (dfsKruskalPath (fuel+1) g v) j = adjOf g0 j
      unfold dfsKruskalPath
      exact hadjF j
    · intro eid
      unfold dfsKruskalPath
      exact hdestF eid
    · intro w hw
      unfold dfsKruskalPath
      refine (hpathF w hw).trans ?_
      refine pathOf_updateVertex_ne _ _ _ _ (fun hEq => ?_)
      exact hw (hEq ▸ Relation.ReflTransGen.refl)

theorem collectEdges_sub (g : Graph T) (hw : WF g) :
    ∀ eid ∈ collectEdges g, eid < g.edges.length := by
  intro eid hmem
  unfold collectEdges at hmem
  obtain ⟨hfl, -⟩ := List.mem_filter.mp hmem
  obtain ⟨l, hlmem, hel⟩ := List.mem_flatten.mp hfl
  obtain ⟨v, hv, hadj⟩ := List.mem_map.mp hlmem
  obtain ⟨i, hi, hEq⟩ := List.mem_iff_getElem.mp hv
  have : eid ∈ adjOf g i := by
    rw [adjOf, Graph.vertex?, List.getElem?_eq_getElem hi, hEq]
    simpa [hadj] using hel
  exact WF_adj_lt hw i eid this

theorem StaticSame_dest_eq {g g' : Graph T} (h : StaticSame g g')
    (eid : Nat) :
    (g'.edge? eid).map GEdge.dest = (g.edge? eid).map GEdge.dest := by
  have := h.2.2.2.2 eid
  cases hg' : g'.edge? eid with
  | none =>
    rw [hg'] at this
    cases hg : g.edge? eid with
    | none => rfl
    | some e => rw [hg] at this; cases this
  | some e' =>
    rw [hg'] at this
    cases hg : g.edge? eid with
    | none => rw [hg] at this; cases this
    | some e =>
      rw [hg] at this
      simp only [Option.map_some, Option.map_some', Option.some.injEq,
        Prod.mk.injEq] at this
      simp [this.2.1]

theorem kruskalUnionPhase_spec (g : Graph T) (hw : WF g) :
    ∃ gU, kruskalUnionPhase g = some gU ∧ DSUInv gU ∧ WF gU ∧
      StaticSame g gU ∧ (∀ i, i < g.vertexSet.length → idOf gU i = i) := by
  have sI : StaticSame g ((kruskalInit g).clearSelected) :=
    StaticSame_trans (StaticSame_kruskalInit g) (StaticSame_clearSelected (kruskalInit g))
  have hinvI : DSUInv ((kruskalInit g).clearSelected) :=
    DSUInv_of_vertexSet_eq (kruskalInit g) _
      (vertexSet_clearSelected (kruskalInit g)) (DSUInv_kruskalInit g)
  have hwI : WF ((kruskalInit g).clearSelected) := WF_transfer g _ sI hw
  have hbound : ∀ eid ∈ sortEdges ((kruskalInit g).clearSelected)
      (collectEdges ((kruskalInit g).clearSelected)),
      eid < ((kruskalInit g).clearSelected).edges.length := by
    intro eid hmem
    refine collectEdges_sub _ hwI eid ?_
    exact (List.Perm.mem_iff (List.perm_insertionSort _ _)).mp hmem
  obtain ⟨gU, heqU, hinvU, hwU, hstatU, hvisU, hdistU, hidU⟩ :=
    kruskalUnionLoop_spec _ _ hinvI hwI hbound
  refine ⟨gU, heqU, hinvU, hwU, StaticSame_trans sI hstatU, ?_⟩
  intro i hi
  rw [hidU i]
  show idOf (kruskalInit g) i = i
  exact ((kruskalInit_fields g i).1 hi).2.2

theorem calculateKruskal_eq (g gU : Graph T)
    (hU : kruskalUnionPhase g = some gU) (hne : gU.vertexSet ≠ []) :
    g.calculateKruskal = some (dfsKruskalPath
      (((gU.resetVisited).updateVertex 0
        (fun v => { v with path := none })).vertexSet.length)
      ((gU.resetVisited).updateVertex 0 (fun v => { v with path := none }))
      0) := by
  unfold Graph.calculateKruskal
  rw [hU]
  dsimp only
  split
  next heq =>
    rw [Graph.resetVisited] at heq
    simp only [List.map_eq_nil_iff] at heq
    exact absurd heq hne
  next => rfl

/-- C9: on a disconnected graph built via `addBidirectionalEdge`,
`calculateKruskal` leaves every vertex outside vertex 0's component with the
parent pointer that survives the union-find phase — a disjoint-set
representative pointer (never `none`). -/
theorem calculateKruskal_disconnected [DecidableEq T]
    (ops : List (BuildOp T)) (hne : (buildGraph ops).vertexSet ≠ [])
    (hdis : ∃ v, v < (buildGraph ops).vertexSet.length ∧
      ¬ DReach (buildGraph ops) 0 v) :
    ∃ gU gK, kruskalUnionPhase (buildGraph ops) = some gU ∧
      (buildGraph ops).calculateKruskal = some gK ∧
      ∀ v, v < (buildGraph ops).vertexSet.length →
        ¬ DReach (buildGraph ops) 0 v →
        pathOf gK v = pathOf gU v ∧ pathOf gU v ≠ none := by
  obtain ⟨gU, heqU, hinvU, hwU, hstatU, hidU⟩ :=
    kruskalUnionPhase_spec (buildGraph ops) (WF_buildGraph ops)
  have hlenU : gU.vertexSet.length = (buildGraph ops).vertexSet.length :=
    hstatU.1
  have hneU : gU.vertexSet ≠ [] := by
    intro hc
    apply hne
    rw [← List.length_eq_zero]
    rw [← hlenU, hc]
    rfl
  refine ⟨gU, _, heqU, calculateKruskal_eq _ gU heqU hneU, ?_⟩
  intro v hv hvr
  set gZ := (gU.resetVisited).updateVertex 0
    (fun w => { w with path := none }) with hgZ
  have hadjZ : ∀ j, adjOf gZ j = adjOf (buildGraph ops) j := by
    intro j
    rw [hgZ, adjOf_updateVertex _ _ _ _ (by intro w; rfl),
      adjOf_resetVisited]
    exact hstatU.2.1 j
  have hdestZ : ∀ eid, (gZ.edge? eid).map GEdge.dest =
      ((buildGraph ops).edge? eid).map GEdge.dest := by
    intro eid
    have h1 : gZ.edges = gU.edges := rfl
    rw [Graph.edge?, h1, ← Graph.edge?]
    exact StaticSame_dest_eq hstatU eid
  obtain ⟨-, -, hpath⟩ :=
    dfs_untouched (buildGraph ops) gZ.vertexSet.length gZ 0 hadjZ hdestZ
  have hvne : (0 : Nat) ≠ v := fun hEq =>
    hvr (hEq ▸ Relation.ReflTransGen.refl)
  refine ⟨?_, ?_⟩
  · rw [hpath v hvr, hgZ, pathOf_updateVertex_ne _ _ _ _ hvne,
      pathOf_resetVisited]
  · obtain ⟨p, hp, -, -⟩ := hinvU.parent_ok v (by rw [hlenU]; exact hv)
    rw [hp]
    exact fun hc => by cases hc

theorem calculateKruskal_disconnected_witness :
    (buildGraph [BuildOp.vertex 0, BuildOp.vertex 1, BuildOp.vertex 2,
      BuildOp.biEdge 0 1 1]).vertexSet ≠ [] ∧
    (∃ v, v < (buildGraph [BuildOp.vertex 0, BuildOp.vertex 1,
        BuildOp.vertex 2, BuildOp.biEdge 0 1 1] : Graph ℕ).vertexSet.length ∧
      ¬ DReach (buildGraph [BuildOp.vertex 0, BuildOp.vertex 1,
        BuildOp.vertex 2, BuildOp.biEdge 0 1 1]) 0 v) ∧
    ∃ gU gK, kruskalUnionPhase (buildGraph [BuildOp.vertex 0,
        BuildOp.vertex 1, BuildOp.vertex 2, BuildOp.biEdge 0 1 1] :
        Graph ℕ) = some gU ∧
      (buildGraph [BuildOp.vertex 0, BuildOp.vertex 1, BuildOp.vertex 2,
        BuildOp.biEdge 0 1 1] : Graph ℕ).calculateKruskal = some gK ∧
      ∀ v, v < (buildGraph [BuildOp.vertex 0, BuildOp.vertex 1,
            BuildOp.vertex 2, BuildOp.biEdge 0 1 1] :
            Graph ℕ).vertexSet.length →
        ¬ DReach (buildGraph [BuildOp.vertex 0, BuildOp.vertex 1,
            BuildOp.vertex 2, BuildOp.biEdge 0 1 1]) 0 v →
        pathOf gK v = pathOf gU v ∧ pathOf gU v ≠ none := by
  have hnr : ¬ DReach (buildGraph [BuildOp.vertex 0, BuildOp.vertex 1,
      BuildOp.vertex 2, BuildOp.biEdge 0 1 1] : Graph ℕ) 0 2 := by
    intro h
    have := dreach_closed _ [0, 1] 0 (by decide) (by decide) 2 h
    simp at this
  exact ⟨by decide, ⟨2, by decide, hnr⟩,
    calculateKruskal_disconnected _ (by decide) ⟨2, by decide, hnr⟩⟩

/-! ### C3: exceptions and the empty graph

`vector::at(0)` on an empty `vertexSet` throws `std::out_of_range`, so the
claim that no operation ever throws — "including calling `calculatePrim` or
`calculateKruskal` on a graph with zero vertices" — is false; the thrown
exception is modelled by `none`. -/

/-- C3 counterexample: both MST algorithms throw (return `none`) on the
empty graph. -/
theorem calculate_empty_counterexample :
    Graph.calculatePrim ({} : Graph ℕ) = none ∧
    Graph.calculateKruskal ({} : Graph ℕ) = none := by
  constructor <;> rfl

theorem calculatePrim_isSome_iff (g : Graph T) :
    (g.calculatePrim).isSome = true ↔ g.vertexSet ≠ [] := by
  constructor
  · intro h hc
    unfold Graph.calculatePrim at h
    dsimp only at h
    rw [show (primReset g).vertexSet = [] by rw [primReset, hc]; rfl] at h
    cases h
  · intro h
    rw [calculatePrim_eq_some g h]
    rfl

theorem calculateKruskal_empty (g : Graph T) (h : g.vertexSet = []) :
    g.calculateKruskal = none := by
  have hI : ((kruskalInit g).clearSelected).vertexSet = [] := by
    rw [vertexSet_clearSelected]
    simp [kruskalInit, h]
  have hcoll : collectEdges ((kruskalInit g).clearSelected) = [] := by
    unfold collectEdges
    rw [hI]
    rfl
  have hphase : kruskalUnionPhase g = some ((kruskalInit g).clearSelected) := by
    unfold kruskalUnionPhase
    dsimp only
    rw [hcoll]
    rfl
  unfold Graph.calculateKruskal
  rw [hphase]
  dsimp only
  rw [show (((kruskalInit g).clearSelected).resetVisited).vertexSet = []
    by rw [Graph.resetVisited]; rw [hI]; rfl]

/-- C3 (amended): the construction operations report failure through their
boolean/sentinel return values and total evaluation; `calculatePrim`
succeeds exactly on non-empty graphs, and `calculateKruskal` throws on the
empty graph but succeeds on every non-empty graph built through the
construction API. -/
theorem graph_error_handling [DecidableEq T] :
    (∀ g : Graph T, (g.calculatePrim).isSome = true ↔ g.vertexSet ≠ []) ∧
    (∀ g : Graph T, g.vertexSet = [] → g.calculateKruskal = none) ∧
    (∀ ops : List (BuildOp T), (buildGraph ops).vertexSet ≠ [] →
      ((buildGraph ops).calculateKruskal).isSome = true) := by
  refine ⟨calculatePrim_isSome_iff, calculateKruskal_empty, ?_⟩
  intro ops hne
  obtain ⟨gU, heqU, hinvU, hwU, hstatU, hidU⟩ :=
    kruskalUnionPhase_spec (buildGraph ops) (WF_buildGraph ops)
  have hneU : gU.vertexSet ≠ [] := by
    intro hc
    apply hne
    rw [← List.length_eq_zero, ← hstatU.1, hc]
    rfl
  rw [calculateKruskal_eq _ gU heqU hneU]
  rfl

theorem graph_error_handling_witness :
    ((Graph.calculatePrim exGraph2).isSome = true ↔
      exGraph2.vertexSet ≠ []) ∧
    (Graph.calculateKruskal ({} : Graph ℕ) = none) ∧
    ((buildGraph [BuildOp.vertex 0, BuildOp.vertex 1,
      BuildOp.biEdge 0 1 7] : Graph ℕ).calculateKruskal).isSome = true :=
  ⟨(graph_error_handling (T := ℕ)).1 exGraph2,
   (graph_error_handling (T := ℕ)).2.1 {} rfl,
   (graph_error_handling (T := ℕ)).2.2
     [BuildOp.vertex 0, BuildOp.vertex 1, BuildOp.biEdge 0 1 7] (by decide)⟩

/-! ### Undirected spanning-tree theory

`calculatePrim` and `calculateKruskal` both compute minimum spanning trees
of the undirected graph encoded by the mutually-reverse directed edge pairs
(claims C1 and C2).  The combinatorial theory is developed over a bare edge
list `E`: entry `i` is `(a, b, w)`, an undirected edge between `a` and `b`
of weight `w`.  A candidate tree is a `Finset` of indices into `E`. -/

/-- The undirected edge list of a graph: one `(orig, dest, weight)` entry
per directed edge (so each undirected edge appears twice, once per
direction). -/
def uedges (g : Graph T) : List (Nat × Nat × ℚ) :=
  g.edges.map (fun e => (e.orig, e.dest, e.weight))

/-- Edge `i` of `E` joins `a` and `b` (in either orientation). -/
def econnects (E : List (Nat × Nat × ℚ)) (i a b : Nat) : Prop :=
  ∃ t, E[i]? = some t ∧ ((t.1 = a ∧ t.2.1 = b) ∨ (t.1 = b ∧ t.2.1 = a))

/-- The weight of edge `i` of `E`. -/
def ewt (E : List (Nat × Nat × ℚ)) (i : Nat) : ℚ :=
  ((E[i]?).map (fun t => t.2.2)).getD 0

/-- One undirected step through an edge of the index set `S`. -/
def ustepOn (E : List (Nat × Nat × ℚ)) (S : Finset Nat) (a b : Nat) : Prop :=
  ∃ i ∈ S, econnects E i a b

/-- Undirected reachability through the edges of `S`. -/
def ReachOn (E : List (Nat × Nat × ℚ)) (S : Finset Nat) : Nat → Nat → Prop :=
  Relation.ReflTransGen (ustepOn E S)

theorem econnects_symm (E : List (Nat × Nat × ℚ)) (i a b : Nat)
    (h : econnects E i a b) : econnects E i b a := by
  obtain ⟨t, ht, hc⟩ := h
  exact ⟨t, ht, hc.symm⟩

theorem ustepOn_symm (E : List (Nat × Nat × ℚ)) (S : Finset Nat) (a b : Nat)
    (h : ustepOn E S a b) : ustepOn E S b a := by
  obtain ⟨i, hi, hc⟩ := h
  exact ⟨i, hi, econnects_symm E i a b hc⟩

theorem reachOn_symm (E : List (Nat × Nat × ℚ)) (S : Finset Nat) (a b : Nat)
    (h : ReachOn E S a b) : ReachOn E S b a := by
  induction h with
  | refl => exact Relation.ReflTransGen.refl
  | tail hr hstep ih =>
    exact Relation.ReflTransGen.head (ustepOn_symm E S _ _ hstep) ih

theorem reachOn_mono (E : List (Nat × Nat × ℚ)) (S S' : Finset Nat)
    (hss : S ⊆ S') (a b : Nat) (h : ReachOn E S a b) : ReachOn E S' a b := by
  induction h with
  | refl => exact Relation.ReflTransGen.refl
  | tail hr hstep ih =>
    obtain ⟨i, hi, hc⟩ := hstep
    exact Relation.ReflTransGen.tail ih ⟨i, hss hi, hc⟩

/-- A walk recorded as its list of edge indices. -/
inductive UWalk (E : List (Nat × Nat × ℚ)) (S : Finset Nat) :
    Nat → Nat → List Nat → Prop
  | nil (a : Nat) : UWalk E S a a []
  | cons (i a b c : Nat) (l : List Nat) (hi : i ∈ S)
      (hc : econnects E i a b) (hw : UWalk E S b c l) : UWalk E S a c (i :: l)

theorem uwalk_append (E : List (Nat × Nat × ℚ)) (S : Finset Nat) :
    ∀ {a b : Nat} {l : List Nat}, UWalk E S a b l →
    ∀ {c : Nat} {l' : List Nat}, UWalk E S b c l' → UWalk E S a c (l ++ l') := by
  intro a b l h1
  induction h1 with
  | nil => intro c l' h2; exact h2
  | cons i x y z l hi hc hw ih =>
    intro c l' h2
    exact UWalk.cons i x y c (l ++ l') hi hc (ih h2)

theorem reachOn_iff_walk (E : List (Nat × Nat × ℚ)) (S : Finset Nat)
    (a b : Nat) : ReachOn E S a b ↔ ∃ l, UWalk E S a b l := by
  constructor
  · intro h
    induction h with
    | refl => exact ⟨[], UWalk.nil a⟩
    | tail hr hstep ih =>
      obtain ⟨l, hw⟩ := ih
      obtain ⟨i, hi, hc⟩ := hstep
      exact ⟨l ++ [i], uwalk_append E S hw
        (UWalk.cons i _ _ _ [] hi hc (UWalk.nil _))⟩
  · intro ⟨l, hw⟩
    induction hw with
    | nil => exact Relation.ReflTransGen.refl
    | cons i x y z l hi hc hw ih =>
      exact Relation.ReflTransGen.head ⟨i, hi, hc⟩ ih

theorem uwalk_mono (E : List (Nat × Nat × ℚ)) (S S' : Finset Nat)
    (hss : S ⊆ S') : ∀ {a b : Nat} {l : List Nat},
    UWalk E S a b l → UWalk E S' a b l := by
  intro a b l h
  induction h with
  | nil => exact UWalk.nil _
  | cons i x y z l hi hc hw ih => exact UWalk.cons i x y z l (hss hi) hc ih

theorem uwalk_avoid (E : List (Nat × Nat × ℚ)) (S : Finset Nat) (f : Nat) :
    ∀ {a b : Nat} {l : List Nat}, UWalk E S a b l → f ∉ l →
    UWalk E (S.erase f) a b l := by
  intro a b l h
  induction h with
  | nil => intro _; exact UWalk.nil _
  | cons i x y z l hi hc hw ih =>
    intro hf
    refine UWalk.cons i x y z l ?_ hc (ih (fun hm => hf (List.mem_cons_of_mem _ hm)))
    exact Finset.mem_erase.mpr ⟨fun hEq => hf (hEq ▸ List.mem_cons_self _ _), hi⟩

theorem uwalk_split (E : List (Nat × Nat × ℚ)) (S : Finset Nat) (i : Nat) :
    ∀ (p : List Nat) {a c : Nat} {q : List Nat},
    UWalk E S a c (p ++ i :: q) →
    ∃ x y, UWalk E S a x p ∧ i ∈ S ∧ econnects E i x y ∧ UWalk E S y c q := by
  intro p
  induction p with
  | nil =>
    intro a c q h
    cases h with
    | cons j a b c l hi hc hw => exact ⟨a, b, UWalk.nil a, hi, hc, hw⟩
  | cons j p ih =>
    intro a c q h
    cases h with
    | cons j a b c l hi hc hw =>
      obtain ⟨x, y, hw1, hiS, hcxy, hw2⟩ := ih hw
      exact ⟨x, y, UWalk.cons j a b x p hi hc hw1, hiS, hcxy, hw2⟩

theorem mem_last_split {α : Type} [DecidableEq α] (i : α) :
    ∀ (l : List α), i ∈ l → ∃ p q, l = p ++ i :: q ∧ i ∉ q := by
  intro l
  induction l with
  | nil => intro h; cases h
  | cons x xs ih =>
    intro h
    by_cases hx : i ∈ xs
    · obtain ⟨p, q, hpq, hq⟩ := ih hx
      exact ⟨x :: p, q, by rw [hpq]; rfl, hq⟩
    · have hxi : x = i := by
        rcases List.mem_cons.mp h with h1 | h2
        · exact h1.symm
        · exact absurd h2 hx
      exact ⟨[], xs, by rw [hxi]; rfl, hx⟩

theorem econnects_endpoints (E : List (Nat × Nat × ℚ)) (i a b x y : Nat)
    (h1 : econnects E i a b) (h2 : econnects E i x y) :
    (x = a ∧ y = b) ∨ (x = b ∧ y = a) := by
  obtain ⟨t, ht, hc1⟩ := h1
  obtain ⟨t', ht', hc2⟩ := h2
  rw [ht] at ht'
  cases ht'
  rcases hc1 with ⟨ha, hb⟩ | ⟨ha, hb⟩ <;> rcases hc2 with ⟨hx, hy⟩ | ⟨hx, hy⟩
  · exact Or.inl ⟨hx ▸ ha, hy ▸ hb⟩
  · exact Or.inr ⟨hy ▸ hb, hx ▸ ha⟩
  · exact Or.inr ⟨hx ▸ ha, hy ▸ hb⟩
  · exact Or.inl ⟨hy ▸ hb, hx ▸ ha⟩

/-- Crossing lemma: a walk from inside the vertex set `P` to outside it
uses some edge `f` crossing `P`, and both walk ends stay reachable without
`f`. -/
theorem cross_walk (E : List (Nat × Nat × ℚ)) (S : Finset Nat)
    (P : Nat → Prop) :
    ∀ (n : Nat) (l : List Nat) (a b : Nat), l.length ≤ n →
    UWalk E S a b l → P a → ¬ P b →
    ∃ f x y, f ∈ S ∧ f ∈ l ∧ econnects E f x y ∧ P x ∧ ¬ P y ∧
      ReachOn E (S.erase f) a x ∧ ReachOn E (S.erase f) y b := by
  intro n
  induction n with
  | zero =>
    intro l a b hlen hw hPa hPb
    have : l = [] := List.eq_nil_of_length_eq_zero (Nat.le_zero.mp hlen)
    rw [this] at hw
    cases hw
    exact absurd hPa hPb
  | succ n ih =>
    intro l a b hlen hw hPa hPb
    cases hw with
    | nil => exact absurd hPa hPb
    | cons i a b2 c l2 hi hc hw2 =>
      by_cases hPb2 : P b2
      · obtain ⟨f, x, y, hfS, hfl, hfc, hPx, hPy, hr1, hr2⟩ :=
          ih l2 b2 b (by simp only [List.length_cons] at hlen; omega) hw2 hPb2 hPb
        have hfi : f ≠ i := by
          intro hEq
          rcases econnects_endpoints E i a b2 x y hc (hEq ▸ hfc) with
            ⟨hx, hy⟩ | ⟨hx, hy⟩
          · exact hPy (hy ▸ hPb2)
          · exact hPy (hy ▸ hPa)
        refine ⟨f, x, y, hfS, List.mem_cons_of_mem _ hfl, hfc, hPx, hPy, ?_, hr2⟩
        refine Relation.ReflTransGen.head ⟨i, ?_, hc⟩ hr1
        exact Finset.mem_erase.mpr ⟨fun hEq => hfi hEq.symm, hi⟩
      · by_cases hil : i ∈ l2
        · obtain ⟨p, q, hpq, hiq⟩ := mem_last_split i l2 hil
          rw [hpq] at hw2
          obtain ⟨x, y, hwp, hiS, hcxy, hwq⟩ := uwalk_split E S i p hw2
          rcases econnects_endpoints E i a b2 x y hc hcxy with
            ⟨hx, hy⟩ | ⟨hx, hy⟩
          · refine ⟨i, a, b2, hi, List.mem_cons_self _ _, hc, hPa, hPb2,
              Relation.ReflTransGen.refl, ?_⟩
            rw [hy] at hwq
            exact (reachOn_iff_walk E _ b2 b).mpr ⟨q, uwalk_avoid E S i hwq hiq⟩
          · rw [hy] at hwq
            have hqlen : q.length ≤ n := by
              have h1 : l2.length ≤ n := by
                simp only [List.length_cons] at hlen
                omega
              have h2 : q.length < l2.length := by
                rw [hpq]
                simp only [List.length_append, List.length_cons]
                omega
              omega
            obtain ⟨f, x', y', hfS, hfl, hfc, hPx, hPy, hr1, hr2⟩ :=
              ih q a b hqlen hwq hPa hPb
            refine ⟨f, x', y', hfS, ?_, hfc, hPx, hPy, hr1, hr2⟩
            refine List.mem_cons_of_mem _ ?_
            rw [hpq]
            exact List.mem_append_right _ (List.mem_cons_of_mem _ hfl)
        · refine ⟨i, a, b2, hi, List.mem_cons_self _ _, hc, hPa, hPb2,
            Relation.ReflTransGen.refl, ?_⟩
          exact (reachOn_iff_walk E _ b2 b).mpr ⟨l2, uwalk_avoid E S i hw2 hil⟩

/-- `S` spans the vertices `0, …, V-1` from vertex `0`. -/
def Spans (V : Nat) (E : List (Nat × Nat × ℚ)) (S : Finset Nat) : Prop :=
  ∀ v, v < V → ReachOn E S 0 v

/-- A spanning tree of the `V`-vertex graph `E`: a set of `V - 1` edge
indices connecting every vertex to vertex `0`. -/
def IsSpanTree (V : Nat) (E : List (Nat × Nat × ℚ)) (S : Finset Nat) : Prop :=
  (∀ i ∈ S, i < E.length) ∧ Spans V E S ∧ S.card + 1 = V

/-- Total weight of an edge set. -/
def wsum (E : List (Nat × Nat × ℚ)) (S : Finset Nat) : ℚ :=
  S.sum (ewt E)

/-- `q` is the weight of a minimum spanning tree of the `V`-vertex graph
`E`. -/
def IsMSTWeight (V : Nat) (E : List (Nat × Nat × ℚ)) (q : ℚ) : Prop :=
  (∃ S, IsSpanTree V E S ∧ wsum E S = q) ∧
  ∀ S, IsSpanTree V E S → q ≤ wsum E S

theorem isMSTWeight_unique (V : Nat) (E : List (Nat × Nat × ℚ)) (q q' : ℚ)
    (h : IsMSTWeight V E q) (h' : IsMSTWeight V E q') : q = q' := by
  obtain ⟨⟨S, hS, hw⟩, hmin⟩ := h
  obtain ⟨⟨S', hS', hw'⟩, hmin'⟩ := h'
  have h1 := hmin S' hS'
  have h2 := hmin' S hS
  rw [hw] at h2
  rw [hw'] at h1
  exact le_antisymm h1 h2

/-- Step-wise simulation of reachability. -/
theorem reach_simulate (E : List (Nat × Nat × ℚ)) (S S' : Finset Nat)
    (h : ∀ i ∈ S, ∀ x y, econnects E i x y → ReachOn E S' x y) :
    ∀ a b, ReachOn E S a b → ReachOn E S' a b := by
  intro a b hr
  induction hr with
  | refl => exact Relation.ReflTransGen.refl
  | tail hr hstep ih =>
    obtain ⟨i, hi, hc⟩ := hstep
    exact Relation.ReflTransGen.trans ih (h i hi _ _ hc)

/-- The exchange argument: if `T` is a spanning tree, `e` is an edge
crossing the cut `P` of minimal weight among the `T`-edges crossing `P`,
and `A ⊆ T` never crosses `P`, then some spanning tree of weight at most
`wsum T` contains `A` and `e` and lives inside `insert e T`. -/
theorem exchange (V : Nat) (E : List (Nat × Nat × ℚ)) (T : Finset Nat)
    (hT : IsSpanTree V E T) (P : Nat → Prop) (e a z : Nat)
    (he : e < E.length) (hconn : econnects E e a z) (hPa : P a) (hPz : ¬ P z)
    (ha : a < V) (hz : z < V)
    (hmin : ∀ f ∈ T, ∀ x y, econnects E f x y → P x → ¬ P y →
      ewt E e ≤ ewt E f)
    (A : Finset Nat) (hA : A ⊆ T)
    (hAin : ∀ i ∈ A, ∀ x y, econnects E i x y → (P x ↔ P y)) :
    ∃ TT, IsSpanTree V E TT ∧ insert e A ⊆ TT ∧ TT ⊆ insert e T ∧
      wsum E TT ≤ wsum E T := by
  obtain ⟨hTb, hTs, hTc⟩ := hT
  by_cases heT : e ∈ T
  · exact ⟨T, ⟨hTb, hTs, hTc⟩, Finset.insert_subset heT hA,
      Finset.subset_insert e T, le_refl _⟩
  · have hraz : ReachOn E T a z :=
      Relation.ReflTransGen.trans (reachOn_symm E T 0 a (hTs a ha)) (hTs z hz)
    obtain ⟨l, hw⟩ := (reachOn_iff_walk E T a z).mp hraz
    obtain ⟨f, x, y, hfT, hfl, hfc, hPx, hPy, hr1, hr2⟩ :=
      cross_walk E T P l.length l a z (le_refl _) hw hPa hPz
    have hfA : f ∉ A := fun hmem => hPy ((hAin f hmem x y hfc).mp hPx)
    have hef : e ≠ f := fun hEq => heT (hEq ▸ hfT)
    have hwef : ewt E e ≤ ewt E f := hmin f hfT x y hfc hPx hPy
    have hsub : T.erase f ⊆ insert e (T.erase f) := Finset.subset_insert _ _
    have hax : ReachOn E (insert e (T.erase f)) a x :=
      reachOn_mono E _ _ hsub a x hr1
    have hyz : ReachOn E (insert e (T.erase f)) y z :=
      reachOn_mono E _ _ hsub y z hr2
    have hxy : ReachOn E (insert e (T.erase f)) x y := by
      refine Relation.ReflTransGen.trans (reachOn_symm E _ a x hax) ?_
      refine Relation.ReflTransGen.head ⟨e, Finset.mem_insert_self _ _, hconn⟩ ?_
      exact reachOn_symm E _ y z hyz
    have hsim : ∀ i ∈ T, ∀ u v, econnects E i u v →
        ReachOn E (insert e (T.erase f)) u v := by
      intro i hiT u v hcuv
      by_cases hif : i = f
      · rcases econnects_endpoints E f x y u v hfc (hif ▸ hcuv) with
          ⟨hu, hv⟩ | ⟨hu, hv⟩
        · rw [hu, hv]; exact hxy
        · rw [hu, hv]; exact reachOn_symm E _ x y hxy
      · exact Relation.ReflTransGen.single
          ⟨i, Finset.mem_insert_of_mem (Finset.mem_erase.mpr ⟨hif, hiT⟩), hcuv⟩
    have hnotmem : e ∉ T.erase f := fun hmem => heT (Finset.mem_of_mem_erase hmem)
    refine ⟨insert e (T.erase f), ⟨?_, ?_, ?_⟩, ?_, ?_, ?_⟩
    · intro i hi
      rcases Finset.mem_insert.mp hi with h1 | h2
      · exact h1 ▸ he
      · exact hTb i (Finset.mem_of_mem_erase h2)
    · intro v hv
      exact reach_simulate E T _ hsim 0 v (hTs v hv)
    · rw [Finset.card_insert_of_not_mem hnotmem, Finset.card_erase_of_mem hfT]
      have hpos : 1 ≤ T.card := Finset.card_pos.mpr ⟨f, hfT⟩
      omega
    · refine Finset.insert_subset (Finset.mem_insert_self _ _) ?_
      intro i hiA
      exact Finset.mem_insert_of_mem
        (Finset.mem_erase.mpr ⟨fun hEq => hfA (hEq ▸ hiA), hA hiA⟩)
    · intro i hi
      rcases Finset.mem_insert.mp hi with h1 | h2
      · exact h1 ▸ Finset.mem_insert_self _ _
      · exact Finset.mem_insert_of_mem (Finset.mem_of_mem_erase h2)
    · rw [wsum, wsum, Finset.sum_insert hnotmem]
      have hsplit := Finset.sum_erase_add T (ewt E) hfT
      linarith

theorem reach_empty (E : List (Nat × Nat × ℚ)) :
    ∀ u v, ReachOn E ∅ u v → u = v := by
  intro u v h
  induction h with
  | refl => rfl
  | tail hr hstep ih =>
    obtain ⟨i, hi, hc⟩ := hstep
    exact absurd hi (Finset.not_mem_empty i)

theorem reach_insert_none (E : List (Nat × Nat × ℚ)) (S : Finset Nat)
    (e : Nat) (he : E[e]? = none) :
    ∀ u v, ReachOn E (insert e S) u v → ReachOn E S u v := by
  intro u v h
  induction h with
  | refl => exact Relation.ReflTransGen.refl
  | tail hr hstep ih =>
    obtain ⟨i, hi, hc⟩ := hstep
    rcases Finset.mem_insert.mp hi with h1 | h2
    · obtain ⟨t, ht, hor⟩ := hc
      rw [h1, he] at ht
      cases ht
    · exact Relation.ReflTransGen.tail ih ⟨i, h2, hc⟩

theorem reach_insert_decomp (E : List (Nat × Nat × ℚ)) (S : Finset Nat)
    (e o d : Nat) (hce : econnects E e o d) :
    ∀ u v, ReachOn E (insert e S) u v →
    ReachOn E S u v ∨ (ReachOn E S u o ∧ ReachOn E S d v) ∨
      (ReachOn E S u d ∧ ReachOn E S o v) := by
  intro u v h
  induction h with
  | refl => exact Or.inl Relation.ReflTransGen.refl
  | tail hr hstep ih =>
    obtain ⟨i, hi, hc⟩ := hstep
    rcases Finset.mem_insert.mp hi with h1 | h2
    · rcases econnects_endpoints E e o d _ _ hce (h1 ▸ hc) with
        ⟨hw, hv⟩ | ⟨hw, hv⟩
      · rw [hw] at ih
        rw [hv]
        rcases ih with ih1 | ⟨ih2a, ih2b⟩ | ⟨ih3a, ih3b⟩
        · exact Or.inr (Or.inl ⟨ih1, Relation.ReflTransGen.refl⟩)
        · exact Or.inr (Or.inl ⟨ih2a, Relation.ReflTransGen.refl⟩)
        · exact Or.inl ih3a
      · rw [hw] at ih
        rw [hv]
        rcases ih with ih1 | ⟨ih2a, ih2b⟩ | ⟨ih3a, ih3b⟩
        · exact Or.inr (Or.inr ⟨ih1, Relation.ReflTransGen.refl⟩)
        · exact Or.inl ih2a
        · exact Or.inr (Or.inr ⟨ih3a, Relation.ReflTransGen.refl⟩)
    · rcases ih with ih1 | ⟨ih2a, ih2b⟩ | ⟨ih3a, ih3b⟩
      · exact Or.inl (Relation.ReflTransGen.tail ih1 ⟨i, h2, hc⟩)
      · exact Or.inr (Or.inl ⟨ih2a, Relation.ReflTransGen.tail ih2b ⟨i, h2, hc⟩⟩)
      · exact Or.inr (Or.inr ⟨ih3a, Relation.ReflTransGen.tail ih3b ⟨i, h2, hc⟩⟩)

/-- `v` is the least vertex of its `S`-connected component. -/
def isRep (E : List (Nat × Nat × ℚ)) (S : Finset Nat) (v : Nat) : Prop :=
  ∀ u, u < v → ¬ ReachOn E S u v

noncomputable instance repDecidable (E : List (Nat × Nat × ℚ)) (S : Finset Nat) :
    DecidablePred (isRep E S) :=
  Classical.decPred _

/-- Number of `S`-connected components among vertices `0, …, V-1`, counted
by least representatives. -/
noncomputable def nComps (V : Nat) (E : List (Nat × Nat × ℚ))
    (S : Finset Nat) : Nat :=
  ((Finset.range V).filter (isRep E S)).card

theorem nComps_empty (V : Nat) (E : List (Nat × Nat × ℚ)) :
    nComps V E ∅ = V := by
  unfold nComps
  rw [Finset.filter_true_of_mem, Finset.card_range]
  intro v hv u hu hr
  exact absurd (reach_empty E u v hr) (Nat.ne_of_lt hu)

theorem nComps_insert (V : Nat) (E : List (Nat × Nat × ℚ)) (S : Finset Nat)
    (e : Nat) : nComps V E S ≤ nComps V E (insert e S) + 1 := by
  cases he : E[e]? with
  | none =>
    have heq : ∀ v ∈ Finset.range V, isRep E (insert e S) v ↔ isRep E S v := by
      intro v hv
      constructor
      · intro h u hu hr
        exact h u hu (reachOn_mono E S _ (Finset.subset_insert e S) u v hr)
      · intro h u hu hr
        exact h u hu (reach_insert_none E S e he u v hr)
    unfold nComps
    rw [Finset.filter_congr heq]
    omega
  | some t =>
    have hce : econnects E e t.1 t.2.1 := ⟨t, he, Or.inl ⟨rfl, rfl⟩⟩
    have hsub : (Finset.range V).filter (isRep E (insert e S)) ⊆
        (Finset.range V).filter (isRep E S) := by
      intro v hv
      rw [Finset.mem_filter] at hv ⊢
      refine ⟨hv.1, fun u hu hr => hv.2 u hu ?_⟩
      exact reachOn_mono E S _ (Finset.subset_insert e S) u v hr
    have hdead : ∀ v1 ∈ (Finset.range V).filter (isRep E S) \
          (Finset.range V).filter (isRep E (insert e S)),
        ∀ v2 ∈ (Finset.range V).filter (isRep E S) \
          (Finset.range V).filter (isRep E (insert e S)), v1 = v2 := by
      intro v1 hv1 v2 hv2
      rw [Finset.mem_sdiff, Finset.mem_filter, Finset.mem_filter] at hv1 hv2
      obtain ⟨⟨hv1r, hrep1⟩, hnot1⟩ := hv1
      obtain ⟨⟨hv2r, hrep2⟩, hnot2⟩ := hv2
      have hnot1b : ¬ isRep E (insert e S) v1 := fun h => hnot1 ⟨hv1r, h⟩
      have hnot2b : ¬ isRep E (insert e S) v2 := fun h => hnot2 ⟨hv2r, h⟩
      have hget : ∀ v, isRep E S v → ¬ isRep E (insert e S) v →
          ∃ u, u < v ∧ ((ReachOn E S u t.1 ∧ ReachOn E S v t.2.1) ∨
            (ReachOn E S u t.2.1 ∧ ReachOn E S v t.1)) := by
        intro v hrep hnot
        rw [isRep] at hnot
        push_neg at hnot
        obtain ⟨u, hu, hr⟩ := hnot
        rcases reach_insert_decomp E S e t.1 t.2.1 hce u v hr with
          h1 | ⟨h2a, h2b⟩ | ⟨h3a, h3b⟩
        · exact absurd h1 (hrep u hu)
        · exact ⟨u, hu, Or.inl ⟨h2a, reachOn_symm E S _ _ h2b⟩⟩
        · exact ⟨u, hu, Or.inr ⟨h3a, reachOn_symm E S _ _ h3b⟩⟩
      obtain ⟨u1, hu1, hc1⟩ := hget v1 hrep1 hnot1b
      obtain ⟨u2, hu2, hc2⟩ := hget v2 hrep2 hnot2b
      by_contra hne
      have hreps : ∀ a b, isRep E S a → isRep E S b → ReachOn E S a b →
          a = b := by
        intro a b hra hrb hr
        rcases Nat.lt_trichotomy a b with h | h | h
        · exact absurd hr (hrb a h)
        · exact h
        · exact absurd (reachOn_symm E S a b hr) (hra b h)
      rcases hc1 with ⟨h1a, h1b⟩ | ⟨h1a, h1b⟩ <;>
        rcases hc2 with ⟨h2a, h2b⟩ | ⟨h2a, h2b⟩
      · exact hne (hreps v1 v2 hrep1 hrep2
          (Relation.ReflTransGen.trans h1b (reachOn_symm E S _ _ h2b)))
      · have hr21 : ReachOn E S u2 v1 :=
          Relation.ReflTransGen.trans h2a (reachOn_symm E S _ _ h1b)
        have hr12 : ReachOn E S u1 v2 :=
          Relation.ReflTransGen.trans h1a (reachOn_symm E S _ _ h2b)
        have hv1le : v1 ≤ u2 := by
          by_contra hlt
          exact hrep1 u2 (by omega) hr21
        have hv2le : v2 ≤ u1 := by
          by_contra hlt
          exact hrep2 u1 (by omega) hr12
        omega
      · have hr21 : ReachOn E S u2 v1 :=
          Relation.ReflTransGen.trans h2a (reachOn_symm E S _ _ h1b)
        have hr12 : ReachOn E S u1 v2 :=
          Relation.ReflTransGen.trans h1a (reachOn_symm E S _ _ h2b)
        have hv1le : v1 ≤ u2 := by
          by_contra hlt
          exact hrep1 u2 (by omega) hr21
        have hv2le : v2 ≤ u1 := by
          by_contra hlt
          exact hrep2 u1 (by omega) hr12
        omega
      · exact hne (hreps v1 v2 hrep1 hrep2
          (Relation.ReflTransGen.trans h1b (reachOn_symm E S _ _ h2b)))
    have hcard : ((Finset.range V).filter (isRep E S) \
        (Finset.range V).filter (isRep E (insert e S))).card ≤ 1 := by
      rw [Finset.card_le_one]
      intro a ha b hb
      exact hdead a ha b hb
    have hcs := Finset.card_sdiff_add_card_eq_card hsub
    unfold nComps
    omega

theorem nComps_le_add_card (V : Nat) (E : List (Nat × Nat × ℚ)) :
    ∀ S : Finset Nat, V ≤ nComps V E S + S.card := by
  intro S
  induction S using Finset.induction_on with
  | empty => rw [nComps_empty]; simp
  | insert hnotmem ih =>
    next e S =>
    have h1 := nComps_insert V E S e
    rw [Finset.card_insert_of_not_mem hnotmem]
    omega

theorem spans_reps (V : Nat) (E : List (Nat × Nat × ℚ)) (S : Finset Nat)
    (hs : Spans V E S) : nComps V E S ≤ 1 := by
  unfold nComps
  rw [Finset.card_le_one]
  intro a ha b hb
  rw [Finset.mem_filter, Finset.mem_range] at ha hb
  have hza : a = 0 := by
    by_contra hne
    exact ha.2 0 (Nat.pos_of_ne_zero hne) (hs a ha.1)
  have hzb : b = 0 := by
    by_contra hne
    exact hb.2 0 (Nat.pos_of_ne_zero hne) (hs b hb.1)
  rw [hza, hzb]

/-- A spanning edge set on `V` vertices has at least `V - 1` edges. -/
theorem spans_card (V : Nat) (E : List (Nat × Nat × ℚ)) (S : Finset Nat)
    (hs : Spans V E S) : V ≤ S.card + 1 := by
  have h1 := nComps_le_add_card V E S
  have h2 := spans_reps V E S hs
  omega

theorem tree_edge_needed (V : Nat) (E : List (Nat × Nat × ℚ))
    (T : Finset Nat) (hT : IsSpanTree V E T) (i : Nat) (hi : i ∈ T)
    (hsim : ∀ u v, econnects E i u v → ReachOn E (T.erase i) u v) : False := by
  obtain ⟨hTb, hTs, hTc⟩ := hT
  have hspan : Spans V E (T.erase i) := by
    intro v hv
    refine reach_simulate E T _ ?_ 0 v (hTs v hv)
    intro j hj u w hc
    by_cases hij : j = i
    · exact hsim u w (hij ▸ hc)
    · exact Relation.ReflTransGen.single ⟨j, Finset.mem_erase.mpr ⟨hij, hj⟩, hc⟩
  have hcard := spans_card V E _ hspan
  rw [Finset.card_erase_of_mem hi] at hcard
  have hpos : 1 ≤ T.card := Finset.card_pos.mpr ⟨i, hi⟩
  omega

/-- A spanning tree contains no self-loop. -/
theorem tree_no_selfloop (V : Nat) (E : List (Nat × Nat × ℚ))
    (T : Finset Nat) (hT : IsSpanTree V E T) (i : Nat) (hi : i ∈ T)
    (a : Nat) (hc : econnects E i a a) : False := by
  refine tree_edge_needed V E T hT i hi ?_
  intro u v hcuv
  rcases econnects_endpoints E i a a u v hc hcuv with ⟨hu, hv⟩ | ⟨hu, hv⟩ <;>
    · rw [hu, hv]
      exact Relation.ReflTransGen.refl

/-- A spanning tree contains no two parallel edges (in particular never a
directed edge together with its reverse copy). -/
theorem tree_no_parallel (V : Nat) (E : List (Nat × Nat × ℚ))
    (T : Finset Nat) (hT : IsSpanTree V E T) (i j : Nat) (hi : i ∈ T)
    (hj : j ∈ T) (hij : j ≠ i) (a b : Nat) (hci : econnects E i a b)
    (hcj : econnects E j a b) : False := by
  refine tree_edge_needed V E T hT i hi ?_
  intro u v hcuv
  have hjmem : j ∈ T.erase i := Finset.mem_erase.mpr ⟨hij, hj⟩
  rcases econnects_endpoints E i a b u v hci hcuv with ⟨hu, hv⟩ | ⟨hu, hv⟩
  · rw [hu, hv]
    exact Relation.ReflTransGen.single ⟨j, hjmem, hcj⟩
  · rw [hu, hv]
    exact Relation.ReflTransGen.single ⟨j, hjmem, econnects_symm E j a b hcj⟩

/-! ### Bridge between the graph structure and the undirected edge list -/

theorem length_uedges (g : Graph T) : (uedges g).length = g.edges.length := by
  simp [uedges]

theorem uedges_getElem? (g : Graph T) (i : Nat) :
    (uedges g)[i]? = (g.edge? i).map (fun e => (e.orig, e.dest, e.weight)) := by
  simp [uedges, Graph.edge?]

theorem econnects_uedges (g : Graph T) (i a b : Nat) :
    econnects (uedges g) i a b ↔ ∃ e, g.edge? i = some e ∧
      ((e.orig = a ∧ e.dest = b) ∨ (e.orig = b ∧ e.dest = a)) := by
  rw [econnects, uedges_getElem?]
  cases he : g.edge? i with
  | none => simp
  | some e =>
    simp only [Option.map_some', Option.some.injEq]
    constructor
    · intro ⟨t, ht, hor⟩
      exact ⟨e, rfl, by rw [← ht] at hor; exact hor⟩
    · intro ⟨e', he', hor⟩
      cases he'
      exact ⟨_, rfl, hor⟩

theorem ewt_uedges (g : Graph T) (i : Nat) :
    ewt (uedges g) i = weightOf g i := by
  rw [ewt, weightOf, uedges_getElem?]
  cases g.edge? i <;> rfl

theorem econnects_of_edge (g : Graph T) (i : Nat) (e : GEdge)
    (he : g.edge? i = some e) : econnects (uedges g) i e.orig e.dest :=
  (econnects_uedges g i e.orig e.dest).mpr ⟨e, he, Or.inl ⟨rfl, rfl⟩⟩

theorem ewt_of_edge (g : Graph T) (i : Nat) (e : GEdge)
    (he : g.edge? i = some e) : ewt (uedges g) i = e.weight := by
  rw [ewt_uedges, weightOf, he]
  rfl

/-- Index of the reverse-pair edge (the `e->reverse` pointer). -/
def revid (g : Graph T) (eid : Nat) : Nat :=
  ((g.edge? eid).bind GEdge.reverse).getD eid

theorem revid_spec (g : Graph T) (hw : WF g) (eid : Nat) (e : GEdge)
    (he : g.edge? eid = some e) :
    ∃ re, g.edge? (revid g eid) = some re ∧ re.orig = e.dest ∧
      re.dest = e.orig ∧ re.weight = e.weight ∧ re.reverse = some eid ∧
      revid g eid ≠ eid := by
  obtain ⟨rid, re, hrev, hre, ho, hd, hwt, hrr, hne⟩ := hw.pair eid e he
  have hrid : revid g eid = rid := by rw [revid, he]; simp [hrev]
  rw [hrid]
  exact ⟨re, hre, ho, hd, hwt, hrr, hne⟩

theorem revid_revid (g : Graph T) (hw : WF g) (eid : Nat) (e : GEdge)
    (he : g.edge? eid = some e) : revid g (revid g eid) = eid := by
  obtain ⟨re, hre, ho, hd, hwt, hrr, hne⟩ := revid_spec g hw eid e he
  rw [revid, hre]
  simp [hrr]

/-- Every undirected connection is realised by a directed edge of the graph
(the edge itself or its reverse twin). -/
theorem econnects_directed (g : Graph T) (hw : WF g) (i x y : Nat)
    (hc : econnects (uedges g) i x y) :
    ∃ fd ed, g.edge? fd = some ed ∧ ed.orig = x ∧ ed.dest = y ∧
      ed.weight = ewt (uedges g) i ∧ (fd = i ∨ fd = revid g i) := by
  obtain ⟨e, he, hor⟩ := (econnects_uedges g i x y).mp hc
  rcases hor with ⟨ha, hb⟩ | ⟨ha, hb⟩
  · exact ⟨i, e, he, ha, hb, (ewt_of_edge g i e he).symm, Or.inl rfl⟩
  · obtain ⟨re, hre, ho, hd, hwt, hrr, hne⟩ := revid_spec g hw i e he
    refine ⟨revid g i, re, hre, ?_, ?_, ?_, Or.inr rfl⟩
    · rw [ho, hb]
    · rw [hd, ha]
    · rw [hwt, ewt_of_edge g i e he]

theorem econnects_revid (g : Graph T) (hw : WF g) (i x y : Nat)
    (hc : econnects (uedges g) i x y) :
    econnects (uedges g) (revid g i) x y := by
  obtain ⟨e, he, hor⟩ := (econnects_uedges g i x y).mp hc
  obtain ⟨re, hre, ho, hd, hwt, hrr, hne⟩ := revid_spec g hw i e he
  refine (econnects_uedges g _ x y).mpr ⟨re, hre, ?_⟩
  rcases hor with ⟨ha, hb⟩ | ⟨ha, hb⟩
  · exact Or.inr ⟨by rw [ho, hb], by rw [hd, ha]⟩
  · exact Or.inl ⟨by rw [ho, hb], by rw [hd, ha]⟩

theorem ewt_revid (g : Graph T) (hw : WF g) (i : Nat) (e : GEdge)
    (he : g.edge? i = some e) : ewt (uedges g) (revid g i) = ewt (uedges g) i := by
  obtain ⟨re, hre, ho, hd, hwt, hrr, hne⟩ := revid_spec g hw i e he
  rw [ewt_of_edge g _ re hre, ewt_of_edge g i e he, hwt]

/-! ### Prim loop invariant (claim C1) -/

theorem queueMin_isSome (g : Graph T) (q : List Nat) (hne : q ≠ []) :
    ∃ u, queueMin g q = some u := by
  cases q with
  | nil => exact absurd rfl hne
  | cons i rest =>
    unfold queueMin
    cases queueMin g rest with
    | none => exact ⟨i, rfl⟩
    | some j =>
      dsimp only
      by_cases h : distOf g j < distOf g i
      · exact ⟨j, by rw [if_pos h]⟩
      · exact ⟨i, by rw [if_neg h]⟩

theorem queueMin_min (g : Graph T) (q : List Nat) (u : Nat)
    (h : queueMin g q = some u) : ∀ j ∈ q, distOf g u ≤ distOf g j := by
  induction q generalizing u with
  | nil => cases h
  | cons i rest ih =>
    unfold queueMin at h
    revert h
    cases hrest : queueMin g rest with
    | none =>
      intro h
      cases h
      intro j hj
      rcases List.mem_cons.mp hj with h1 | h2
      · rw [h1]
      · cases rest with
        | nil => cases h2
        | cons a b =>
          exact absurd hrest (by
            obtain ⟨w, hww⟩ := queueMin_isSome g (a :: b) (by simp)
            rw [hww]
            simp)
    | some w =>
      dsimp only
      by_cases hlt : distOf g w < distOf g i
      · rw [if_pos hlt]
        intro h
        cases h
        intro j hj
        rcases List.mem_cons.mp hj with h1 | h2
        · rw [h1]; exact le_of_lt hlt
        · exact ih u hrest j h2
      · rw [if_neg hlt]
        intro h
        cases h
        intro j hj
        rcases List.mem_cons.mp hj with h1 | h2
        · rw [h1]
        · exact le_trans (le_of_not_lt hlt) (ih w hrest j h2)

theorem distOf_updateVertex_keep (g : Graph T) (i : Nat)
    (f : GVertex T → GVertex T) (j : Nat) (hf : ∀ v, (f v).dist = v.dist) :
    distOf (g.updateVertex i f) j = distOf g j :=
  getD_map_vertex?_updateVertex g i f GVertex.dist ⊤ j hf

theorem pathOf_updateVertex_keep (g : Graph T) (i : Nat)
    (f : GVertex T → GVertex T) (j : Nat) (hf : ∀ v, (f v).path = v.path) :
    pathOf (g.updateVertex i f) j = pathOf g j :=
  getD_map_vertex?_updateVertex g i f GVertex.path none j hf

theorem visitedOf_updateVertex_keep (g : Graph T) (i : Nat)
    (f : GVertex T → GVertex T) (j : Nat)
    (hf : ∀ v, (f v).visited = v.visited) :
    visitedOf (g.updateVertex i f) j = visitedOf g j :=
  getD_map_vertex?_updateVertex g i f GVertex.visited false j hf

theorem visitedOf_updateVertex_self (g : Graph T) (i : Nat)
    (f : GVertex T → GVertex T) (hi : i < g.vertexSet.length)
    (hf : ∀ v, (f v).visited = true) :
    visitedOf (g.updateVertex i f) i = true := by
  rw [visitedOf, vertex?_updateVertex, if_pos rfl]
  obtain ⟨v, hv⟩ : ∃ v, g.vertex? i = some v := by
    rw [Graph.vertex?, List.getElem?_eq_getElem hi]
    exact ⟨_, rfl⟩
  rw [hv]
  simp [hf]

theorem distOf_updateVertex_set (g : Graph T) (i : Nat) (w : WithTop ℚ)
    (p : Option Nat) (hi : i < g.vertexSet.length) :
    distOf (g.updateVertex i
      (fun v => { v with dist := w, path := p })) i = w := by
  rw [distOf, vertex?_updateVertex, if_pos rfl]
  obtain ⟨v, hv⟩ : ∃ v, g.vertex? i = some v := by
    rw [Graph.vertex?, List.getElem?_eq_getElem hi]
    exact ⟨_, rfl⟩
  rw [hv]
  rfl

theorem pathOf_updateVertex_set (g : Graph T) (i : Nat) (w : WithTop ℚ)
    (p : Option Nat) (hi : i < g.vertexSet.length) :
    pathOf (g.updateVertex i
      (fun v => { v with dist := w, path := p })) i = p := by
  rw [pathOf, vertex?_updateVertex, if_pos rfl]
  obtain ⟨v, hv⟩ : ∃ v, g.vertex? i = some v := by
    rw [Graph.vertex?, List.getElem?_eq_getElem hi]
    exact ⟨_, rfl⟩
  rw [hv]
  rfl

/-- The edge set selected by Prim: one parent edge per visited non-root
vertex. -/
def primTreeSet (vl : List Nat) (tree : Nat → Nat) : Finset Nat :=
  ((vl.filter (fun v => v ≠ 0)).map tree).toFinset

theorem mem_primTreeSet (vl : List Nat) (tree : Nat → Nat) (i : Nat) :
    i ∈ primTreeSet vl tree ↔ ∃ v ∈ vl, v ≠ 0 ∧ tree v = i := by
  rw [primTreeSet, List.mem_toFinset, List.mem_map]
  constructor
  · intro ⟨v, hv, ht⟩
    rw [List.mem_filter] at hv
    exact ⟨v, hv.1, by simpa using hv.2, ht⟩
  · intro ⟨v, hv, hne, ht⟩
    exact ⟨v, List.mem_filter.mpr ⟨hv, by simpa using hne⟩, ht⟩

theorem primTreeSet_mono (vl : List Nat) (u : Nat) (tree tree2 : Nat → Nat)
    (htree : ∀ v ∈ vl, tree2 v = tree v) :
    primTreeSet vl tree ⊆ primTreeSet (vl ++ [u]) tree2 := by
  intro i hi
  rw [mem_primTreeSet] at hi ⊢
  obtain ⟨v, hv, hne, ht⟩ := hi
  exact ⟨v, List.mem_append_left _ hv, hne, by rw [htree v hv]; exact ht⟩

/-- Relaxation discipline: every adjacency edge of a visited vertex whose
processing is not still pending bounds the distance of its (unvisited)
destination. -/
def PrimRelaxed (g gs : Graph T) (vl pend : List Nat) : Prop :=
  ∀ v ∈ vl, ∀ eid ∈ adjOf g v, eid ∉ pend → ∀ e, g.edge? eid = some e →
    visitedOf gs e.dest = false → distOf gs e.dest ≤ (e.weight : WithTop ℚ)

/-- Invariant of the `while (!q.empty())` loop of `calculatePrim`, relative
to the untouched graph `g`: `gs` is the current state, `q` the queue, `vl`
the visit order, `pend` the not-yet-relaxed adjacency suffix of the newest
visited vertex, and `tree v` the parent edge chosen for `v`. -/
structure PrimSt (g gs : Graph T) (q vl pend : List Nat)
    (tree : Nat → Nat) : Prop where
  len : gs.vertexSet.length = g.vertexSet.length
  edges_eq : gs.edges = g.edges
  vl_nodup : vl.Nodup
  vl_lt : ∀ v ∈ vl, v < g.vertexSet.length
  vis_iff : ∀ v, visitedOf gs v = true ↔ v ∈ vl
  zero_first : vl = [] → q = [0]
  zero_mem : vl ≠ [] → 0 ∈ vl
  q_nodup : q.Nodup
  q_lt : ∀ u ∈ q, u < g.vertexSet.length
  q_unvis : ∀ u ∈ q, visitedOf gs u = false
  q_dist : ∀ u ∈ q, distOf gs u ≠ ⊤
  q_complete : ∀ v, v < g.vertexSet.length → visitedOf gs v = false →
    distOf gs v ≠ ⊤ → v ∈ q
  top_path : ∀ v, distOf gs v = ⊤ → pathOf gs v = none
  root_dist : distOf gs 0 = ((0 : ℚ) : WithTop ℚ)
  root_path : pathOf gs 0 = none
  relaxed : PrimRelaxed g gs vl pend
  frontier : ∀ v, v < g.vertexSet.length → v ≠ 0 → visitedOf gs v = false →
    distOf gs v ≠ ⊤ → ∃ eid e, g.edge? eid = some e ∧
      pathOf gs v = some e.orig ∧ e.orig ∈ vl ∧ e.dest = v ∧
      (e.weight : WithTop ℚ) = distOf gs v
  tree_spec : ∀ v ∈ vl, v ≠ 0 → ∃ e, g.edge? (tree v) = some e ∧
    e.dest = v ∧ e.orig ∈ vl ∧ pathOf gs v = some e.orig ∧
    (e.weight : WithTop ℚ) = distOf gs v
  span_inv : ∀ v ∈ vl, ReachOn (uedges g) (primTreeSet vl tree) 0 v
  opt : ∀ T0, IsSpanTree g.vertexSet.length (uedges g) T0 →
    ∃ TT, IsSpanTree g.vertexSet.length (uedges g) TT ∧
      primTreeSet vl tree ⊆ TT ∧ wsum (uedges g) TT ≤ wsum (uedges g) T0
  adj_eq : ∀ y, adjOf gs y = adjOf g y

theorem primRelax_none (u : Nat) (gs : Graph T) (q : List Nat) (eid : Nat)
    (h : gs.edge? eid = none) : primRelax u (gs, q) eid = (gs, q) := by
  unfold primRelax
  dsimp only
  rw [h]

theorem primRelax_visited (u : Nat) (gs : Graph T) (q : List Nat) (eid : Nat)
    (e : GEdge) (he : gs.edge? eid = some e)
    (hv : visitedOf gs e.dest = true) :
    primRelax u (gs, q) eid = (gs, q) := by
  unfold primRelax
  dsimp only
  rw [he]
  dsimp only
  rw [if_pos hv]

theorem primRelax_noimprove (u : Nat) (gs : Graph T) (q : List Nat)
    (eid : Nat) (e : GEdge) (he : gs.edge? eid = some e)
    (hv : visitedOf gs e.dest = false)
    (hge : ¬ (e.weight : WithTop ℚ) < distOf gs e.dest) :
    primRelax u (gs, q) eid = (gs, q) := by
  unfold primRelax
  dsimp only
  rw [he]
  dsimp only
  rw [if_neg (by simp [hv]), if_neg hge]

theorem primRelax_improve_top (u : Nat) (gs : Graph T) (q : List Nat)
    (eid : Nat) (e : GEdge) (he : gs.edge? eid = some e)
    (hv : visitedOf gs e.dest = false)
    (hlt : (e.weight : WithTop ℚ) < distOf gs e.dest)
    (htop : distOf gs e.dest = ⊤) :
    primRelax u (gs, q) eid = (gs.updateVertex e.dest
      (fun v => { v with dist := (e.weight : WithTop ℚ), path := some u }),
      q ++ [e.dest]) := by
  unfold primRelax
  dsimp only
  rw [he]
  dsimp only
  rw [if_neg (by simp [hv]), if_pos hlt, if_pos htop]

theorem primRelax_improve_fin (u : Nat) (gs : Graph T) (q : List Nat)
    (eid : Nat) (e : GEdge) (he : gs.edge? eid = some e)
    (hv : visitedOf gs e.dest = false)
    (hlt : (e.weight : WithTop ℚ) < distOf gs e.dest)
    (htop : ¬ distOf gs e.dest = ⊤) :
    primRelax u (gs, q) eid = (gs.updateVertex e.dest
      (fun v => { v with dist := (e.weight : WithTop ℚ), path := some u }),
      q) := by
  unfold primRelax
  dsimp only
  rw [he]
  dsimp only
  rw [if_neg (by simp [hv]), if_pos hlt, if_neg htop]

theorem primSt_shrink_pend (g gs : Graph T) (q vl2 : List Nat) (eid : Nat)
    (rest : List Nat) (tree : Nat → Nat)
    (hst : PrimSt g gs q vl2 (eid :: rest) tree)
    (hnew : ∀ e, g.edge? eid = some e → visitedOf gs e.dest = false →
      distOf gs e.dest ≤ (e.weight : WithTop ℚ)) :
    PrimSt g gs q vl2 rest tree := by
  obtain ⟨h1, h2, h3, h4, h5, h6, h7, h8, h9, h10, h11, h12, h13, h14, h15,
    h16, h17, h18, h19, h20, h21⟩ := hst
  refine ⟨h1, h2, h3, h4, h5, h6, h7, h8, h9, h10, h11, h12, h13, h14, h15,
    ?_, h17, h18, h19, h20, h21⟩
  intro v hv eid2 hadj hnotin e he hvis
  by_cases heq : eid2 = eid
  · exact hnew e (heq ▸ he) hvis
  · refine h16 v hv eid2 hadj ?_ e he hvis
    intro hmem
    rcases List.mem_cons.mp hmem with ha | hb
    · exact heq ha
    · exact hnotin hb

theorem primRelax_step (g : Graph T) (hw : WF g) (u : Nat) (vl : List Nat)
    (tree : Nat → Nat) (gs : Graph T) (q : List Nat) (eid : Nat)
    (rest : List Nat)
    (hst : PrimSt g gs q (vl ++ [u]) (eid :: rest) tree)
    (hadj : eid ∈ adjOf g u) :
    PrimSt g (primRelax u (gs, q) eid).1 (primRelax u (gs, q) eid).2
      (vl ++ [u]) rest tree := by
  have hedge : ∀ j, gs.edge? j = g.edge? j := by
    intro j
    rw [Graph.edge?, Graph.edge?, hst.edges_eq]
  cases he : g.edge? eid with
  | none =>
    rw [primRelax_none u gs q eid ((hedge eid).trans he)]
    refine primSt_shrink_pend g gs q _ eid rest tree hst ?_
    intro e he2 _
    rw [he] at he2
    cases he2
  | some e =>
    have hes : gs.edge? eid = some e := (hedge eid).trans he
    cases hvis : visitedOf gs e.dest with
    | true =>
      rw [primRelax_visited u gs q eid e hes hvis]
      refine primSt_shrink_pend g gs q _ eid rest tree hst ?_
      intro e2 he2 hvis2
      rw [he] at he2
      cases he2
      rw [hvis] at hvis2
      cases hvis2
    | false =>
      by_cases hlt : (e.weight : WithTop ℚ) < distOf gs e.dest
      · -- the relaxation fires
        have horig : e.orig = u := by
          obtain ⟨e2, he2, ho⟩ := hw.adj_orig u eid hadj
          rw [he] at he2
          cases he2
          exact ho
        have hvl2ne : vl ++ [u] ≠ [] := by simp
        have h0mem : (0 : Nat) ∈ vl ++ [u] := hst.zero_mem hvl2ne
        have h0vis : visitedOf gs 0 = true := (hst.vis_iff 0).mpr h0mem
        have hdne0 : e.dest ≠ 0 := by
          intro hc
          rw [hc, h0vis] at hvis
          cases hvis
        have hdlt : e.dest < g.vertexSet.length :=
          hw.edge_dest_lt e (edge?_mem g eid e he)
        have hdlt2 : e.dest < gs.vertexSet.length := by rw [hst.len]; exact hdlt
        set g2 := gs.updateVertex e.dest
          (fun v => { v with dist := (e.weight : WithTop ℚ), path := some u })
          with hg2
        have hdist2 : ∀ j, j ≠ e.dest → distOf g2 j = distOf gs j := by
          intro j hj
          exact distOf_updateVertex_ne gs e.dest _ j (fun hc => hj hc.symm)
        have hpath2 : ∀ j, j ≠ e.dest → pathOf g2 j = pathOf gs j := by
          intro j hj
          exact pathOf_updateVertex_ne gs e.dest _ j (fun hc => hj hc.symm)
        have hdistd : distOf g2 e.dest = (e.weight : WithTop ℚ) :=
          distOf_updateVertex_set gs e.dest _ _ hdlt2
        have hpathd : pathOf g2 e.dest = some u :=
          pathOf_updateVertex_set gs e.dest _ _ hdlt2
        have hvis2 : ∀ j, visitedOf g2 j = visitedOf gs j := by
          intro j
          exact visitedOf_updateVertex_keep gs e.dest _ j (fun v => rfl)
        have hcommon : ∀ q2 : List Nat,
            (∀ j ∈ q2, j ∈ q ∨ j = e.dest) → (∀ j ∈ q, j ∈ q2) →
            q2.Nodup →
            (∀ v, v < g.vertexSet.length → visitedOf g2 v = false →
              distOf g2 v ≠ ⊤ → v ∈ q2) →
            PrimSt g g2 q2 (vl ++ [u]) rest tree := by
          intro q2 hq2sub hqsub hq2nodup hq2complete
          obtain ⟨h1, h2, h3, h4, h5, h6, h7, h8, h9, h10, h11, h12, h13,
            h14, h15, h16, h17, h18, h19, h20, h21⟩ := hst
          refine ⟨by rw [hg2]; simpa using h1, by rw [hg2]; simpa using h2, h3, h4, ?_, ?_, ?_,
            hq2nodup, ?_, ?_, ?_, hq2complete, ?_, ?_, ?_, ?_, ?_, ?_,
            h19, h20, ?_⟩
          · intro v
            rw [hvis2 v]
            exact h5 v
          · intro hc
            exact absurd hc hvl2ne
          · exact fun _ => h0mem
          · intro j hj
            rcases hq2sub j hj with hq | hd
            · exact h9 j hq
            · rw [hd]; exact hdlt
          · intro j hj
            rw [hvis2 j]
            rcases hq2sub j hj with hq | hd
            · exact h10 j hq
            · rw [hd]; exact hvis
          · intro j hj
            by_cases hd : j = e.dest
            · rw [hd, hdistd]
              exact WithTop.coe_ne_top
            · rw [hdist2 j hd]
              rcases hq2sub j hj with hq | hdd
              · exact h11 j hq
              · exact absurd hdd hd
          · intro v hdv
            by_cases hd : v = e.dest
            · rw [hd, hdistd] at hdv
              exact absurd hdv WithTop.coe_ne_top
            · rw [hdist2 v hd] at hdv
              rw [hpath2 v hd]
              exact h13 v hdv
          · rw [hdist2 0 (fun hc => hdne0 hc.symm)]
            exact h14
          · rw [hpath2 0 (fun hc => hdne0 hc.symm)]
            exact h15
          · -- relaxed
            intro v hv eid2 hadj2 hnotin e2 he2 hvisd
            rw [hvis2 e2.dest] at hvisd
            by_cases heq : eid2 = eid
            · rw [heq, he] at he2
              cases he2
              rw [hdistd]
            · have hold := h16 v hv eid2 hadj2 (by
                intro hmem
                rcases List.mem_cons.mp hmem with ha | hb
                · exact heq ha
                · exact hnotin hb) e2 he2 hvisd
              by_cases hdd : e2.dest = e.dest
              · rw [hdd, hdistd]
                rw [hdd] at hold
                exact le_trans (le_of_lt hlt) hold
              · rw [hdist2 e2.dest hdd]
                exact hold
          · -- frontier
            intro v hvt hvne0 hvisv hdv
            rw [hvis2 v] at hvisv
            by_cases hd : v = e.dest
            · refine ⟨eid, e, he, ?_, ?_, by rw [hd], ?_⟩
              · rw [hd, hpathd, horig]
              · rw [horig]
                exact List.mem_append_right _ (List.mem_singleton.mpr rfl)
              · rw [hd, hdistd]
            · rw [hdist2 v hd] at hdv
              obtain ⟨eid2, e2, he2, hp, ho, hdst, hwt⟩ :=
                h17 v hvt hvne0 hvisv hdv
              exact ⟨eid2, e2, he2, by rw [hpath2 v hd]; exact hp, ho, hdst,
                by rw [hdist2 v hd]; exact hwt⟩
          · -- tree_spec
            intro v hv hvne0
            obtain ⟨e2, he2, hdst, ho, hp, hwt⟩ := h18 v hv hvne0
            have hvisv : visitedOf gs v = true := (h5 v).mpr hv
            have hvd : v ≠ e.dest := by
              intro hc
              rw [hc, hvis] at hvisv
              cases hvisv
            exact ⟨e2, he2, hdst, ho, by rw [hpath2 v hvd]; exact hp,
              by rw [hdist2 v hvd]; exact hwt⟩
          · intro y
            have hadjg2 := adjOf_updateVertex gs e.dest
              (fun v => { v with dist := (e.weight : WithTop ℚ), path := some u })
              y (fun v => rfl)
            rw [hg2, hadjg2]
            exact h21 y
        by_cases htop : distOf gs e.dest = ⊤
        · rw [primRelax_improve_top u gs q eid e hes hvis hlt htop]
          have hnotinq : e.dest ∉ q := by
            intro hmem
            exact hst.q_dist e.dest hmem htop
          refine hcommon (q ++ [e.dest]) ?_ ?_ ?_ ?_
          · intro j hj
            rcases List.mem_append.mp hj with hq | hd
            · exact Or.inl hq
            · exact Or.inr (List.mem_singleton.mp hd)
          · intro j hj
            exact List.mem_append_left _ hj
          · rw [List.nodup_append]
            exact ⟨hst.q_nodup, List.nodup_singleton _, by
              intro a ha hb
              rw [List.mem_singleton] at hb
              rw [hb] at ha
              exact hnotinq ha⟩
          · intro v hvt hvisv hdv
            by_cases hd : v = e.dest
            · rw [hd]
              exact List.mem_append_right _ (List.mem_singleton.mpr rfl)
            · rw [hdist2 v hd] at hdv
              rw [hvis2 v] at hvisv
              exact List.mem_append_left _ (hst.q_complete v hvt hvisv hdv)
        · rw [primRelax_improve_fin u gs q eid e hes hvis hlt htop]
          have hdinq : e.dest ∈ q := hst.q_complete e.dest hdlt hvis htop
          refine hcommon q (fun j hj => Or.inl hj) (fun j hj => hj)
            hst.q_nodup ?_
          intro v hvt hvisv hdv
          by_cases hd : v = e.dest
          · rw [hd]; exact hdinq
          · rw [hdist2 v hd] at hdv
            rw [hvis2 v] at hvisv
            exact hst.q_complete v hvt hvisv hdv
      · rw [primRelax_noimprove u gs q eid e hes hvis hlt]
        refine primSt_shrink_pend g gs q _ eid rest tree hst ?_
        intro e2 he2 hvis2
        rw [he] at he2
        cases he2
        exact le_of_not_lt hlt

theorem primRelax_fold (g : Graph T) (hw : WF g) (u : Nat) (vl : List Nat)
    (tree : Nat → Nat) :
    ∀ (l : List Nat) (gs : Graph T) (q : List Nat),
    PrimSt g gs q (vl ++ [u]) l tree →
    (∀ eid ∈ l, eid ∈ adjOf g u) →
    PrimSt g (l.foldl (primRelax u) (gs, q)).1
      (l.foldl (primRelax u) (gs, q)).2 (vl ++ [u]) [] tree := by
  intro l
  induction l with
  | nil => exact fun gs q hst _ => hst
  | cons eid rest ih =>
    intro gs q hst hl
    rw [List.foldl_cons]
    have hstep := primRelax_step g hw u vl tree gs q eid rest hst
      (hl eid (List.mem_cons_self _ _))
    rcases hpair : primRelax u (gs, q) eid with ⟨gs2, q2⟩
    rw [hpair] at hstep
    exact ih gs2 q2 hstep (fun x hx => hl x (List.mem_cons_of_mem _ hx))

theorem primTreeSet_append_zero (vl : List Nat) (tree : Nat → Nat) :
    primTreeSet (vl ++ [0]) tree = primTreeSet vl tree := by
  rw [primTreeSet, primTreeSet, List.filter_append]
  simp

theorem prim_extract (g : Graph T) (hw : WF g) (gs : Graph T)
    (q vl : List Nat) (tree : Nat → Nat) (u : Nat)
    (hst : PrimSt g gs q vl [] tree) (hu : queueMin gs q = some u) :
    ∃ tree2, PrimSt g
      ((adjOf (gs.updateVertex u (fun v => { v with visited := true })) u).foldl
        (primRelax u)
        (gs.updateVertex u (fun v => { v with visited := true }), q.erase u)).1
      ((adjOf (gs.updateVertex u (fun v => { v with visited := true })) u).foldl
        (primRelax u)
        (gs.updateVertex u (fun v => { v with visited := true }), q.erase u)).2
      (vl ++ [u]) [] tree2 := by
  have humem := queueMin_mem gs q u hu
  have hmin := queueMin_min gs q u hu
  have hult : u < g.vertexSet.length := hst.q_lt u humem
  have hult2 : u < gs.vertexSet.length := by rw [hst.len]; exact hult
  have huvis : visitedOf gs u = false := hst.q_unvis u humem
  have hunotvl : u ∉ vl := by
    intro hmem
    rw [(hst.vis_iff u).mpr hmem] at huvis
    cases huvis
  have hudist : distOf gs u ≠ ⊤ := hst.q_dist u humem
  have hvl2nodup : (vl ++ [u]).Nodup := by
    rw [List.nodup_append]
    refine ⟨hst.vl_nodup, List.nodup_singleton u, ?_⟩
    intro a ha hb
    rw [List.mem_singleton] at hb
    exact hunotvl (hb ▸ ha)
  have h0mem2 : (0 : Nat) ∈ vl ++ [u] := by
    cases hvl : vl with
    | nil =>
      have hq0 : q = [0] := hst.zero_first hvl
      rw [hq0] at humem
      rw [List.mem_singleton] at humem
      rw [humem]
      simp
    | cons a rest =>
      refine List.mem_append_left _ ?_
      rw [← hvl]
      exact hst.zero_mem (by rw [hvl]; simp)
  -- the state after marking u visited
  set g1 := gs.updateVertex u (fun v => { v with visited := true }) with hg1
  have hdist1 : ∀ j, distOf g1 j = distOf gs j := by
    intro j
    exact distOf_updateVertex_keep gs u _ j (fun v => rfl)
  have hpath1 : ∀ j, pathOf g1 j = pathOf gs j := by
    intro j
    exact pathOf_updateVertex_keep gs u _ j (fun v => rfl)
  have hvis1ne : ∀ j, j ≠ u → visitedOf g1 j = visitedOf gs j := by
    intro j hj
    exact visitedOf_updateVertex_ne gs u _ j (fun hc => hj hc.symm)
  have hvis1u : visitedOf g1 u = true :=
    visitedOf_updateVertex_self gs u _ hult2 (fun v => rfl)
  have hadj1 : ∀ j, adjOf g1 j = adjOf g j := by
    intro j
    have := adjOf_updateVertex gs u
      (fun v => { v with visited := true }) j (fun v => rfl)
    rw [hg1, this]
    exact hst.adj_eq j
  have hvisiff1 : ∀ v, visitedOf g1 v = true ↔ v ∈ vl ++ [u] := by
    intro v
    by_cases hv : v = u
    · rw [hv, hvis1u]
      simp
    · rw [hvis1ne v hv, hst.vis_iff v, List.mem_append, List.mem_singleton]
      constructor
      · exact fun h => Or.inl h
      · intro h
        rcases h with h1 | h2
        · exact h1
        · exact absurd h2 hv
  have hqe_nodup : (q.erase u).Nodup := hst.q_nodup.erase u
  have hqe_mem : ∀ j, j ∈ q.erase u ↔ j ≠ u ∧ j ∈ q := by
    intro j
    exact hst.q_nodup.mem_erase_iff
  -- common fields of the pre-fold state, for any parent function
  have hcore : ∀ tree2 : Nat → Nat,
      (∀ v ∈ vl ++ [u], v ≠ 0 → ∃ e, g.edge? (tree2 v) = some e ∧
        e.dest = v ∧ e.orig ∈ vl ++ [u] ∧ pathOf g1 v = some e.orig ∧
        (e.weight : WithTop ℚ) = distOf g1 v) →
      (∀ v ∈ vl ++ [u], ReachOn (uedges g) (primTreeSet (vl ++ [u]) tree2) 0 v) →
      (∀ T0, IsSpanTree g.vertexSet.length (uedges g) T0 →
        ∃ TT, IsSpanTree g.vertexSet.length (uedges g) TT ∧
          primTreeSet (vl ++ [u]) tree2 ⊆ TT ∧
          wsum (uedges g) TT ≤ wsum (uedges g) T0) →
      PrimSt g g1 (q.erase u) (vl ++ [u]) (adjOf g u) tree2 := by
    intro tree2 htree hspan hopt
    refine ⟨by rw [hg1]; simpa using hst.len, by rw [hg1]; simpa using hst.edges_eq,
      hvl2nodup, ?_, hvisiff1, ?_, fun _ => h0mem2, hqe_nodup, ?_, ?_, ?_,
      ?_, ?_, ?_, ?_, ?_, ?_, htree, hspan, hopt, hadj1⟩
    · intro v hv
      rcases List.mem_append.mp hv with h1 | h2
      · exact hst.vl_lt v h1
      · rw [List.mem_singleton] at h2
        rw [h2]
        exact hult
    · intro hc
      exact absurd hc (by simp)
    · intro j hj
      exact hst.q_lt j (List.mem_of_mem_erase hj)
    · intro j hj
      obtain ⟨hne, hq⟩ := (hqe_mem j).mp hj
      rw [hvis1ne j hne]
      exact hst.q_unvis j hq
    · intro j hj
      rw [hdist1 j]
      exact hst.q_dist j (List.mem_of_mem_erase hj)
    · intro v hvt hvv hdv
      have hvne : v ≠ u := by
        intro hc
        rw [hc, hvis1u] at hvv
        cases hvv
      rw [hvis1ne v hvne] at hvv
      rw [hdist1 v] at hdv
      exact (hqe_mem v).mpr ⟨hvne, hst.q_complete v hvt hvv hdv⟩
    · intro v hdv
      rw [hdist1 v] at hdv
      rw [hpath1 v]
      exact hst.top_path v hdv
    · rw [hdist1 0]
      exact hst.root_dist
    · rw [hpath1 0]
      exact hst.root_path
    · -- relaxed with pend = adjOf g u
      intro v hv eid hadj hnotin e he hvise
      rcases List.mem_append.mp hv with h1 | h2
      · have hdvne : e.dest ≠ u := by
          intro hc
          rw [hc, hvis1u] at hvise
          cases hvise
        rw [hvis1ne e.dest hdvne] at hvise
        rw [hdist1 e.dest]
        exact hst.relaxed v h1 eid hadj (List.not_mem_nil eid) e he hvise
      · rw [List.mem_singleton] at h2
        rw [h2] at hadj
        exact absurd hadj hnotin
    · -- frontier
      intro v hvt hvne0 hvv hdv
      have hvne : v ≠ u := by
        intro hc
        rw [hc, hvis1u] at hvv
        cases hvv
      rw [hvis1ne v hvne] at hvv
      rw [hdist1 v] at hdv
      obtain ⟨eid, e, he, hp, ho, hdst, hwt⟩ :=
        hst.frontier v hvt hvne0 hvv hdv
      exact ⟨eid, e, he, by rw [hpath1 v]; exact hp,
        List.mem_append_left _ ho, hdst, by rw [hdist1 v]; exact hwt⟩
  by_cases hu0 : u = 0
  · -- the root extraction: no tree edge is added
    refine ⟨tree, ?_⟩
    have hA2 : primTreeSet (vl ++ [u]) tree = primTreeSet vl tree := by
      rw [hu0]
      exact primTreeSet_append_zero vl tree
    have hSt1 : PrimSt g g1 (q.erase u) (vl ++ [u]) (adjOf g u) tree := by
      refine hcore tree ?_ ?_ ?_
      · intro v hv hvne0
        rcases List.mem_append.mp hv with h1 | h2
        · obtain ⟨e, he, hdst, ho, hp, hwt⟩ := hst.tree_spec v h1 hvne0
          exact ⟨e, he, hdst, List.mem_append_left _ ho,
            by rw [hpath1 v]; exact hp, by rw [hdist1 v]; exact hwt⟩
        · rw [List.mem_singleton] at h2
          rw [h2] at hvne0
          exact absurd hu0 hvne0
      · intro v hv
        rw [hA2]
        rcases List.mem_append.mp hv with h1 | h2
        · exact hst.span_inv v h1
        · rw [List.mem_singleton] at h2
          rw [h2, hu0]
          exact Relation.ReflTransGen.refl
      · intro T0 hT0
        rw [hA2]
        exact hst.opt T0 hT0
    rw [hadj1 u]
    exact primRelax_fold g hw u vl tree (adjOf g u) g1 (q.erase u) hSt1
      (fun eid h => h)
  · -- a non-root vertex: its frontier edge becomes a tree edge
    obtain ⟨eidU, eU, heU, hpU, hoU, hdU, hwU⟩ :=
      hst.frontier u hult hu0 huvis hudist
    refine ⟨fun v => if v = u then eidU else tree v, ?_⟩
    set tree2 : Nat → Nat := fun v => if v = u then eidU else tree v with htree2
    have htree2vl : ∀ v ∈ vl, tree2 v = tree v := by
      intro v hv
      rw [htree2]
      dsimp only
      rw [if_neg (fun hc => hunotvl (by rw [← hc]; exact hv))]
    have htree2u : tree2 u = eidU := by
      rw [htree2]
      dsimp only
      rw [if_pos rfl]
    have hA2sub : primTreeSet (vl ++ [u]) tree2 ⊆
        insert eidU (primTreeSet vl tree) := by
      intro i hi
      rw [mem_primTreeSet] at hi
      obtain ⟨v, hv, hvne0, ht⟩ := hi
      rcases List.mem_append.mp hv with h1 | h2
      · rw [htree2vl v h1] at ht
        exact Finset.mem_insert_of_mem ((mem_primTreeSet vl tree i).mpr
          ⟨v, h1, hvne0, ht⟩)
      · rw [List.mem_singleton] at h2
        rw [h2, htree2u] at ht
        rw [← ht]
        exact Finset.mem_insert_self _ _
    have heidUmem : eidU ∈ primTreeSet (vl ++ [u]) tree2 :=
      (mem_primTreeSet _ tree2 eidU).mpr
        ⟨u, List.mem_append_right _ (List.mem_singleton.mpr rfl), hu0, htree2u⟩
    have hconnU : econnects (uedges g) eidU eU.orig u := by
      have := econnects_of_edge g eidU eU heU
      rw [hdU] at this
      exact this
    have hSt1 : PrimSt g g1 (q.erase u) (vl ++ [u]) (adjOf g u) tree2 := by
      refine hcore tree2 ?_ ?_ ?_
      · -- tree_spec
        intro v hv hvne0
        rcases List.mem_append.mp hv with h1 | h2
        · obtain ⟨e, he, hdst, ho, hp, hwt⟩ := hst.tree_spec v h1 hvne0
          rw [← htree2vl v h1] at he
          exact ⟨e, he, hdst, List.mem_append_left _ ho,
            by rw [hpath1 v]; exact hp, by rw [hdist1 v]; exact hwt⟩
        · rw [List.mem_singleton] at h2
          rw [h2, htree2u]
          exact ⟨eU, heU, hdU, List.mem_append_left _ hoU,
            by rw [hpath1 u]; exact hpU, by rw [hdist1 u]; exact hwU⟩
      · -- span_inv
        intro v hv
        rcases List.mem_append.mp hv with h1 | h2
        · exact reachOn_mono (uedges g) _ _
            (primTreeSet_mono vl u tree tree2 htree2vl) 0 v
            (hst.span_inv v h1)
        · rw [List.mem_singleton] at h2
          rw [h2]
          refine Relation.ReflTransGen.tail ?_ ⟨eidU, heidUmem, hconnU⟩
          exact reachOn_mono (uedges g) _ _
            (primTreeSet_mono vl u tree tree2 htree2vl) 0 eU.orig
            (hst.span_inv eU.orig hoU)
      · -- optimality via the exchange argument
        intro T0 hT0
        obtain ⟨TT1, hTT1, hsub1, hw1⟩ := hst.opt T0 hT0
        have heidUlt : eidU < (uedges g).length := by
          rw [length_uedges]
          exact edge?_lt g eidU eU heU
        have hmincut : ∀ f ∈ TT1, ∀ x y, econnects (uedges g) f x y →
            x ∈ vl → ¬ y ∈ vl → ewt (uedges g) eidU ≤ ewt (uedges g) f := by
          intro f hf x y hc hx hy
          obtain ⟨fd, ed, hfd, hfo, hfdst, hfw, hfcase⟩ :=
            econnects_directed g hw f x y hc
          have hfadj : fd ∈ adjOf g x := by
            have := hw.orig_adj fd ed hfd
            rw [hfo] at this
            exact this
          have hyvis : visitedOf gs y = false := by
            cases hvv : visitedOf gs y with
            | false => rfl
            | true => exact absurd ((hst.vis_iff y).mp hvv) hy
          have hylt : y < g.vertexSet.length := by
            have := hw.edge_dest_lt ed (edge?_mem g fd ed hfd)
            rw [hfdst] at this
            exact this
          have hrel := hst.relaxed x hx fd hfadj (List.not_mem_nil fd) ed hfd
            (by rw [hfdst]; exact hyvis)
          rw [hfdst] at hrel
          have hydist : distOf gs y ≠ ⊤ := by
            have hlt : distOf gs y < ⊤ :=
              lt_of_le_of_lt hrel (WithTop.coe_lt_top ed.weight)
            exact hlt.ne
          have hyq : y ∈ q := hst.q_complete y hylt hyvis hydist
          have huy : distOf gs u ≤ distOf gs y := hmin y hyq
          have hcoe : ((ewt (uedges g) eidU : ℚ) : WithTop ℚ) ≤
              ((ewt (uedges g) f : ℚ) : WithTop ℚ) := by
            rw [ewt_of_edge g eidU eU heU]
            calc ((eU.weight : ℚ) : WithTop ℚ) = distOf gs u := hwU
              _ ≤ distOf gs y := huy
              _ ≤ (ed.weight : WithTop ℚ) := hrel
              _ = ((ewt (uedges g) f : ℚ) : WithTop ℚ) := by rw [hfw]
          exact_mod_cast hcoe
        have hAin : ∀ i ∈ primTreeSet vl tree, ∀ x y,
            econnects (uedges g) i x y → (x ∈ vl ↔ y ∈ vl) := by
          intro i hi x y hc
          rw [mem_primTreeSet] at hi
          obtain ⟨v, hv, hvne0, ht⟩ := hi
          obtain ⟨e, he, hdst, ho, hp, hwt⟩ := hst.tree_spec v hv hvne0
          rw [ht] at he
          have hce := econnects_of_edge g i e he
          rcases econnects_endpoints (uedges g) i e.orig e.dest x y hce hc with
            ⟨hx, hy⟩ | ⟨hx, hy⟩
          · rw [hx, hy, hdst]
            exact ⟨fun _ => hv, fun _ => ho⟩
          · rw [hx, hy, hdst]
            exact ⟨fun _ => ho, fun _ => hv⟩
        obtain ⟨TT2, hTT2, hins, hsubT, hw2⟩ :=
          exchange g.vertexSet.length (uedges g) TT1 hTT1
            (fun v => v ∈ vl) eidU eU.orig u heidUlt hconnU hoU hunotvl
            (hst.vl_lt eU.orig hoU) hult hmincut
            (primTreeSet vl tree) hsub1 hAin
        exact ⟨TT2, hTT2, subset_trans hA2sub hins, le_trans hw2 hw1⟩
    rw [hadj1 u]
    exact primRelax_fold g hw u vl tree2 (adjOf g u) g1 (q.erase u) hSt1
      (fun eid h => h)

theorem distOf_updateVertex_dist (g : Graph T) (i : Nat) (w : WithTop ℚ)
    (hi : i < g.vertexSet.length) :
    distOf (g.updateVertex i (fun v => { v with dist := w })) i = w := by
  rw [distOf, vertex?_updateVertex, if_pos rfl]
  obtain ⟨v, hv⟩ : ∃ v, g.vertex? i = some v := by
    rw [Graph.vertex?, List.getElem?_eq_getElem hi]
    exact ⟨_, rfl⟩
  rw [hv]
  rfl

theorem primLoop_spec (g : Graph T) (hw : WF g)
    (hpos : 0 < g.vertexSet.length) :
    ∀ (fuel : Nat) (gs : Graph T) (q vl : List Nat) (tree : Nat → Nat),
    PrimSt g gs q vl [] tree →
    vl.length + fuel = g.vertexSet.length →
    ∃ vl2 tree2, PrimSt g (primLoop gs q fuel) [] vl2 [] tree2 := by
  intro fuel
  induction fuel with
  | zero =>
    intro gs q vl tree hst hlen
    have hall : ∀ v, v < g.vertexSet.length → v ∈ vl := by
      intro v hv
      have hsub : vl.toFinset ⊆ Finset.range g.vertexSet.length := by
        intro x hx
        rw [List.mem_toFinset] at hx
        rw [Finset.mem_range]
        exact hst.vl_lt x hx
      have hcard : (Finset.range g.vertexSet.length).card ≤ vl.toFinset.card := by
        rw [Finset.card_range, List.toFinset_card_of_nodup hst.vl_nodup]
        omega
      have heq := Finset.eq_of_subset_of_card_le hsub hcard
      rw [← List.mem_toFinset, heq, Finset.mem_range]
      exact hv
    have hq : q = [] := by
      rw [List.eq_nil_iff_forall_not_mem]
      intro j hj
      have hjvis := hst.q_unvis j hj
      have hjmem := hall j (hst.q_lt j hj)
      rw [(hst.vis_iff j).mpr hjmem] at hjvis
      cases hjvis
    rw [hq] at hst
    exact ⟨vl, tree, hst⟩
  | succ n ih =>
    intro gs q vl tree hst hlen
    cases hqm : queueMin gs q with
    | none =>
      have hq : q = [] := by
        cases hqe : q with
        | nil => rfl
        | cons a rest =>
          obtain ⟨w, hww⟩ := queueMin_isSome gs q (by rw [hqe]; simp)
          rw [hww] at hqm
          cases hqm
      unfold primLoop
      rw [hqm]
      rw [hq] at hst
      exact ⟨vl, tree, hst⟩
    | some u =>
      obtain ⟨tree2, hst2⟩ := prim_extract g hw gs q vl tree u hst hqm
      unfold primLoop
      rw [hqm]
      dsimp only
      refine ih _ _ (vl ++ [u]) tree2 hst2 ?_
      rw [List.length_append, List.length_singleton]
      omega

theorem prim_init (g : Graph T) (hne : g.vertexSet ≠ []) :
    PrimSt g ((primReset g).updateVertex 0
      (fun v => { v with dist := ((0 : ℚ) : WithTop ℚ) })) [0] [] []
      (fun _ => 0) := by
  have hpos : 0 < g.vertexSet.length := List.length_pos.mpr hne
  set g2 := (primReset g).updateVertex 0
    (fun v => { v with dist := ((0 : ℚ) : WithTop ℚ) }) with hg2
  have hlen2 : g2.vertexSet.length = g.vertexSet.length := by
    rw [hg2]
    simp [length_primReset]
  have hpos2 : 0 < (primReset g).vertexSet.length := by
    rw [length_primReset]
    exact hpos
  have hdist0 : distOf g2 0 = ((0 : ℚ) : WithTop ℚ) := by
    rw [hg2]
    exact distOf_updateVertex_dist (primReset g) 0 _ hpos2
  have hdistne : ∀ v, v ≠ 0 → distOf g2 v = ⊤ := by
    intro v hv
    rw [hg2, distOf_updateVertex_ne _ _ _ _ (fun hc => hv hc.symm)]
    exact distOf_primReset g v
  have hpath : ∀ v, pathOf g2 v = none := by
    intro v
    rw [hg2, pathOf_updateVertex_keep (primReset g) 0
      (fun v => { v with dist := ((0 : ℚ) : WithTop ℚ) }) v (fun v => rfl)]
    exact pathOf_primReset g v
  have hvisf : ∀ v, visitedOf g2 v = false := by
    intro v
    rw [hg2, visitedOf_updateVertex_keep (primReset g) 0
      (fun v => { v with dist := ((0 : ℚ) : WithTop ℚ) }) v (fun v => rfl)]
    exact visitedOf_primReset g v
  have hadj : ∀ y, adjOf g2 y = adjOf g y := by
    intro y
    have h1 := adjOf_updateVertex (primReset g) 0
      (fun v => { v with dist := ((0 : ℚ) : WithTop ℚ) }) y (fun v => rfl)
    rw [hg2, h1]
    exact adjOf_primReset g y
  have hedges : g2.edges = g.edges := by
    rw [hg2]
    simp [primReset]
  refine ⟨hlen2, hedges, List.nodup_nil, fun v hv => absurd hv (List.not_mem_nil v),
    ?_, fun _ => rfl, fun h => absurd rfl h, List.nodup_singleton 0, ?_, ?_,
    ?_, ?_, ?_, hdist0, hpath 0, ?_, ?_, ?_, ?_, ?_, hadj⟩
  · intro v
    rw [hvisf v]
    simp
  · intro u hu
    rw [List.mem_singleton] at hu
    rw [hu]
    exact hpos
  · intro u hu
    exact hvisf u
  · intro u hu
    rw [List.mem_singleton] at hu
    rw [hu, hdist0]
    exact WithTop.coe_ne_top
  · intro v hvt hvv hdv
    rw [List.mem_singleton]
    by_contra hne0
    exact hdv (hdistne v hne0)
  · intro v hdv
    exact hpath v
  · intro v hv
    exact absurd hv (List.not_mem_nil v)
  · intro v hvt hvne0 hvv hdv
    exact absurd (hdistne v hvne0) hdv
  · intro v hv
    exact absurd hv (List.not_mem_nil v)
  · intro v hv
    exact absurd hv (List.not_mem_nil v)
  · intro T0 hT0
    refine ⟨T0, hT0, ?_, le_refl _⟩
    intro i hi
    rw [mem_primTreeSet] at hi
    obtain ⟨v, hv, _, _⟩ := hi
    exact absurd hv (List.not_mem_nil v)

theorem prim_main (g : Graph T) (hw : WF g) (hne : g.vertexSet ≠ [])
    (hconn : ∀ v, v < g.vertexSet.length →
      ReachOn (uedges g) (Finset.range (uedges g).length) 0 v) :
    ∃ gp, g.calculatePrim = some gp ∧
      pathOf gp 0 = none ∧
      (∀ v, v < g.vertexSet.length → v ≠ 0 → pathOf gp v ≠ none) ∧
      ∃ q : ℚ, IsMSTWeight g.vertexSet.length (uedges g) q ∧
        ∑ v in (Finset.range g.vertexSet.length).erase 0, distOf gp v
          = ((q : ℚ) : WithTop ℚ) := by
  have hpos : 0 < g.vertexSet.length := List.length_pos.mpr hne
  set g2 := (primReset g).updateVertex 0
    (fun v => { v with dist := ((0 : ℚ) : WithTop ℚ) }) with hg2
  have hlen2 : g2.vertexSet.length = g.vertexSet.length := by
    rw [hg2]
    simp [length_primReset]
  obtain ⟨vlF, treeF, hstF⟩ := primLoop_spec g hw hpos g2.vertexSet.length
    g2 [0] [] (fun _ => 0) (prim_init g hne) (by rw [hlen2]; simp)
  set gp := primLoop g2 [0] g2.vertexSet.length with hgp
  have heq : g.calculatePrim = some gp := calculatePrim_eq_some g hne
  -- every vertex is visited at the end
  have hcl : ∀ x y i, x ∈ vlF → econnects (uedges g) i x y → y ∈ vlF := by
    intro x y i hx hc
    obtain ⟨fd, ed, hfd, hfo, hfdst, hfw, hfcase⟩ :=
      econnects_directed g hw i x y hc
    have hfadj : fd ∈ adjOf g x := by
      have := hw.orig_adj fd ed hfd
      rw [hfo] at this
      exact this
    cases hyv : visitedOf gp y with
    | true => exact (hstF.vis_iff y).mp hyv
    | false =>
      have hrel := hstF.relaxed x hx fd hfadj (List.not_mem_nil fd) ed hfd
        (by rw [hfdst]; exact hyv)
      rw [hfdst] at hrel
      have hdne : distOf gp y ≠ ⊤ :=
        (lt_of_le_of_lt hrel (WithTop.coe_lt_top ed.weight)).ne
      have hylt : y < g.vertexSet.length := by
        have := hw.edge_dest_lt ed (edge?_mem _ _ _ hfd)
        rw [hfdst] at this
        exact this
      exact absurd (hstF.q_complete y hylt hyv hdne) (List.not_mem_nil y)
  have h0vl : 0 ∈ vlF := by
    cases hv : visitedOf gp 0 with
    | true => exact (hstF.vis_iff 0).mp hv
    | false =>
      have hdne : distOf gp 0 ≠ ⊤ := by
        rw [hstF.root_dist]
        exact WithTop.coe_ne_top
      exact absurd (hstF.q_complete 0 hpos hv hdne) (List.not_mem_nil 0)
  have hall : ∀ v, v < g.vertexSet.length → v ∈ vlF := by
    intro v hv
    have hr := hconn v hv
    clear hv
    induction hr with
    | refl => exact h0vl
    | tail hr hstep ih =>
      obtain ⟨i, hi, hc⟩ := hstep
      exact hcl _ _ i ih hc
  have hvlset : vlF.toFinset = Finset.range g.vertexSet.length := by
    ext x
    rw [List.mem_toFinset, Finset.mem_range]
    exact ⟨hstF.vl_lt x, hall x⟩
  -- the filtered visit list enumerates the non-root vertices
  set L := vlF.filter (fun v => v ≠ 0) with hL
  have hLnodup : L.Nodup := hstF.vl_nodup.filter _
  have hLmem : ∀ x, x ∈ L ↔ x ∈ vlF ∧ x ≠ 0 := by
    intro x
    rw [hL, List.mem_filter]
    simp
  have hLset : L.toFinset = (Finset.range g.vertexSet.length).erase 0 := by
    ext x
    rw [List.mem_toFinset, hLmem, Finset.mem_erase, ← hvlset,
      List.mem_toFinset]
    exact ⟨fun h => ⟨h.2, h.1⟩, fun h => ⟨h.2, h.1⟩⟩
  have hLlen : L.length = g.vertexSet.length - 1 := by
    rw [← List.toFinset_card_of_nodup hLnodup, hLset,
      Finset.card_erase_of_mem (Finset.mem_range.mpr hpos), Finset.card_range]
  have hinj : ∀ x ∈ L, ∀ y ∈ L, treeF x = treeF y → x = y := by
    intro x hx y hy heq2
    obtain ⟨hxvl, hxne⟩ := (hLmem x).mp hx
    obtain ⟨hyvl, hyne⟩ := (hLmem y).mp hy
    obtain ⟨ex, hex, hdx, _, _, _⟩ := hstF.tree_spec x hxvl hxne
    obtain ⟨ey, hey, hdy, _, _, _⟩ := hstF.tree_spec y hyvl hyne
    rw [heq2, hey] at hex
    cases hex
    rw [← hdx, hdy]
  have hmapnodup : (L.map treeF).Nodup := hLnodup.map_on hinj
  set AF := primTreeSet vlF treeF with hAF
  have hAFL : AF = (L.map treeF).toFinset := rfl
  have hAFcard : AF.card = g.vertexSet.length - 1 := by
    rw [hAFL, List.toFinset_card_of_nodup hmapnodup, List.length_map, hLlen]
  have hAFtree : IsSpanTree g.vertexSet.length (uedges g) AF := by
    refine ⟨?_, ?_, ?_⟩
    · intro i hi
      rw [hAF, mem_primTreeSet] at hi
      obtain ⟨v, hv, hvne, ht⟩ := hi
      obtain ⟨e, he, _, _, _, _⟩ := hstF.tree_spec v hv hvne
      rw [ht] at he
      rw [length_uedges]
      exact edge?_lt g i e he
    · intro v hv
      exact hstF.span_inv v (hall v hv)
    · omega
  have hminAF : ∀ T0, IsSpanTree g.vertexSet.length (uedges g) T0 →
      wsum (uedges g) AF ≤ wsum (uedges g) T0 := by
    intro T0 hT0
    obtain ⟨TT, hTT, hsub, hwT⟩ := hstF.opt T0 hT0
    have hTTcard : TT.card = AF.card := by
      have := hTT.2.2
      omega
    have hEq : AF = TT :=
      Finset.eq_of_subset_of_card_le hsub (le_of_eq hTTcard)
    rw [hEq]
    exact hwT
  refine ⟨gp, heq, hstF.root_path, ?_, wsum (uedges g) AF,
    ⟨⟨AF, hAFtree, rfl⟩, hminAF⟩, ?_⟩
  · intro v hv hvne
    obtain ⟨e, he, hdst, ho, hp, hwt⟩ := hstF.tree_spec v (hall v hv) hvne
    rw [hp]
    exact Option.some_ne_none e.orig
  · have h1 : AF = L.toFinset.image treeF := by
      ext i
      rw [hAFL, List.mem_toFinset, List.mem_map, Finset.mem_image]
      constructor
      · intro ⟨v, hv, ht⟩
        exact ⟨v, List.mem_toFinset.mpr hv, ht⟩
      · intro ⟨v, hv, ht⟩
        exact ⟨v, List.mem_toFinset.mp hv, ht⟩
    have h2 : wsum (uedges g) AF = ∑ v in L.toFinset, ewt (uedges g) (treeF v) := by
      rw [h1, wsum]
      refine Finset.sum_image ?_
      intro x hx y hy h
      exact hinj x (List.mem_toFinset.mp hx) y (List.mem_toFinset.mp hy) h
    rw [h2, hLset, WithTop.coe_sum]
    refine Finset.sum_congr rfl ?_
    intro v hv
    rw [Finset.mem_erase, Finset.mem_range] at hv
    obtain ⟨e, he, hdst, ho, hp, hwt⟩ := hstF.tree_spec v (hall v hv.2) hv.1
    rw [← hwt, ewt_of_edge g (treeF v) e he]

/-- C1: on every connected weighted undirected graph built through the
construction API (`addBidirectionalEdge` discipline) with `V` vertices,
`calculatePrim` succeeds, vertex `0` keeps a null parent while exactly
`V - 1` vertices (all the others) receive a non-null parent, and the sum of
`dist` over the non-root vertices equals the total weight of a minimum
spanning tree of the graph. -/
theorem calculatePrim_mst [DecidableEq T] (ops : List (BuildOp T))
    (hne : (buildGraph ops).vertexSet ≠ [])
    (hconn : ∀ v, v < (buildGraph ops).vertexSet.length →
      ReachOn (uedges (buildGraph ops))
        (Finset.range (uedges (buildGraph ops)).length) 0 v) :
    ∃ gp, (buildGraph ops).calculatePrim = some gp ∧
      pathOf gp 0 = none ∧
      (List.range (buildGraph ops).vertexSet.length).countP
        (fun v => pathOf gp v ≠ none) =
        (buildGraph ops).vertexSet.length - 1 ∧
      ∃ q : ℚ, IsMSTWeight (buildGraph ops).vertexSet.length
          (uedges (buildGraph ops)) q ∧
        ∑ v in (Finset.range (buildGraph ops).vertexSet.length).erase 0,
          distOf gp v = ((q : ℚ) : WithTop ℚ) := by
  obtain ⟨gp, heq, hroot, hnz, q, hmst, hsum⟩ :=
    prim_main (buildGraph ops) (WF_buildGraph ops) hne hconn
  refine ⟨gp, heq, hroot, ?_, q, hmst, hsum⟩
  have hpos : 0 < (buildGraph ops).vertexSet.length := List.length_pos.mpr hne
  obtain ⟨n, hn⟩ : ∃ n, (buildGraph ops).vertexSet.length = n + 1 :=
    ⟨(buildGraph ops).vertexSet.length - 1, by omega⟩
  rw [hn, List.range_succ_eq_map, List.countP_cons, List.countP_map]
  have hz : (fun v => decide (pathOf gp v ≠ none)) 0 = false := by
    simp [hroot]
  have hrest : List.countP
      ((fun v => decide (pathOf gp v ≠ none)) ∘ Nat.succ) (List.range n) = n := by
    refine Eq.trans (List.countP_eq_length.mpr ?_) (List.length_range n)
    intro x hx
    rw [List.mem_range] at hx
    have h1 : x + 1 < (buildGraph ops).vertexSet.length := by omega
    have h2 := hnz (x + 1) h1 (Nat.succ_ne_zero x)
    simpa using h2
  rw [hrest]
  simp [hroot]

theorem calculatePrim_mst_witness :
    ((buildGraph [BuildOp.vertex 0, BuildOp.vertex 1, BuildOp.biEdge 0 1 7]
        : Graph ℕ).vertexSet ≠ []) ∧
    ∃ gp, (buildGraph [BuildOp.vertex 0, BuildOp.vertex 1,
        BuildOp.biEdge 0 1 7] : Graph ℕ).calculatePrim = some gp ∧
      pathOf gp 0 = none ∧
      (List.range (buildGraph [BuildOp.vertex 0, BuildOp.vertex 1,
        BuildOp.biEdge 0 1 7] : Graph ℕ).vertexSet.length).countP
        (fun v => pathOf gp v ≠ none) =
        (buildGraph [BuildOp.vertex 0, BuildOp.vertex 1,
          BuildOp.biEdge 0 1 7] : Graph ℕ).vertexSet.length - 1 ∧
      ∃ q : ℚ, IsMSTWeight (buildGraph [BuildOp.vertex 0, BuildOp.vertex 1,
          BuildOp.biEdge 0 1 7] : Graph ℕ).vertexSet.length
          (uedges (buildGraph [BuildOp.vertex 0, BuildOp.vertex 1,
            BuildOp.biEdge 0 1 7] : Graph ℕ)) q ∧
        ∑ v in (Finset.range (buildGraph [BuildOp.vertex 0,
            BuildOp.vertex 1, BuildOp.biEdge 0 1 7]
            : Graph ℕ).vertexSet.length).erase 0,
          distOf gp v = ((q : ℚ) : WithTop ℚ) := by
  have hne : (buildGraph [BuildOp.vertex 0, BuildOp.vertex 1,
      BuildOp.biEdge 0 1 7] : Graph ℕ).vertexSet ≠ [] := by decide
  have hconn : ∀ v, v < (buildGraph [BuildOp.vertex 0, BuildOp.vertex 1,
      BuildOp.biEdge 0 1 7] : Graph ℕ).vertexSet.length →
      ReachOn (uedges (buildGraph [BuildOp.vertex 0, BuildOp.vertex 1,
        BuildOp.biEdge 0 1 7] : Graph ℕ))
        (Finset.range (uedges (buildGraph [BuildOp.vertex 0,
          BuildOp.vertex 1, BuildOp.biEdge 0 1 7] : Graph ℕ)).length)
        0 v := by
    intro v hv
    have hlen : (buildGraph [BuildOp.vertex 0, BuildOp.vertex 1,
        BuildOp.biEdge 0 1 7] : Graph ℕ).vertexSet.length = 2 := by decide
    rw [hlen] at hv
    interval_cases v
    · exact Relation.ReflTransGen.refl
    · refine Relation.ReflTransGen.single ⟨0, ?_, ?_⟩
      · decide
      · exact ⟨(0, 1, 7), by decide, Or.inl ⟨rfl, rfl⟩⟩
  exact ⟨hne, calculatePrim_mst
    [BuildOp.vertex 0, BuildOp.vertex 1, BuildOp.biEdge 0 1 7] hne hconn⟩

/-! ### Kruskal: selected edges and minimum spanning weight (claim C2) -/

/-- The `selected` flag of edge `eid`. -/
def selectedOf (g : Graph T) (eid : Nat) : Bool :=
  ((g.edge? eid).map GEdge.selected).getD false

/-- Sum of the weights of the edges whose `selected` flag is set (each
undirected edge contributing twice, once per direction). -/
def selectedWeightSum (g : Graph T) : ℚ :=
  ∑ i in Finset.range g.edges.length,
    (if selectedOf g i = true then weightOf g i else 0)

theorem selectedOf_congr_edges (g g' : Graph T) (h : g'.edges = g.edges) :
    ∀ eid, selectedOf g' eid = selectedOf g eid := by
  intro eid
  rw [selectedOf, selectedOf, Graph.edge?, Graph.edge?, h]

theorem uedges_congr_static (g g' : Graph T) (h : StaticSame g g') :
    uedges g' = uedges g := by
  obtain ⟨hlen, hadj, hinfo, helen, hedge⟩ := h
  refine List.ext_getElem? ?_
  intro i
  have h1 : (uedges g')[i]? = (g'.edge? i).map (fun e => (e.orig, e.dest, e.weight)) :=
    uedges_getElem? g' i
  have h2 : (uedges g)[i]? = (g.edge? i).map (fun e => (e.orig, e.dest, e.weight)) :=
    uedges_getElem? g i
  rw [h1, h2]
  have h3 := hedge i
  cases hg : g.edge? i with
  | none =>
    rw [hg] at h3
    cases hg' : g'.edge? i with
    | none => rfl
    | some e' =>
      rw [hg'] at h3
      cases h3
  | some e =>
    rw [hg] at h3
    cases hg' : g'.edge? i with
    | none =>
      rw [hg'] at h3
      cases h3
    | some e' =>
      rw [hg'] at h3
      simp only [Option.map_some', Option.some.injEq, Prod.mk.injEq] at h3 ⊢
      exact ⟨h3.1, h3.2.1, h3.2.2.1⟩

theorem weightOf_congr_static (g g' : Graph T) (h : StaticSame g g') :
    ∀ eid, weightOf g' eid = weightOf g eid := by
  intro eid
  rw [← ewt_uedges, ← ewt_uedges, uedges_congr_static g g' h]

theorem revid_congr_static (g g' : Graph T) (h : StaticSame g g') :
    ∀ eid, revid g' eid = revid g eid := by
  intro eid
  have h5 := h.2.2.2.2 eid
  rw [revid, revid]
  cases hg : g.edge? eid with
  | none =>
    rw [hg] at h5
    cases hg' : g'.edge? eid with
    | none => rfl
    | some e' =>
      rw [hg'] at h5
      cases h5
  | some e =>
    rw [hg] at h5
    cases hg' : g'.edge? eid with
    | none =>
      rw [hg'] at h5
      cases h5
    | some e' =>
      rw [hg'] at h5
      simp only [Option.map_some', Option.some.injEq, Prod.mk.injEq] at h5
      show (e'.reverse).getD eid = (e.reverse).getD eid
      rw [h5.2.2.2]

/-- Root existence under the union-find invariant. -/
theorem rootOf_exists (g : Graph T) (hinv : DSUInv g) (x : Nat)
    (hx : x < g.vertexSet.length) : ∃ r, RootOf g x r := by
  obtain ⟨g', r, _, hroot, _, _⟩ := findSet_spec g.vertexSet.length g hinv x hx
    (by omega)
  exact ⟨r, hroot⟩

/-- Adding edge `e` (joining `o` and `d`) to the reachability edge set
merges precisely the components of `o` and `d`. -/
theorem reach_insert_iff (E : List (Nat × Nat × ℚ)) (S : Finset Nat)
    (e o d : Nat) (hce : econnects E e o d) (u v : Nat) :
    ReachOn E (insert e S) u v ↔
    (ReachOn E S u v ∨ (ReachOn E S u o ∧ ReachOn E S d v) ∨
      (ReachOn E S u d ∧ ReachOn E S o v)) := by
  constructor
  · exact reach_insert_decomp E S e o d hce u v
  · intro h
    have hsub : S ⊆ insert e S := Finset.subset_insert e S
    have hstep : ReachOn E (insert e S) o d :=
      Relation.ReflTransGen.single ⟨e, Finset.mem_insert_self e S, hce⟩
    rcases h with h1 | ⟨h2a, h2b⟩ | ⟨h3a, h3b⟩
    · exact reachOn_mono E S _ hsub u v h1
    · exact Relation.ReflTransGen.trans (reachOn_mono E S _ hsub u o h2a)
        (Relation.ReflTransGen.trans hstep (reachOn_mono E S _ hsub d v h2b))
    · exact Relation.ReflTransGen.trans (reachOn_mono E S _ hsub u d h3a)
        (Relation.ReflTransGen.trans (reachOn_symm E _ o d hstep)
          (reachOn_mono E S _ hsub o v h3b))

/-- `linkSets` merges exactly the two root classes involved. -/
theorem sameRoot_link (g2 gL : Graph T) (o d r1 r2 nr : Nat)
    (hr1 : RootOf g2 o r1) (hr2 : RootOf g2 d r2) (hne : r1 ≠ r2)
    (hnr : nr = r1 ∨ nr = r2)
    (hmerge : ∀ z rr, RootOf gL z rr ↔
      ((RootOf g2 z rr ∧ rr ≠ r1 ∧ rr ≠ r2) ∨
       ((RootOf g2 z r1 ∨ RootOf g2 z r2) ∧ rr = nr))) (x y : Nat) :
    (∃ r, RootOf gL x r ∧ RootOf gL y r) ↔
    ((∃ r, RootOf g2 x r ∧ RootOf g2 y r) ∨
     ((∃ r, RootOf g2 x r ∧ RootOf g2 o r) ∧
      (∃ r, RootOf g2 d r ∧ RootOf g2 y r)) ∨
     ((∃ r, RootOf g2 x r ∧ RootOf g2 d r) ∧
      (∃ r, RootOf g2 o r ∧ RootOf g2 y r))) := by
  constructor
  · intro ⟨r, hx, hy⟩
    rcases (hmerge x r).mp hx with ⟨hx2, hxr1, hxr2⟩ | ⟨hx2, hxnr⟩ <;>
      rcases (hmerge y r).mp hy with ⟨hy2, hyr1, hyr2⟩ | ⟨hy2, hynr⟩
    · exact Or.inl ⟨r, hx2, hy2⟩
    · exfalso
      rcases hnr with h | h
      · exact hxr1 (hynr.trans h)
      · exact hxr2 (hynr.trans h)
    · exfalso
      rcases hnr with h | h
      · exact hyr1 (hxnr.trans h)
      · exact hyr2 (hxnr.trans h)
    · rcases hx2 with hx2 | hx2 <;> rcases hy2 with hy2 | hy2
      · exact Or.inl ⟨r1, hx2, hy2⟩
      · exact Or.inr (Or.inl ⟨⟨r1, hx2, hr1⟩, ⟨r2, hr2, hy2⟩⟩)
      · exact Or.inr (Or.inr ⟨⟨r2, hx2, hr2⟩, ⟨r1, hr1, hy2⟩⟩)
      · exact Or.inl ⟨r2, hx2, hy2⟩
  · intro h
    rcases h with ⟨r, hx, hy⟩ | ⟨⟨ra, hxa, hoa⟩, ⟨rb, hdb, hyb⟩⟩ |
      ⟨⟨ra, hxa, hda⟩, ⟨rb, hob, hyb⟩⟩
    · by_cases h1 : r = r1
      · refine ⟨nr, ?_, ?_⟩
        · exact (hmerge x nr).mpr (Or.inr ⟨Or.inl (h1 ▸ hx), rfl⟩)
        · exact (hmerge y nr).mpr (Or.inr ⟨Or.inl (h1 ▸ hy), rfl⟩)
      · by_cases h2 : r = r2
        · refine ⟨nr, ?_, ?_⟩
          · exact (hmerge x nr).mpr (Or.inr ⟨Or.inr (h2 ▸ hx), rfl⟩)
          · exact (hmerge y nr).mpr (Or.inr ⟨Or.inr (h2 ▸ hy), rfl⟩)
        · exact ⟨r, (hmerge x r).mpr (Or.inl ⟨hx, h1, h2⟩),
            (hmerge y r).mpr (Or.inl ⟨hy, h1, h2⟩)⟩
    · have hra : ra = r1 := RootOf_unique g2 o ra r1 hoa hr1
      have hrb : rb = r2 := RootOf_unique g2 d rb r2 hdb hr2
      refine ⟨nr, ?_, ?_⟩
      · exact (hmerge x nr).mpr (Or.inr ⟨Or.inl (hra ▸ hxa), rfl⟩)
      · exact (hmerge y nr).mpr (Or.inr ⟨Or.inr (hrb ▸ hyb), rfl⟩)
    · have hra : ra = r2 := RootOf_unique g2 d ra r2 hda hr2
      have hrb : rb = r1 := RootOf_unique g2 o rb r1 hob hr1
      refine ⟨nr, ?_, ?_⟩
      · exact (hmerge x nr).mpr (Or.inr ⟨Or.inr (hra ▸ hxa), rfl⟩)
      · exact (hmerge y nr).mpr (Or.inr ⟨Or.inl (hrb ▸ hyb), rfl⟩)

theorem mem_adjFlatten (g : Graph T) (eid : Nat) :
    eid ∈ (g.vertexSet.map GVertex.adj).flatten ↔
    ∃ i, i < g.vertexSet.length ∧ eid ∈ adjOf g i := by
  rw [List.mem_flatten]
  constructor
  · intro ⟨l, hl, hel⟩
    obtain ⟨v, hv, hadj⟩ := List.mem_map.mp hl
    obtain ⟨i, hi, hEq⟩ := List.mem_iff_getElem.mp hv
    refine ⟨i, hi, ?_⟩
    rw [adjOf, Graph.vertex?, List.getElem?_eq_getElem hi]
    rw [← hadj] at hel
    simpa [hEq] using hel
  · intro ⟨i, hi, hadj⟩
    refine ⟨(g.vertexSet[i]).adj, ?_, ?_⟩
    · exact List.mem_map_of_mem GVertex.adj (List.getElem_mem hi)
    · rw [adjOf, Graph.vertex?, List.getElem?_eq_getElem hi] at hadj
      simpa using hadj

theorem collectEdges_nodup (g : Graph T) (hw : WF g) :
    (collectEdges g).Nodup := by
  unfold collectEdges
  refine List.Nodup.filter _ ?_
  rw [List.nodup_flatten]
  constructor
  · intro l hl
    obtain ⟨v, hv, hadj⟩ := List.mem_map.mp hl
    obtain ⟨i, hi, hEq⟩ := List.mem_iff_getElem.mp hv
    have := hw.adj_nodup i
    rw [adjOf, Graph.vertex?, List.getElem?_eq_getElem hi] at this
    simp only [Option.map_some', Option.getD_some] at this
    rw [← hadj, ← hEq]
    exact this
  · rw [List.pairwise_map]
    rw [List.pairwise_iff_getElem]
    intro i j hi hj hij
    intro eid hei hej
    have hai : eid ∈ adjOf g i := by
      rw [adjOf, Graph.vertex?, List.getElem?_eq_getElem hi]
      simpa using hei
    have haj : eid ∈ adjOf g j := by
      rw [adjOf, Graph.vertex?, List.getElem?_eq_getElem hj]
      simpa using hej
    obtain ⟨e1, he1, ho1⟩ := hw.adj_orig i eid hai
    obtain ⟨e2, he2, ho2⟩ := hw.adj_orig j eid haj
    rw [he1] at he2
    cases he2
    omega

theorem static_kruskalBase (g : Graph T) :
    StaticSame g ((kruskalInit g).clearSelected) :=
  StaticSame_trans (StaticSame_kruskalInit g)
    (StaticSame_clearSelected (kruskalInit g))

theorem edge?_kruskalBase (g : Graph T) (eid : Nat) :
    ((kruskalInit g).clearSelected).edge? eid =
      (g.edge? eid).map (fun e => { e with selected := false }) :=
  edge?_clearSelected (kruskalInit g) eid

theorem selectedOf_kruskalBase (g : Graph T) (eid : Nat) :
    selectedOf ((kruskalInit g).clearSelected) eid = false := by
  rw [selectedOf, edge?_kruskalBase]
  cases g.edge? eid <;> rfl

theorem length_kruskalBase (g : Graph T) :
    ((kruskalInit g).clearSelected).vertexSet.length = g.vertexSet.length :=
  (static_kruskalBase g).1

theorem pathOf_kruskalBase (g : Graph T) (i : Nat)
    (hi : i < g.vertexSet.length) :
    pathOf ((kruskalInit g).clearSelected) i = some i := by
  have h1 : pathOf ((kruskalInit g).clearSelected) i = pathOf (kruskalInit g) i := by
    rw [pathOf, pathOf, Graph.vertex?, Graph.vertex?, vertexSet_clearSelected]
  rw [h1]
  exact ((kruskalInit_fields g i).1 hi).1

theorem idOf_kruskalBase (g : Graph T) (i : Nat)
    (hi : i < g.vertexSet.length) :
    idOf ((kruskalInit g).clearSelected) i = i := by
  have h1 : idOf ((kruskalInit g).clearSelected) i = idOf (kruskalInit g) i := by
    rw [idOf, idOf, Graph.vertex?, Graph.vertex?, vertexSet_clearSelected]
  rw [h1]
  exact ((kruskalInit_fields g i).1 hi).2.2

theorem adjOf_kruskalBase (g : Graph T) (i : Nat) :
    adjOf ((kruskalInit g).clearSelected) i = adjOf g i :=
  (static_kruskalBase g).2.1 i

theorem mem_collectEdges_kruskalBase (g : Graph T) (hw : WF g) (eid : Nat) :
    eid ∈ collectEdges ((kruskalInit g).clearSelected) ↔
    ∃ e, g.edge? eid = some e ∧ e.orig < e.dest := by
  unfold collectEdges
  rw [List.mem_filter, mem_adjFlatten]
  constructor
  · intro ⟨⟨i, hi, hadj⟩, hcond⟩
    revert hcond
    cases hbe : ((kruskalInit g).clearSelected).edge? eid with
    | none => intro hcond; cases hcond
    | some eb =>
      intro hcond
      rw [decide_eq_true_eq] at hcond
      have hge : g.edge? eid = some { eb with selected := true } ∨
          g.edge? eid = some eb := by
        rw [edge?_kruskalBase] at hbe
        cases hg : g.edge? eid with
        | none => rw [hg] at hbe; cases hbe
        | some e =>
          rw [hg] at hbe
          simp only [Option.map_some', Option.some.injEq] at hbe
          rw [← hbe]
          cases hsel : e.selected
          · right
            rw [← hsel]
          · left
            rw [← hsel]
      have horr : ∃ e, g.edge? eid = some e ∧ e.orig = eb.orig ∧
          e.dest = eb.dest := by
        rcases hge with h | h
        · exact ⟨_, h, rfl, rfl⟩
        · exact ⟨_, h, rfl, rfl⟩
      obtain ⟨e, he, ho, hd⟩ := horr
      refine ⟨e, he, ?_⟩
      have hol : e.orig < g.vertexSet.length := hw.edge_orig_lt e (edge?_mem _ _ _ he)
      have hdl : e.dest < g.vertexSet.length := hw.edge_dest_lt e (edge?_mem _ _ _ he)
      rw [idOf_kruskalBase g eb.orig (ho ▸ hol), idOf_kruskalBase g eb.dest
        (hd ▸ hdl)] at hcond
      rw [ho, hd]
      exact hcond
  · intro ⟨e, he, hlt⟩
    have hol : e.orig < g.vertexSet.length := hw.edge_orig_lt e (edge?_mem _ _ _ he)
    have hdl : e.dest < g.vertexSet.length := hw.edge_dest_lt e (edge?_mem _ _ _ he)
    refine ⟨⟨e.orig, by rw [length_kruskalBase]; exact hol, ?_⟩, ?_⟩
    · rw [adjOf_kruskalBase]
      exact hw.orig_adj eid e he
    · have hbe : ((kruskalInit g).clearSelected).edge? eid =
          some { e with selected := false } := by
        rw [edge?_kruskalBase, he]
        rfl
      rw [hbe]
      rw [decide_eq_true_eq]
      show idOf ((kruskalInit g).clearSelected) e.orig <
        idOf ((kruskalInit g).clearSelected) e.dest
      rw [idOf_kruskalBase g e.orig hol, idOf_kruskalBase g e.dest hdl]
      exact hlt

theorem sortEdges_kruskalBase_props (g : Graph T) (hw : WF g) :
    (sortEdges ((kruskalInit g).clearSelected)
      (collectEdges ((kruskalInit g).clearSelected))).Nodup ∧
    (∀ i, i ∈ sortEdges ((kruskalInit g).clearSelected)
        (collectEdges ((kruskalInit g).clearSelected)) ↔
      ∃ e, g.edge? i = some e ∧ e.orig < e.dest) ∧
    (sortEdges ((kruskalInit g).clearSelected)
      (collectEdges ((kruskalInit g).clearSelected))).Sorted
      (fun a b => weightOf g a ≤ weightOf g b) := by
  have hwB : WF ((kruskalInit g).clearSelected) :=
    WF_transfer g _ (static_kruskalBase g) hw
  have hperm := List.perm_insertionSort
    (fun e1 e2 => weightOf ((kruskalInit g).clearSelected) e1 ≤
      weightOf ((kruskalInit g).clearSelected) e2)
    (collectEdges ((kruskalInit g).clearSelected))
  refine ⟨?_, ?_, ?_⟩
  · exact hperm.symm.nodup (collectEdges_nodup _ hwB)
  · intro i
    rw [sortEdges, hperm.mem_iff]
    exact mem_collectEdges_kruskalBase g hw i
  · haveI h1 : IsTotal Nat (fun e1 e2 =>
        weightOf ((kruskalInit g).clearSelected) e1 ≤
        weightOf ((kruskalInit g).clearSelected) e2) :=
      ⟨fun a b => le_total _ _⟩
    haveI h2 : IsTrans Nat (fun e1 e2 =>
        weightOf ((kruskalInit g).clearSelected) e1 ≤
        weightOf ((kruskalInit g).clearSelected) e2) :=
      ⟨fun a b c hab hbc => le_trans hab hbc⟩
    have hs := List.sorted_insertionSort
      (fun e1 e2 => weightOf ((kruskalInit g).clearSelected) e1 ≤
        weightOf ((kruskalInit g).clearSelected) e2)
      (collectEdges ((kruskalInit g).clearSelected))
    refine List.Pairwise.imp ?_ hs
    intro a b h
    rw [weightOf_congr_static g _ (static_kruskalBase g) a,
      weightOf_congr_static g _ (static_kruskalBase g) b] at h
    exact h

theorem edge?_congr_edges (g g' : Graph T) (h : g'.edges = g.edges) :
    ∀ eid, g'.edge? eid = g.edge? eid := by
  intro eid
  rw [Graph.edge?, Graph.edge?, h]

theorem sameRoot_congr (gA gB : Graph T)
    (hiff : ∀ z r, RootOf gA z r ↔ RootOf gB z r) (x y : Nat) :
    (∃ r, RootOf gA x r ∧ RootOf gA y r) ↔
    (∃ r, RootOf gB x r ∧ RootOf gB y r) := by
  constructor
  · intro ⟨r, hx, hy⟩
    exact ⟨r, (hiff x r).mp hx, (hiff y r).mp hy⟩
  · intro ⟨r, hx, hy⟩
    exact ⟨r, (hiff x r).mpr hx, (hiff y r).mpr hy⟩

/-- State of `calculateKruskal`'s union loop: `gs` is the current graph,
`K` the set of (canonical, `orig < dest`) selected edge indices, `l` the
unprocessed sorted suffix; all relative to the untouched graph `g`. -/
structure KruSt (g gs : Graph T) (K : Finset Nat) (l : List Nat) : Prop where
  inv : DSUInv gs
  stat : StaticSame g gs
  sel : ∀ eid, selectedOf gs eid = true ↔ (eid ∈ K ∨ revid g eid ∈ K)
  comp : ∀ x y, x < g.vertexSet.length → y < g.vertexSet.length →
    ((∃ r, RootOf gs x r ∧ RootOf gs y r) ↔ ReachOn (uedges g) K x y)
  count : rootCount gs + K.card = g.vertexSet.length
  canon : ∀ i ∈ K, ∃ e, g.edge? i = some e ∧ e.orig < e.dest
  disj : ∀ i ∈ K, i ∉ l ∧ revid g i ∉ l
  opt : ∀ T0, IsSpanTree g.vertexSet.length (uedges g) T0 →
    ∃ TT, IsSpanTree g.vertexSet.length (uedges g) TT ∧
      wsum (uedges g) TT ≤ wsum (uedges g) T0 ∧ K ⊆ TT ∧
      ∀ f ∈ TT, f ∈ K ∨ f ∈ l ∨ revid g f ∈ l

/-- When the processed edge closes a cycle, no optimal-tree candidate uses
it (in either orientation). -/
theorem kruskal_opt_peel (g : Graph T) (hw : WF g) (K : Finset Nat)
    (eid : Nat) (rest : List Nat) (e : GEdge) (he : g.edge? eid = some e)
    (hreachK : ReachOn (uedges g) K e.orig e.dest)
    (heidK : eid ∉ K) (hrevK : revid g eid ∉ K)
    (TT : Finset Nat) (hTT : IsSpanTree g.vertexSet.length (uedges g) TT)
    (hKsub : K ⊆ TT)
    (hcont : ∀ f ∈ TT, f ∈ K ∨ f ∈ eid :: rest ∨ revid g f ∈ eid :: rest) :
    ∀ f ∈ TT, f ∈ K ∨ f ∈ rest ∨ revid g f ∈ rest := by
  have heidTT : eid ∉ TT := by
    intro hmem
    refine tree_edge_needed g.vertexSet.length (uedges g) TT hTT eid hmem ?_
    intro u v hcuv
    have hsub : K ⊆ TT.erase eid := by
      intro i hi
      exact Finset.mem_erase.mpr ⟨fun hc => heidK (hc ▸ hi), hKsub hi⟩
    have hre : ReachOn (uedges g) (TT.erase eid) e.orig e.dest :=
      reachOn_mono _ _ _ hsub _ _ hreachK
    rcases econnects_endpoints (uedges g) eid e.orig e.dest u v
      (econnects_of_edge g eid e he) hcuv with ⟨hu, hv⟩ | ⟨hu, hv⟩
    · rw [hu, hv]; exact hre
    · rw [hu, hv]; exact reachOn_symm _ _ _ _ hre
  have hrevTT : revid g eid ∉ TT := by
    intro hmem
    obtain ⟨re, hre2, hro, hrd, hrw, hrr, hrne⟩ := revid_spec g hw eid e he
    refine tree_edge_needed g.vertexSet.length (uedges g) TT hTT
      (revid g eid) hmem ?_
    intro u v hcuv
    have hsub : K ⊆ TT.erase (revid g eid) := by
      intro i hi
      exact Finset.mem_erase.mpr ⟨fun hc => hrevK (hc ▸ hi), hKsub hi⟩
    have hre : ReachOn (uedges g) (TT.erase (revid g eid)) e.orig e.dest :=
      reachOn_mono _ _ _ hsub _ _ hreachK
    have hconnr : econnects (uedges g) (revid g eid) e.dest e.orig := by
      have := econnects_of_edge g (revid g eid) re hre2
      rw [hro, hrd] at this
      exact this
    rcases econnects_endpoints (uedges g) (revid g eid) e.dest e.orig u v
      hconnr hcuv with ⟨hu, hv⟩ | ⟨hu, hv⟩
    · rw [hu, hv]; exact reachOn_symm _ _ _ _ hre
    · rw [hu, hv]; exact hre
  intro f hf
  rcases hcont f hf with h1 | h2 | h3
  · exact Or.inl h1
  · rcases List.mem_cons.mp h2 with hh | hh
    · exact absurd (hh ▸ hf) heidTT
    · exact Or.inr (Or.inl hh)
  · rcases List.mem_cons.mp h3 with hh | hh
    · exfalso
      have hflt : f < g.edges.length := by
        have := hTT.1 f hf
        rw [length_uedges] at this
        exact this
      obtain ⟨ef, hef⟩ : ∃ ef, g.edge? f = some ef := by
        rw [Graph.edge?, List.getElem?_eq_getElem hflt]
        exact ⟨_, rfl⟩
      have : f = revid g eid := by
        rw [← hh, revid_revid g hw f ef hef]
      exact hrevTT (this ▸ hf)
    · exact Or.inr (Or.inr hh)

/-- When the processed edge joins two components, some optinal-weight
candidate tree adopts it (Kruskal exchange step). -/
theorem kruskal_opt_union (g : Graph T) (hw : WF g) (K : Finset Nat)
    (eid : Nat) (rest : List Nat) (e : GEdge) (he : g.edge? eid = some e)
    (hnotreach : ¬ ReachOn (uedges g) K e.orig e.dest)
    (heidK : eid ∉ K) (hrevK : revid g eid ∉ K)
    (hmin : ∀ b ∈ rest, weightOf g eid ≤ weightOf g b)
    (TT : Finset Nat) (hTT : IsSpanTree g.vertexSet.length (uedges g) TT)
    (hKsub : K ⊆ TT)
    (hcont : ∀ f ∈ TT, f ∈ K ∨ f ∈ eid :: rest ∨ revid g f ∈ eid :: rest) :
    ∃ TT2, IsSpanTree g.vertexSet.length (uedges g) TT2 ∧
      wsum (uedges g) TT2 ≤ wsum (uedges g) TT ∧ insert eid K ⊆ TT2 ∧
      ∀ f ∈ TT2, f ∈ insert eid K ∨ f ∈ rest ∨ revid g f ∈ rest := by
  obtain ⟨re, hre2, hro, hrd, hrw, hrr, hrne⟩ := revid_spec g hw eid e he
  have hconnE : econnects (uedges g) eid e.orig e.dest :=
    econnects_of_edge g eid e he
  have hconnR : econnects (uedges g) (revid g eid) e.orig e.dest := by
    have := econnects_of_edge g (revid g eid) re hre2
    rw [hro, hrd] at this
    exact econnects_symm _ _ _ _ this
  have hfvalid : ∀ f ∈ TT, ∃ ef, g.edge? f = some ef := by
    intro f hf
    have hflt : f < g.edges.length := by
      have := hTT.1 f hf
      rw [length_uedges] at this
      exact this
    rw [Graph.edge?, List.getElem?_eq_getElem hflt]
    exact ⟨_, rfl⟩
  have hnopair : ¬ (eid ∈ TT ∧ revid g eid ∈ TT) := by
    intro ⟨h1, h2⟩
    exact tree_no_parallel g.vertexSet.length (uedges g) TT hTT eid
      (revid g eid) h1 h2 hrne e.orig e.dest hconnE hconnR
  have hwrev : ewt (uedges g) (revid g eid) = ewt (uedges g) eid :=
    ewt_revid g hw eid e he
  by_cases heT : eid ∈ TT
  · -- the tree already contains the edge
    refine ⟨TT, hTT, le_refl _, Finset.insert_subset heT hKsub, ?_⟩
    intro f hf
    rcases hcont f hf with h1 | h2 | h3
    · exact Or.inl (Finset.mem_insert_of_mem h1)
    · rcases List.mem_cons.mp h2 with hh | hh
      · exact Or.inl (hh ▸ Finset.mem_insert_self _ _)
      · exact Or.inr (Or.inl hh)
    · rcases List.mem_cons.mp h3 with hh | hh
      · exfalso
        obtain ⟨ef, hef⟩ := hfvalid f hf
        have : f = revid g eid := by
          rw [← hh, revid_revid g hw f ef hef]
        exact hnopair ⟨heT, this ▸ hf⟩
      · exact Or.inr (Or.inr hh)
  · by_cases hrT : revid g eid ∈ TT
    · -- swap the reverse copy for the canonical copy
      have hrK : revid g eid ∉ K := hrevK
      refine ⟨insert eid (TT.erase (revid g eid)), ?_, ?_, ?_, ?_⟩
      · obtain ⟨hTb, hTs, hTc⟩ := hTT
        refine ⟨?_, ?_, ?_⟩
        · intro i hi
          rcases Finset.mem_insert.mp hi with h1 | h2
          · rw [h1, length_uedges]
            exact edge?_lt g eid e he
          · exact hTb i (Finset.mem_of_mem_erase h2)
        · intro v hv
          refine reach_simulate (uedges g) TT _ ?_ 0 v (hTs v hv)
          intro i hiT u w hc
          by_cases hif : i = revid g eid
          · have hstep : ReachOn (uedges g) (insert eid (TT.erase (revid g eid)))
                e.orig e.dest :=
              Relation.ReflTransGen.single
                ⟨eid, Finset.mem_insert_self _ _, hconnE⟩
            rcases econnects_endpoints (uedges g) (revid g eid) e.orig e.dest
              u w hconnR (hif ▸ hc) with ⟨hu, hv2⟩ | ⟨hu, hv2⟩
            · rw [hu, hv2]; exact hstep
            · rw [hu, hv2]; exact reachOn_symm _ _ _ _ hstep
          · exact Relation.ReflTransGen.single
              ⟨i, Finset.mem_insert_of_mem (Finset.mem_erase.mpr ⟨hif, hiT⟩), hc⟩
        · rw [Finset.card_insert_of_not_mem
            (fun hm => heT (Finset.mem_of_mem_erase hm)),
            Finset.card_erase_of_mem hrT]
          have : 1 ≤ TT.card := Finset.card_pos.mpr ⟨_, hrT⟩
          omega
      · rw [wsum, wsum, Finset.sum_insert
          (fun hm => heT (Finset.mem_of_mem_erase hm))]
        have hsplit := Finset.sum_erase_add TT (ewt (uedges g)) hrT
        rw [hwrev] at hsplit
        linarith
      · refine Finset.insert_subset (Finset.mem_insert_self _ _) ?_
        intro i hi
        exact Finset.mem_insert_of_mem
          (Finset.mem_erase.mpr ⟨fun hc => hrK (hc ▸ hi), hKsub hi⟩)
      · intro f hf
        rcases Finset.mem_insert.mp hf with h1 | h2
        · exact Or.inl (h1 ▸ Finset.mem_insert_self _ _)
        · have hfT : f ∈ TT := Finset.mem_of_mem_erase h2
          have hfner : f ≠ revid g eid := (Finset.mem_erase.mp h2).1
          rcases hcont f hfT with h1 | hh | hh
          · exact Or.inl (Finset.mem_insert_of_mem h1)
          · rcases List.mem_cons.mp hh with h3 | h3
            · exact Or.inl (h3 ▸ Finset.mem_insert_self _ _)
            · exact Or.inr (Or.inl h3)
          · rcases List.mem_cons.mp hh with h3 | h3
            · exfalso
              obtain ⟨ef, hef⟩ := hfvalid f hfT
              exact hfner (by rw [← h3, revid_revid g hw f ef hef])
            · exact Or.inr (Or.inr h3)
    · -- genuine exchange across the cut of `e.orig`'s component
      have horiglt : e.orig < g.vertexSet.length :=
        hw.edge_orig_lt e (edge?_mem _ _ _ he)
      have hdestlt : e.dest < g.vertexSet.length :=
        hw.edge_dest_lt e (edge?_mem _ _ _ he)
      have hmincut : ∀ f ∈ TT, ∀ x y, econnects (uedges g) f x y →
          ReachOn (uedges g) K e.orig x → ¬ ReachOn (uedges g) K e.orig y →
          ewt (uedges g) eid ≤ ewt (uedges g) f := by
        intro f hf x y hc hPx hPy
        have hfK : f ∉ K := by
          intro hfK
          exact hPy (Relation.ReflTransGen.tail hPx ⟨f, hfK, hc⟩)
        rw [ewt_uedges, ewt_uedges]
        rcases hcont f hf with h1 | h2 | h3
        · exact absurd h1 hfK
        · rcases List.mem_cons.mp h2 with hh | hh
          · exact absurd (hh ▸ hf) heT
          · exact hmin f hh
        · rcases List.mem_cons.mp h3 with hh | hh
          · exfalso
            obtain ⟨ef, hef⟩ := hfvalid f hf
            exact hrT ((by rw [← hh, revid_revid g hw f ef hef] :
              f = revid g eid) ▸ hf)
          · have h4 := hmin (revid g f) hh
            rw [← ewt_uedges, ← ewt_uedges] at h4 ⊢
            obtain ⟨ef, hef⟩ := hfvalid f hf
            rw [ewt_revid g hw f ef hef] at h4
            exact h4
      have hAin : ∀ i ∈ K, ∀ x y, econnects (uedges g) i x y →
          (ReachOn (uedges g) K e.orig x ↔ ReachOn (uedges g) K e.orig y) := by
        intro i hi x y hc
        constructor
        · intro h
          exact Relation.ReflTransGen.tail h ⟨i, hi, hc⟩
        · intro h
          exact Relation.ReflTransGen.tail h
            ⟨i, hi, econnects_symm _ _ _ _ hc⟩
      obtain ⟨TT2, hTT2, hins, hsubT, hw2⟩ :=
        exchange g.vertexSet.length (uedges g) TT hTT
          (fun v => ReachOn (uedges g) K e.orig v) eid e.orig e.dest
          (by rw [length_uedges]; exact edge?_lt g eid e he)
          hconnE Relation.ReflTransGen.refl hnotreach horiglt hdestlt
          hmincut K hKsub hAin
      refine ⟨TT2, hTT2, hw2, ?_, ?_⟩
      · intro i hi
        rcases Finset.mem_insert.mp hi with h1 | h2
        · exact hins (h1 ▸ Finset.mem_insert_self _ _)
        · exact hins (Finset.mem_insert_of_mem h2)
      · intro f hf
        rcases Finset.mem_insert.mp (hsubT hf) with h1 | h2
        · exact Or.inl (h1 ▸ Finset.mem_insert_self _ _)
        · rcases hcont f h2 with hc1 | hc2 | hc3
          · exact Or.inl (Finset.mem_insert_of_mem hc1)
          · rcases List.mem_cons.mp hc2 with hh | hh
            · exact Or.inl (hh ▸ Finset.mem_insert_self _ _)
            · exact Or.inr (Or.inl hh)
          · rcases List.mem_cons.mp hc3 with hh | hh
            · exfalso
              obtain ⟨ef, hef⟩ := hfvalid f h2
              exact hrT ((by rw [← hh, revid_revid g hw f ef hef] :
                f = revid g eid) ▸ h2)
            · exact Or.inr (Or.inr hh)

theorem kruskalLoopSel (g : Graph T) (hw : WF g) :
    ∀ (l : List Nat) (gs : Graph T) (K : Finset Nat),
    KruSt g gs K l → l.Nodup →
    (∀ i ∈ l, ∃ e, g.edge? i = some e ∧ e.orig < e.dest) →
    l.Sorted (fun a b => weightOf g a ≤ weightOf g b) →
    ∃ gU KF, kruskalUnionLoop gs l = some gU ∧ K ⊆ KF ∧ KruSt g gU KF [] ∧
      (∀ i ∈ l, ∀ x y, econnects (uedges g) i x y →
        ReachOn (uedges g) KF x y) := by
  intro l
  induction l with
  | nil =>
    intro gs K hst _ _ _
    exact ⟨gs, K, rfl, Finset.Subset.refl K, hst,
      fun i hi => absurd hi (List.not_mem_nil i)⟩
  | cons eid rest ih =>
    intro gs K hst hnodup hcanonl hsorted
    obtain ⟨e, he, horder⟩ := hcanonl eid (List.mem_cons_self _ _)
    have heidlt : eid < g.edges.length := edge?_lt g eid e he
    have horiglt : e.orig < g.vertexSet.length :=
      hw.edge_orig_lt e (edge?_mem _ _ _ he)
    have hdestlt : e.dest < g.vertexSet.length :=
      hw.edge_dest_lt e (edge?_mem _ _ _ he)
    obtain ⟨es, hes, ho, hd, hwt, hrv⟩ := StaticSame_edge_some hst.stat eid e he
    have hlengs : gs.vertexSet.length = g.vertexSet.length := hst.stat.1
    obtain ⟨g1, r1, hf1, hroot1, hcomp1, hinv1⟩ :=
      findSet_spec gs.vertexSet.length gs hst.inv es.orig
        (by rw [hlengs, ho]; exact horiglt) (by omega)
    have hleng1 : g1.vertexSet.length = gs.vertexSet.length := hcomp1.1.1
    obtain ⟨g2, r2, hf2, hroot2a, hcomp2, hinv2⟩ :=
      findSet_spec g1.vertexSet.length g1 hinv1 es.dest
        (by rw [hleng1, hlengs, hd]; exact hdestlt) (by omega)
    have hsame12 : DSUSame gs g2 := DSUSame_trans hcomp1.1 hcomp2.1
    have hR12 : ∀ y r, RootOf g2 y r ↔ RootOf gs y r :=
      hsame12.2.2.2.2.2.2.2.2.2
    have hR1 : ∀ y r, RootOf g1 y r ↔ RootOf gs y r :=
      hcomp1.1.2.2.2.2.2.2.2.2.2
    have hroot2 : RootOf gs es.dest r2 := (hR1 es.dest r2).mp hroot2a
    have hedges12 : g2.edges = gs.edges := hsame12.2.1
    have hlen12 : g2.vertexSet.length = gs.vertexSet.length := hsame12.1
    have hcount12 : rootCount g2 = rootCount gs :=
      rootCount_congr gs g2 hlen12 hsame12.2.2.2.2.2.2.2.2.1
    have hstat2 : StaticSame g g2 :=
      StaticSame_trans hst.stat (FrameSame_static (DSUSame_frame hsame12))
    have heidK : eid ∉ K := fun h => (hst.disj eid h).1 (List.mem_cons_self _ _)
    have hrevK : revid g eid ∉ K := by
      intro h
      have h2 := (hst.disj _ h).2
      rw [revid_revid g hw eid e he] at h2
      exact h2 (List.mem_cons_self _ _)
    have hsortrest : rest.Sorted (fun a b => weightOf g a ≤ weightOf g b) :=
      (List.sorted_cons.mp hsorted).2
    have hminrest : ∀ b ∈ rest, weightOf g eid ≤ weightOf g b :=
      (List.sorted_cons.mp hsorted).1
    have hnodrest : rest.Nodup := (List.nodup_cons.mp hnodup).2
    have heidrest : eid ∉ rest := (List.nodup_cons.mp hnodup).1
    have hcanonrest : ∀ i ∈ rest, ∃ e2, g.edge? i = some e2 ∧ e2.orig < e2.dest :=
      fun i hi => hcanonl i (List.mem_cons_of_mem _ hi)
    have hconnE : econnects (uedges g) eid e.orig e.dest :=
      econnects_of_edge g eid e he
    by_cases heqr : r1 = r2
    · -- same component: skip the edge
      have hreachK : ReachOn (uedges g) K e.orig e.dest := by
        refine (hst.comp e.orig e.dest horiglt hdestlt).mp ?_
        exact ⟨r1, ho ▸ hroot1, by rw [heqr]; exact hd ▸ hroot2⟩
      have hst2 : KruSt g g2 K rest := by
        refine ⟨hinv2, hstat2, ?_, ?_, ?_, hst.canon, ?_, ?_⟩
        · intro j
          rw [selectedOf_congr_edges gs g2 hedges12 j]
          exact hst.sel j
        · intro x y hx hy
          rw [sameRoot_congr g2 gs hR12 x y]
          exact hst.comp x y hx hy
        · rw [hcount12]
          exact hst.count
        · intro i hi
          exact ⟨fun hm => (hst.disj i hi).1 (List.mem_cons_of_mem _ hm),
            fun hm => (hst.disj i hi).2 (List.mem_cons_of_mem _ hm)⟩
        · intro T0 hT0
          obtain ⟨TT, hTT, hwT, hKsub, hcont⟩ := hst.opt T0 hT0
          exact ⟨TT, hTT, hwT, hKsub,
            kruskal_opt_peel g hw K eid rest e he hreachK heidK hrevK
              TT hTT hKsub hcont⟩
      obtain ⟨gU, KF, heqloop, hKsub, hstF, hreachF⟩ :=
        ih g2 K hst2 hnodrest hcanonrest hsortrest
      refine ⟨gU, KF, ?_, hKsub, hstF, ?_⟩
      · unfold kruskalUnionLoop
        rw [hes]
        dsimp only
        rw [hf1]
        dsimp only
        rw [hf2]
        dsimp only
        rw [if_pos heqr]
        exact heqloop
      · intro i hi x y hc
        rcases List.mem_cons.mp hi with hh | hh
        · rcases econnects_endpoints (uedges g) eid e.orig e.dest x y hconnE
            (hh ▸ hc) with ⟨hx, hy⟩ | ⟨hx, hy⟩
          · rw [hx, hy]
            exact reachOn_mono _ _ _ hKsub _ _ hreachK
          · rw [hx, hy]
            exact reachOn_symm _ _ _ _ (reachOn_mono _ _ _ hKsub _ _ hreachK)
        · exact hreachF i hh x y hc
    · -- distinct components: select the edge and link the sets
      have hnotreach : ¬ ReachOn (uedges g) K e.orig e.dest := by
        intro hre
        obtain ⟨r, hra, hrb⟩ := (hst.comp e.orig e.dest horiglt hdestlt).mpr hre
        have h1 : r = r1 := RootOf_unique gs e.orig r r1 hra (ho ▸ hroot1)
        have h2 : r = r2 := RootOf_unique gs e.dest r r2 hrb (hd ▸ hroot2)
        exact heqr (h1 ▸ h2)
      have hroot1g2 : RootOf g2 es.orig r1 := (hR12 es.orig r1).mpr hroot1
      have hroot2g2 : RootOf g2 es.dest r2 := (hR12 es.dest r2).mpr hroot2
      obtain ⟨gL, heqL, hinvL, hframeL, hcountL, nr, hnrcase, hmergeL⟩ :=
        linkSets_full_spec g2 hinv2 es.orig es.dest
          (by rw [hlen12, hlengs, ho]; exact horiglt)
          (by rw [hlen12, hlengs, hd]; exact hdestlt)
          r1 r2 hroot1g2 hroot2g2 heqr
      have hedgesL : gL.edges = gs.edges := by
        rw [hframeL.2.1, hedges12]
      have hesL : gL.edge? eid = some es := by
        rw [edge?_congr_edges gs gL hedgesL eid]
        exact hes
      obtain ⟨rid0, re0, hrev0, hre0, hro0, hd0, hw0, hrr0, hrne0⟩ :=
        hw.pair eid e he
      have hrid0 : revid g eid = rid0 := by
        rw [revid, he]
        simp [hrev0]
      have hesrev : es.reverse = some (revid g eid) := by
        rw [hrv, hrev0, hrid0]
      set g4 := (gL.updateEdge eid (fun e => { e with selected := true })).updateEdge
        (revid g eid) (fun e => { e with selected := true }) with hg4
      have hvs4 : g4.vertexSet = gL.vertexSet := by
        rw [hg4]
        simp
      have hinv4 : DSUInv g4 := DSUInv_of_vertexSet_eq gL g4 hvs4 hinvL
      have hpath4 : ∀ y, pathOf g4 y = pathOf gL y := by
        intro y
        rw [pathOf, pathOf, Graph.vertex?, Graph.vertex?, hvs4]
      have hR4 : ∀ z r, RootOf g4 z r ↔ RootOf gL z r :=
        fun z r => RootOf_congr_path g4 gL hpath4 z r
      have hcount4 : rootCount g4 = rootCount gL := by
        refine rootCount_congr gL g4 (by rw [hvs4]) ?_
        intro y
        rw [hpath4 y]
      have hstat4 : StaticSame g g4 := by
        rw [hg4]
        refine StaticSame_trans (StaticSame_trans ?_
          (StaticSame_updateEdge_selected gL eid))
          (StaticSame_updateEdge_selected _ (revid g eid))
        exact StaticSame_trans hstat2 (FrameSame_static hframeL)
      have hrne : revid g eid ≠ eid := by
        rw [hrid0]
        exact hrne0
      -- selected flags of the new state
      obtain ⟨res, hres, hro2, hrd2, hrw2, hrrev2⟩ :=
        StaticSame_edge_some hst.stat (revid g eid) re0 (by rw [hrid0]; exact hre0)
      have hsel4 : ∀ j, selectedOf g4 j = true ↔
          (j = eid ∨ j = revid g eid ∨ selectedOf gs j = true) := by
        intro j
        have hedge4 : g4.edge? j =
            (if revid g eid = j then
              ((if eid = j then
                  (gs.edge? j).map (fun e => { e with selected := true })
                else gs.edge? j)).map (fun e => { e with selected := true })
             else
              (if eid = j then
                  (gs.edge? j).map (fun e => { e with selected := true })
                else gs.edge? j)) := by
          rw [hg4, edge?_updateEdge, edge?_updateEdge,
            edge?_congr_edges gs gL hedgesL j]
        by_cases hj1 : revid g eid = j
        · rw [selectedOf, hedge4, if_pos hj1,
            if_neg (fun hc => hrne (hj1.trans hc.symm)), ← hj1, hres]
          simp
        · rw [selectedOf, hedge4, if_neg hj1]
          by_cases hj2 : eid = j
          · rw [if_pos hj2, ← hj2, hes]
            simp
          · rw [if_neg hj2]
            constructor
            · intro h
              exact Or.inr (Or.inr h)
            · intro h
              rcases h with h | h | h
              · exact absurd h.symm hj2
              · exact absurd h.symm hj1
              · exact h
      have heqstep : kruskalUnionLoop gs (eid :: rest) =
          kruskalUnionLoop g4 rest := by
        rw [kruskalUnionLoop]
        rw [hes]
        dsimp only
        rw [hf1]
        dsimp only
        rw [hf2]
        dsimp only
        rw [if_neg heqr, heqL]
        dsimp only
        rw [hesL]
        dsimp only
        rw [hesrev]
      have hst4 : KruSt g g4 (insert eid K) rest := by
        refine ⟨hinv4, hstat4, ?_, ?_, ?_, ?_, ?_, ?_⟩
        · -- selected flags
          intro j
          rw [hsel4 j]
          constructor
          · intro h
            rcases h with h | h | h
            · exact Or.inl (h ▸ Finset.mem_insert_self _ _)
            · refine Or.inr ?_
              have : revid g j = eid := by
                rw [h, revid_revid g hw eid e he]
              rw [this]
              exact Finset.mem_insert_self _ _
            · rcases (hst.sel j).mp h with h2 | h2
              · exact Or.inl (Finset.mem_insert_of_mem h2)
              · exact Or.inr (Finset.mem_insert_of_mem h2)
          · intro h
            rcases h with h | h
            · rcases Finset.mem_insert.mp h with h2 | h2
              · exact Or.inl h2
              · exact Or.inr (Or.inr ((hst.sel j).mpr (Or.inl h2)))
            · rcases Finset.mem_insert.mp h with h2 | h2
              · -- the reverse of j is the processed edge
                cases hje : g.edge? j with
                | none =>
                  left
                  have : revid g j = j := by
                    rw [revid, hje]
                    rfl
                  rw [this] at h2
                  exact h2
                | some ej =>
                  right
                  left
                  rw [← h2, revid_revid g hw j ej hje]
              · exact Or.inr (Or.inr ((hst.sel j).mpr (Or.inr h2)))
        · -- components
          intro x y hx hy
          rw [sameRoot_congr g4 gL hR4 x y,
            sameRoot_link g2 gL es.orig es.dest r1 r2 nr hroot1g2 hroot2g2
              heqr hnrcase hmergeL x y,
            sameRoot_congr g2 gs hR12 x y,
            sameRoot_congr g2 gs hR12 x es.orig,
            sameRoot_congr g2 gs hR12 es.dest y,
            sameRoot_congr g2 gs hR12 x es.dest,
            sameRoot_congr g2 gs hR12 es.orig y,
            ho, hd,
            hst.comp x y hx hy,
            hst.comp x e.orig hx horiglt,
            hst.comp e.dest y hdestlt hy,
            hst.comp x e.dest hx hdestlt,
            hst.comp e.orig y horiglt hy]
          exact (reach_insert_iff (uedges g) K eid e.orig e.dest hconnE x y).symm
        · -- root count
          rw [hcount4, Finset.card_insert_of_not_mem heidK]
          have h2 : rootCount g2 = rootCount gs := hcount12
          have h3 := hst.count
          omega
        · -- canonical members
          intro i hi
          rcases Finset.mem_insert.mp hi with h2 | h2
          · subst h2
            exact ⟨e, he, horder⟩
          · exact hst.canon i h2
        · -- disjointness from the unprocessed suffix
          have hridrest : revid g eid ∉ rest := by
            intro hmem
            obtain ⟨er, her, hlt⟩ := hcanonrest (revid g eid) hmem
            rw [hrid0, hre0] at her
            cases her
            rw [hro0, hd0] at hlt
            omega
          intro i hi
          rcases Finset.mem_insert.mp hi with h2 | h2
          · refine ⟨h2 ▸ heidrest, ?_⟩
            rw [h2]
            exact hridrest
          · exact ⟨fun hm => (hst.disj i h2).1 (List.mem_cons_of_mem _ hm),
              fun hm => (hst.disj i h2).2 (List.mem_cons_of_mem _ hm)⟩
        · -- optimality
          intro T0 hT0
          obtain ⟨TT, hTT, hwT, hKsub, hcont⟩ := hst.opt T0 hT0
          obtain ⟨TT2, hTT2, hw2, hins, hcont2⟩ :=
            kruskal_opt_union g hw K eid rest e he hnotreach heidK hrevK
              hminrest TT hTT hKsub hcont
          exact ⟨TT2, hTT2, le_trans hw2 hwT, hins, hcont2⟩
      obtain ⟨gU, KF, heqloop, hKsub2, hstF, hreachF⟩ :=
        ih g4 (insert eid K) hst4 hnodrest hcanonrest hsortrest
      refine ⟨gU, KF, heqstep.trans heqloop,
        (Finset.subset_insert eid K).trans hKsub2, hstF, ?_⟩
      intro i hi x y hc
      rcases List.mem_cons.mp hi with hh | hh
      · exact Relation.ReflTransGen.single
          ⟨eid, hKsub2 (Finset.mem_insert_self _ _), hh ▸ hc⟩
      · exact hreachF i hh x y hc

theorem edges_dfsKruskalPath : ∀ (fuel : Nat) (g : Graph T) (v : Nat),
    (dfsKruskalPath fuel g v).edges = g.edges := by
  intro fuel
  induction fuel with
  | zero => intro g v; rfl
  | succ n ih =>
    intro g v
    unfold dfsKruskalPath
    dsimp only
    have hfold : ∀ (l : List Nat) (gAcc : Graph T),
        (l.foldl (fun gAcc eid =>
          match gAcc.edge? eid with
          | none => gAcc
          | some e =>
            if !visitedOf gAcc e.dest && e.selected then
              dfsKruskalPath n
                (gAcc.updateVertex e.dest (fun w => { w with path := some v }))
                e.dest
            else gAcc) gAcc).edges = gAcc.edges := by
      intro l
      induction l with
      | nil => intro gAcc; rfl
      | cons eid rest ihl =>
        intro gAcc
        rw [List.foldl_cons]
        cases hge : gAcc.edge? eid with
        | none =>
          dsimp only
          exact ihl gAcc
        | some e =>
          dsimp only
          by_cases hsel : !visitedOf gAcc e.dest && e.selected
          · rw [if_pos hsel, ihl, ih]
            rfl
          · rw [if_neg hsel]
            exact ihl gAcc
    rw [hfold]
    rfl

theorem selectedWeightSum_congr (g g' : Graph T) (h : g'.edges = g.edges) :
    selectedWeightSum g' = selectedWeightSum g := by
  have h1 : ∀ i, selectedOf g' i = selectedOf g i := selectedOf_congr_edges g g' h
  have h2 : ∀ i, weightOf g' i = weightOf g i := by
    intro i
    rw [weightOf, weightOf, Graph.edge?, Graph.edge?, h]
  unfold selectedWeightSum
  rw [h]
  refine Finset.sum_congr rfl ?_
  intro i hi
  rw [h1 i, h2 i]

theorem countP_le_one_of_unique (p : Nat → Bool) :
    ∀ (l : List Nat), l.Nodup →
    (∀ a ∈ l, ∀ b ∈ l, p a = true → p b = true → a = b) →
    l.countP p ≤ 1 := by
  intro l
  induction l with
  | nil => intro _ _; simp
  | cons x xs ih =>
    intro hnd huniq
    rw [List.countP_cons]
    obtain ⟨hx, hxs⟩ := List.nodup_cons.mp hnd
    by_cases hpx : p x = true
    · have hzero : xs.countP p = 0 := by
        rw [List.countP_eq_zero]
        intro y hy hpy
        exact hx ((huniq y (List.mem_cons_of_mem _ hy) x
          (List.mem_cons_self _ _) hpy hpx) ▸ hy)
      rw [hzero]
      simp [hpx]
    · have h1 := ih hxs (fun a ha b hb hpa hpb =>
        huniq a (List.mem_cons_of_mem _ ha) b (List.mem_cons_of_mem _ hb) hpa hpb)
      have hfalse : p x = false := by
        cases h : p x
        · rfl
        · exact absurd h hpx
      rw [hfalse]
      simpa using h1

theorem selectedSum_eq_two_wsum (g gU : Graph T) (hw : WF g)
    (hstat : StaticSame g gU) (KF : Finset Nat)
    (hsel : ∀ eid, selectedOf gU eid = true ↔ (eid ∈ KF ∨ revid g eid ∈ KF))
    (hcanon : ∀ i ∈ KF, ∃ e, g.edge? i = some e ∧ e.orig < e.dest) :
    selectedWeightSum gU = 2 * wsum (uedges g) KF := by
  have hlenE : gU.edges.length = g.edges.length := hstat.2.2.2.1
  have hKFsub : ∀ i ∈ KF, i < g.edges.length := by
    intro i hi
    obtain ⟨ei, hei, _⟩ := hcanon i hi
    exact edge?_lt g i ei hei
  have hrevKFvalid : ∀ i ∈ KF, revid g i < g.edges.length := by
    intro i hi
    obtain ⟨ei, hei, _⟩ := hcanon i hi
    obtain ⟨re, hre, _, _, _, _, _⟩ := revid_spec g hw i ei hei
    exact edge?_lt g _ re hre
  have hrevrev : ∀ i ∈ KF, revid g (revid g i) = i := by
    intro i hi
    obtain ⟨ei, hei, _⟩ := hcanon i hi
    exact revid_revid g hw i ei hei
  have hfilter : (Finset.range g.edges.length).filter
      (fun i => selectedOf gU i = true) = KF ∪ KF.image (revid g) := by
    ext i
    rw [Finset.mem_filter, Finset.mem_range, Finset.mem_union,
      Finset.mem_image]
    constructor
    · intro ⟨hilt, hcase⟩
      rcases (hsel i).mp hcase with h | h
      · exact Or.inl h
      · refine Or.inr ⟨revid g i, h, ?_⟩
        obtain ⟨ei, hei⟩ : ∃ ei, g.edge? i = some ei := by
          rw [Graph.edge?, List.getElem?_eq_getElem hilt]
          exact ⟨_, rfl⟩
        exact revid_revid g hw i ei hei
    · intro h
      rcases h with h | ⟨k, hk, hki⟩
      · exact ⟨hKFsub i h, (hsel i).mpr (Or.inl h)⟩
      · refine ⟨by rw [← hki]; exact hrevKFvalid k hk, (hsel i).mpr (Or.inr ?_)⟩
        rw [← hki, hrevrev k hk]
        exact hk
  have hdisj : Disjoint KF (KF.image (revid g)) := by
    rw [Finset.disjoint_left]
    intro i hi him
    obtain ⟨k, hk, hki⟩ := Finset.mem_image.mp him
    obtain ⟨ei, hei, hilt⟩ := hcanon i hi
    obtain ⟨ek, hek, hklt⟩ := hcanon k hk
    obtain ⟨rk, hrk, hro, hrd, hrwk, hrrk, hrnek⟩ := revid_spec g hw k ek hek
    rw [← hki] at hei
    rw [hrk] at hei
    cases hei
    rw [hro, hrd] at hilt
    omega
  have himg : ∑ i in KF.image (revid g), weightOf g i =
      ∑ k in KF, weightOf g k := by
    rw [Finset.sum_image (fun x hx y hy h => by
      rw [← hrevrev x hx, h, hrevrev y hy])]
    refine Finset.sum_congr rfl ?_
    intro k hk
    obtain ⟨ek, hek, hklt2⟩ := hcanon k hk
    rw [← ewt_uedges, ← ewt_uedges, ewt_revid g hw k ek hek]
  calc selectedWeightSum gU
      = ∑ i in Finset.range g.edges.length,
          (if selectedOf gU i = true then weightOf gU i else 0) := by
        rw [selectedWeightSum, hlenE]
    _ = ∑ i in Finset.range g.edges.length,
          (if selectedOf gU i = true then weightOf g i else 0) := by
        refine Finset.sum_congr rfl ?_
        intro i hi
        rw [weightOf_congr_static g gU hstat i]
    _ = ∑ i in (Finset.range g.edges.length).filter
          (fun i => selectedOf gU i = true), weightOf g i :=
        (Finset.sum_filter _ _).symm
    _ = ∑ i in KF ∪ KF.image (revid g), weightOf g i := by rw [hfilter]
    _ = (∑ i in KF, weightOf g i) + ∑ i in KF.image (revid g), weightOf g i :=
        Finset.sum_union hdisj
    _ = 2 * wsum (uedges g) KF := by
        rw [himg]
        have hconv : wsum (uedges g) KF = ∑ k in KF, weightOf g k := by
          rw [wsum]
          exact Finset.sum_congr rfl (fun i hi => ewt_uedges g i)
        rw [hconv]
        ring

theorem kruskal_main (g : Graph T) (hw : WF g) (hne : g.vertexSet ≠ [])
    (hconn : ∀ v, v < g.vertexSet.length →
      ReachOn (uedges g) (Finset.range (uedges g).length) 0 v) :
    ∃ gk, g.calculateKruskal = some gk ∧
      ∃ q : ℚ, IsMSTWeight g.vertexSet.length (uedges g) q ∧
        selectedWeightSum gk = 2 * q := by
  have hpos : 0 < g.vertexSet.length := List.length_pos.mpr hne
  obtain ⟨hnd0, hiff0, hsort0⟩ := sortEdges_kruskalBase_props g hw
  have hinvI : DSUInv ((kruskalInit g).clearSelected) :=
    DSUInv_of_vertexSet_eq (kruskalInit g) _
      (vertexSet_clearSelected (kruskalInit g)) (DSUInv_kruskalInit g)
  have hRI : ∀ z r, z < g.vertexSet.length →
      RootOf ((kruskalInit g).clearSelected) z r → r = z := by
    intro z r hz h
    cases h with
    | root x hx => rfl
    | step x p rr hp hne2 hr =>
      rw [pathOf_kruskalBase g z hz] at hp
      cases hp
      exact absurd rfl hne2
  have hstI : KruSt g ((kruskalInit g).clearSelected) ∅
      (sortEdges ((kruskalInit g).clearSelected)
        (collectEdges ((kruskalInit g).clearSelected))) := by
    refine ⟨hinvI, static_kruskalBase g, ?_, ?_, ?_, ?_, ?_, ?_⟩
    · intro j
      rw [selectedOf_kruskalBase g j]
      simp
    · intro x y hx hy
      constructor
      · intro ⟨r, hxr, hyr⟩
        have h1 := hRI x r hx hxr
        have h2 := hRI y r hy hyr
        rw [← h1, ← h2]
        exact Relation.ReflTransGen.refl
      · intro hr
        have hxy : x = y := reach_empty _ x y hr
        refine ⟨x, RootOf.root x (pathOf_kruskalBase g x hx), ?_⟩
        rw [← hxy]
        exact RootOf.root x (pathOf_kruskalBase g x hx)
    · have h1 : rootCount ((kruskalInit g).clearSelected) =
          rootCount (kruskalInit g) := by
        refine rootCount_congr (kruskalInit g) _ ?_ ?_
        · rw [vertexSet_clearSelected]
        · intro y
          rw [pathOf, pathOf, Graph.vertex?, Graph.vertex?,
            vertexSet_clearSelected]
      rw [h1, rootCount_kruskalInit]
      simp
    · intro i hi
      exact absurd hi (Finset.not_mem_empty i)
    · intro i hi
      exact absurd hi (Finset.not_mem_empty i)
    · intro T0 hT0
      refine ⟨T0, hT0, le_refl _, Finset.empty_subset T0, ?_⟩
      intro f hf
      have hflt : f < g.edges.length := by
        have := hT0.1 f hf
        rwa [length_uedges] at this
      obtain ⟨ef, hef⟩ : ∃ ef, g.edge? f = some ef := by
        rw [Graph.edge?, List.getElem?_eq_getElem hflt]
        exact ⟨_, rfl⟩
      rcases Nat.lt_trichotomy ef.orig ef.dest with hlt | heq | hgt
      · exact Or.inr (Or.inl ((hiff0 f).mpr ⟨ef, hef, hlt⟩))
      · exfalso
        refine tree_no_selfloop g.vertexSet.length (uedges g) T0 hT0 f hf
          ef.orig ?_
        exact (econnects_uedges g f ef.orig ef.orig).mpr
          ⟨ef, hef, Or.inl ⟨rfl, heq.symm⟩⟩
      · refine Or.inr (Or.inr ?_)
        obtain ⟨re, hre, hro, hrd, hrw2, hrr, hrne⟩ := revid_spec g hw f ef hef
        refine (hiff0 (revid g f)).mpr ⟨re, hre, ?_⟩
        rw [hro, hrd]
        omega
  obtain ⟨gU, KF, heqloop, hKF0, hstF, hreachF⟩ :=
    kruskalLoopSel g hw _ _ ∅ hstI hnd0 (fun i hi => (hiff0 i).mp hi) hsort0
  have hphase : kruskalUnionPhase g = some gU := heqloop
  have hlenU : gU.vertexSet.length = g.vertexSet.length := hstF.stat.1
  have hedgeReach : ∀ i x y, econnects (uedges g) i x y →
      ReachOn (uedges g) KF x y := by
    intro i x y hc
    obtain ⟨ei, hei, hor⟩ := (econnects_uedges g i x y).mp hc
    rcases Nat.lt_trichotomy ei.orig ei.dest with hlt | heq2 | hgt
    · exact hreachF i ((hiff0 i).mpr ⟨ei, hei, hlt⟩) x y hc
    · have hxy : x = y := by
        rcases hor with ⟨h1, h2⟩ | ⟨h1, h2⟩ <;> omega
      rw [hxy]
      exact Relation.ReflTransGen.refl
    · obtain ⟨re, hre, hro, hrd, hrw2, hrr, hrne⟩ := revid_spec g hw i ei hei
      have hcanrev := (hiff0 (revid g i)).mpr ⟨re, hre, by rw [hro, hrd]; omega⟩
      exact hreachF (revid g i) hcanrev x y (econnects_revid g hw i x y hc)
  have hallreach : ∀ v, v < g.vertexSet.length →
      ReachOn (uedges g) KF 0 v := by
    intro v hv
    refine reach_simulate (uedges g) (Finset.range (uedges g).length) KF
      ?_ 0 v (hconn v hv)
    intro i hi x y hc
    exact hedgeReach i x y hc
  have hrc1 : rootCount gU = 1 := by
    have hle : rootCount gU ≤ 1 := by
      rw [rootCount, hlenU]
      refine countP_le_one_of_unique _ _ (List.nodup_range _) ?_
      intro a ha b hb hpa hpb
      rw [List.mem_range] at ha hb
      rw [decide_eq_true_eq] at hpa hpb
      have hra : RootOf gU a a := RootOf.root a hpa
      have hrb : RootOf gU b b := RootOf.root b hpb
      have hreach : ReachOn (uedges g) KF a b :=
        Relation.ReflTransGen.trans
          (reachOn_symm _ _ _ _ (hallreach a ha)) (hallreach b hb)
      obtain ⟨r, h1, h2⟩ := (hstF.comp a b ha hb).mpr hreach
      rw [RootOf_unique gU a a r hra h1, RootOf_unique gU b b r hrb h2]
    have hge : 0 < rootCount gU := by
      obtain ⟨r, hr1, hr2⟩ := hstF.inv.root_exists (by rw [hlenU]; exact hpos)
      rw [rootCount]
      rw [List.countP_pos]
      exact ⟨r, List.mem_range.mpr hr1, by simp [hr2]⟩
    omega
  have hcardKF : KF.card + 1 = g.vertexSet.length := by
    have hc := hstF.count
    omega
  have hKFtree : IsSpanTree g.vertexSet.length (uedges g) KF := by
    refine ⟨?_, hallreach, hcardKF⟩
    intro i hi
    obtain ⟨ei, hei, _⟩ := hstF.canon i hi
    rw [length_uedges]
    exact edge?_lt g i ei hei
  have hminKF : ∀ T0, IsSpanTree g.vertexSet.length (uedges g) T0 →
      wsum (uedges g) KF ≤ wsum (uedges g) T0 := by
    intro T0 hT0
    obtain ⟨TT, hTT, hwT, hsub, hcont⟩ := hstF.opt T0 hT0
    have hTTK : TT = KF := by
      refine Finset.Subset.antisymm ?_ hsub
      intro f hf
      rcases hcont f hf with h | h | h
      · exact h
      · exact absurd h (List.not_mem_nil f)
      · exact absurd h (List.not_mem_nil _)
    rw [← hTTK]
    exact hwT
  have hswsU : selectedWeightSum gU = 2 * wsum (uedges g) KF :=
    selectedSum_eq_two_wsum g gU hw hstF.stat KF hstF.sel hstF.canon
  have hneU : gU.vertexSet ≠ [] := by
    intro hc
    have h0 : gU.vertexSet.length = 0 := by rw [hc]; rfl
    rw [hlenU] at h0
    omega
  have heqK := calculateKruskal_eq g gU hphase hneU
  refine ⟨_, heqK, wsum (uedges g) KF, ⟨⟨KF, hKFtree, rfl⟩, hminKF⟩, ?_⟩
  have hedgesk : (dfsKruskalPath
      (((gU.resetVisited).updateVertex 0
        (fun v => { v with path := none })).vertexSet.length)
      ((gU.resetVisited).updateVertex 0 (fun v => { v with path := none }))
      0).edges = gU.edges := by
    rw [edges_dfsKruskalPath]
    rfl
  rw [selectedWeightSum_congr gU _ hedgesk]
  exact hswsU

/-- C2: on every connected weighted undirected graph built through the
construction API, `calculateKruskal` and `calculatePrim` agree on the
minimum-spanning-tree weight: the sum of the weights of the edges whose
`selected` flag is set after `calculateKruskal`, divided by 2 (each
undirected edge appears as two directed edges), equals the sum of the
non-root vertex distances after `calculatePrim`. -/
theorem kruskal_prim_weight_agree [DecidableEq T] (ops : List (BuildOp T))
    (hne : (buildGraph ops).vertexSet ≠ [])
    (hconn : ∀ v, v < (buildGraph ops).vertexSet.length →
      ReachOn (uedges (buildGraph ops))
        (Finset.range (uedges (buildGraph ops)).length) 0 v) :
    ∃ gk gp, (buildGraph ops).calculateKruskal = some gk ∧
      (buildGraph ops).calculatePrim = some gp ∧
      ((selectedWeightSum gk / 2 : ℚ) : WithTop ℚ) =
        ∑ v in (Finset.range (buildGraph ops).vertexSet.length).erase 0,
          distOf gp v := by
  obtain ⟨gk, heqk, qk, hmstk, hsum⟩ :=
    kruskal_main (buildGraph ops) (WF_buildGraph ops) hne hconn
  obtain ⟨gp, heqp, hroot, hnz, qp, hmstp, hsump⟩ :=
    prim_main (buildGraph ops) (WF_buildGraph ops) hne hconn
  have hq : qk = qp :=
    isMSTWeight_unique _ _ qk qp hmstk hmstp
  refine ⟨gk, gp, heqk, heqp, ?_⟩
  rw [hsum]
  have h2 : (2 * qk) / 2 = qk := by ring
  rw [h2, hq]
  exact hsump.symm

theorem kruskal_prim_weight_agree_witness :
    ((buildGraph [BuildOp.vertex 0, BuildOp.vertex 1, BuildOp.biEdge 0 1 7]
        : Graph ℕ).vertexSet ≠ []) ∧
    ∃ gk gp, (buildGraph [BuildOp.vertex 0, BuildOp.vertex 1,
        BuildOp.biEdge 0 1 7] : Graph ℕ).calculateKruskal = some gk ∧
      (buildGraph [BuildOp.vertex 0, BuildOp.vertex 1,
        BuildOp.biEdge 0 1 7] : Graph ℕ).calculatePrim = some gp ∧
      ((selectedWeightSum gk / 2 : ℚ) : WithTop ℚ) =
        ∑ v in (Finset.range (buildGraph [BuildOp.vertex 0, BuildOp.vertex 1,
          BuildOp.biEdge 0 1 7] : Graph ℕ).vertexSet.length).erase 0,
          distOf gp v := by
  have hne : (buildGraph [BuildOp.vertex 0, BuildOp.vertex 1,
      BuildOp.biEdge 0 1 7] : Graph ℕ).vertexSet ≠ [] := by decide
  have hconn : ∀ v, v < (buildGraph [BuildOp.vertex 0, BuildOp.vertex 1,
      BuildOp.biEdge 0 1 7] : Graph ℕ).vertexSet.length →
      ReachOn (uedges (buildGraph [BuildOp.vertex 0, BuildOp.vertex 1,
        BuildOp.biEdge 0 1 7] : Graph ℕ))
        (Finset.range (uedges (buildGraph [BuildOp.vertex 0,
          BuildOp.vertex 1, BuildOp.biEdge 0 1 7] : Graph ℕ)).length)
        0 v := by
    intro v hv
    have hlen : (buildGraph [BuildOp.vertex 0, BuildOp.vertex 1,
        BuildOp.biEdge 0 1 7] : Graph ℕ).vertexSet.length = 2 := by decide
    rw [hlen] at hv
    interval_cases v
    · exact Relation.ReflTransGen.refl
    · refine Relation.ReflTransGen.single ⟨0, ?_, ?_⟩
      · decide
      · exact ⟨(0, 1, 7), by decide, Or.inl ⟨rfl, rfl⟩⟩
  exact ⟨hne, kruskal_prim_weight_agree
    [BuildOp.vertex 0, BuildOp.vertex 1, BuildOp.biEdge 0 1 7] hne hconn⟩
